import Mathlib

/-!
Verification development for the simplified-OpenAPI pipeline
(`src/bin/modules/simplified-openapi.mjs`).

The JavaScript code operates on one mutable in-memory JSON/YAML tree.
We embed that tree as the inductive type `JVal`; in-place mutation becomes
functional update, and writes through resolved JSON-pointer parents become
functional updates at explicit paths into the document.  Documents parsed
from JSON/YAML are trees (no aliasing), so the identity-based visited sets
of the source (`WeakSet` in the normalizer, the `visited` sets of
`findRefsInObject` and `cleanBrokenRefs`), which only guard against
revisiting one physical node reachable through two references, are dropped:
in a tree each node is reached at most once per traversal.

Unbounded iteration (the recursive schema traversal, which in the source is
bounded by the finite number of physical nodes, and the name-collision
`while` loop) is modelled with explicit fuel; every theorem quantified over
fuel holds for all fuel values, and concrete runs are given ample fuel.
-/

/-- A JSON value, as produced by `yaml.load` / `JSON.parse`.  Objects keep
their fields in insertion order, mirroring JavaScript object key order. -/
inductive JVal where
  | null
  | bool (b : Bool)
  | num (n : Int)
  | str (s : String)
  | arr (items : List JVal)
  | obj (fields : List (String × JVal))
  deriving Repr

namespace JVal

/-- JavaScript truthiness of a property read: `undefined` (absent, `none`),
`null`, `false`, `0` and `""` are falsy; objects and arrays are truthy. -/
def truthy : Option JVal → Bool
  | some JVal.null => false
  | some (JVal.bool b) => b
  | some (JVal.num n) => n != 0
  | some (JVal.str s) => s ≠ ""
  | some (JVal.arr _) => true
  | some (JVal.obj _) => true
  | none => false

/-- `typeof v === 'object'` for a present value (true for objects, arrays
and `null` in JavaScript; here `null` is split off where the source also
tests truthiness). -/
def isObjLike : JVal → Bool
  | JVal.obj _ => true
  | JVal.arr _ => true
  | _ => false

/-- Property read `v[k]` on an object (`undefined` when absent or when `v`
is not an object). -/
def jGet : JVal → String → Option JVal
  | JVal.obj fields, k => fields.lookup k
  | _, _ => none

/-- Assignment `obj[k] = x` on an object field list: an existing key keeps
its position, a new key is appended (JavaScript object key order). -/
def setField : List (String × JVal) → String → JVal → List (String × JVal)
  | [], k, x => [(k, x)]
  | (k', v) :: rest, k, x =>
      if k' = k then (k', x) :: rest else (k', v) :: setField rest k x

/-- Assignment `v[k] = x`; a no-op on non-objects (the source would throw a
`TypeError` there; no modelled run reaches that case). -/
def jSet : JVal → String → JVal → JVal
  | JVal.obj fields, k, x => JVal.obj (setField fields k x)
  | v, _, _ => v

/-- `delete obj[k]`; a no-op on non-objects. -/
def jDel : JVal → String → JVal
  | JVal.obj fields, k => JVal.obj (fields.filter (fun kv => kv.1 ≠ k))
  | v, _ => v

/-- The keys of an object value (empty for non-objects). -/
def keys : JVal → List String
  | JVal.obj fields => fields.map Prod.fst
  | _ => []

/-- `Object.entries(v)` restricted to object values (the pipeline only
enumerates entries of plain objects). -/
def entries : JVal → List (String × JVal)
  | JVal.obj fields => fields
  | _ => []

/-- One step into the document: an object key or an array index. -/
inductive Seg where
  | key (s : String)
  | idx (n : Nat)
  deriving Repr, DecidableEq

/-- Child lookup along one path segment. -/
def getSeg : JVal → Seg → Option JVal
  | JVal.obj fields, Seg.key k => fields.lookup k
  | JVal.arr items, Seg.idx n => items.get? n
  | _, _ => none

/-- Node lookup along a path of segments. -/
def getAt : JVal → List Seg → Option JVal
  | v, [] => some v
  | v, s :: rest => match getSeg v s with
      | some c => getAt c rest
      | none => none

/-- Functional update of the child at one segment (no-op when the segment
does not address an existing child, mirroring that the source only ever
writes through parents obtained from a successful resolution). -/
def setSeg : JVal → Seg → JVal → JVal
  | JVal.obj fields, Seg.key k, x => JVal.obj (setField fields k x)
  | JVal.arr items, Seg.idx n, x => JVal.arr (items.set n x)
  | v, _, _ => v

/-- Functional update of the node at a path (`parent[key] = x` through a
chain of parents). -/
def setAt : JVal → List Seg → JVal → JVal
  | _, [], x => x
  | v, s :: rest, x => match getSeg v s with
      | some c => setSeg v s (setAt c rest x)
      | none => v

/-- In-place modification of the node at a path. -/
def modifyAt (v : JVal) (path : List Seg) (f : JVal → JVal) : JVal :=
  match getAt v path with
  | some c => setAt v path (f c)
  | none => v

end JVal

mutual
/-- Decidable structural equality of JSON values. -/
def decEqJ : (a b : JVal) → Decidable (a = b)
  | JVal.null, JVal.null => isTrue rfl
  | JVal.bool a, JVal.bool b =>
      match decEq a b with
      | isTrue h => isTrue (by rw [h])
      | isFalse h => isFalse (by simp [h])
  | JVal.num a, JVal.num b =>
      match decEq a b with
      | isTrue h => isTrue (by rw [h])
      | isFalse h => isFalse (by simp [h])
  | JVal.str a, JVal.str b =>
      match decEq a b with
      | isTrue h => isTrue (by rw [h])
      | isFalse h => isFalse (by simp [h])
  | JVal.arr a, JVal.arr b =>
      match decEqJList a b with
      | isTrue h => isTrue (by rw [h])
      | isFalse h => isFalse (by simp [h])
  | JVal.obj a, JVal.obj b =>
      match decEqJFields a b with
      | isTrue h => isTrue (by rw [h])
      | isFalse h => isFalse (by simp [h])
  | JVal.null, JVal.bool _ => isFalse (by simp)
  | JVal.null, JVal.num _ => isFalse (by simp)
  | JVal.null, JVal.str _ => isFalse (by simp)
  | JVal.null, JVal.arr _ => isFalse (by simp)
  | JVal.null, JVal.obj _ => isFalse (by simp)
  | JVal.bool _, JVal.null => isFalse (by simp)
  | JVal.bool _, JVal.num _ => isFalse (by simp)
  | JVal.bool _, JVal.str _ => isFalse (by simp)
  | JVal.bool _, JVal.arr _ => isFalse (by simp)
  | JVal.bool _, JVal.obj _ => isFalse (by simp)
  | JVal.num _, JVal.null => isFalse (by simp)
  | JVal.num _, JVal.bool _ => isFalse (by simp)
  | JVal.num _, JVal.str _ => isFalse (by simp)
  | JVal.num _, JVal.arr _ => isFalse (by simp)
  | JVal.num _, JVal.obj _ => isFalse (by simp)
  | JVal.str _, JVal.null => isFalse (by simp)
  | JVal.str _, JVal.bool _ => isFalse (by simp)
  | JVal.str _, JVal.num _ => isFalse (by simp)
  | JVal.str _, JVal.arr _ => isFalse (by simp)
  | JVal.str _, JVal.obj _ => isFalse (by simp)
  | JVal.arr _, JVal.null => isFalse (by simp)
  | JVal.arr _, JVal.bool _ => isFalse (by simp)
  | JVal.arr _, JVal.num _ => isFalse (by simp)
  | JVal.arr _, JVal.str _ => isFalse (by simp)
  | JVal.arr _, JVal.obj _ => isFalse (by simp)
  | JVal.obj _, JVal.null => isFalse (by simp)
  | JVal.obj _, JVal.bool _ => isFalse (by simp)
  | JVal.obj _, JVal.num _ => isFalse (by simp)
  | JVal.obj _, JVal.str _ => isFalse (by simp)
  | JVal.obj _, JVal.arr _ => isFalse (by simp)
def decEqJList : (a b : List JVal) → Decidable (a = b)
  | [], [] => isTrue rfl
  | [], _ :: _ => isFalse (by simp)
  | _ :: _, [] => isFalse (by simp)
  | a :: as, b :: bs =>
      match decEqJ a b, decEqJList as bs with
      | isTrue h1, isTrue h2 => isTrue (by rw [h1, h2])
      | isFalse h1, _ => isFalse (by simp [h1])
      | _, isFalse h2 => isFalse (by simp [h2])
def decEqJFields : (a b : List (String × JVal)) → Decidable (a = b)
  | [], [] => isTrue rfl
  | [], _ :: _ => isFalse (by simp)
  | _ :: _, [] => isFalse (by simp)
  | (k, a) :: as, (l, b) :: bs =>
      match decEq k l, decEqJ a b, decEqJFields as bs with
      | isTrue h0, isTrue h1, isTrue h2 => isTrue (by rw [h0, h1, h2])
      | isFalse h0, _, _ => isFalse (by simp [h0])
      | _, isFalse h1, _ => isFalse (by simp [h1])
      | _, _, isFalse h2 => isFalse (by simp [h2])
end

instance : DecidableEq JVal := decEqJ

instance {ε α : Type} [DecidableEq ε] [DecidableEq α] : DecidableEq (Except ε α) :=
  fun a b =>
    match a, b with
    | Except.error e1, Except.error e2 =>
        match decEq e1 e2 with
        | isTrue h => isTrue (by rw [h])
        | isFalse h => isFalse (by simp [h])
    | Except.ok x, Except.ok y =>
        match decEq x y with
        | isTrue h => isTrue (by rw [h])
        | isFalse h => isFalse (by simp [h])
    | Except.error _, Except.ok _ => isFalse (by simp)
    | Except.ok _, Except.error _ => isFalse (by simp)

open JVal

/-! ## Character-list string utilities

The JavaScript string operations used by the module (`startsWith`, `slice`,
`split('/')`, `includes('/')`, `replace` of a literal, the regexes of
`toPascalCase`) are embedded over `List Char`. -/

/-- `p` is a prefix of `s` (used for `s.startsWith(p)`). -/
def isPre : List Char → List Char → Bool
  | [], _ => true
  | _ :: _, [] => false
  | p :: ps, c :: cs => p == c && isPre ps cs

/-- `s.startsWith(p)`. -/
def jsStartsWith (s p : String) : Bool := isPre p.data s.data

/-- `s.slice(n)` for a non-negative character offset. -/
def jsSliceFrom (s : String) (n : Nat) : String := String.mk (s.data.drop n)

/-- `s.includes(c)` for a single character. -/
def jsIncludesChar (s : String) (c : Char) : Bool := s.data.contains c

/-- Remove the first occurrence of `pat` from `s`
(`s.replace(pat, '')` with a string pattern). -/
def replOnce : List Char → List Char → List Char
  | [], _ => []
  | c :: cs, pat =>
      if isPre pat (c :: cs) then (c :: cs).drop pat.length
      else c :: replOnce cs pat

/-- `s.replace(pat, '')` for a literal string pattern (first occurrence). -/
def jsReplaceOnce (s pat : String) : String := String.mk (replOnce s.data pat.data)

/-- Replace every `'~' t` pair by `r` (the two passes of
`decodePointerSegment`). -/
def replaceTilde (t r : Char) : List Char → List Char
  | [] => []
  | [c] => [c]
  | c :: d :: rest =>
      if c = '~' ∧ d = t then r :: replaceTilde t r rest
      else c :: replaceTilde t r (d :: rest)

/-- `segment.replace(/~1/g, '/').replace(/~0/g, '~')`. -/
def decodePointerSegment (s : String) : String :=
  String.mk (replaceTilde '0' '~' (replaceTilde '1' '/' (s.data)))

/-- `s.split('/')`. -/
def splitSlash : List Char → List String
  | [] => [""]
  | c :: cs =>
      if c = '/' then "" :: splitSlash cs
      else match splitSlash cs with
        | g :: gs => (String.mk (c :: g.data)) :: gs
        | [] => [String.mk [c]]

/-- ASCII `[a-zA-Z0-9]`, the character class of `toPascalCase`. -/
def isAlnumCh (c : Char) : Bool := c.isAlpha || c.isDigit

/-- `value.replace(/([a-z\d])([A-Z])/g, '$1 $2')`: insert a space between a
lower-case letter or digit and a following upper-case letter. -/
def camelSplit : List Char → List Char
  | [] => []
  | [c] => [c]
  | c :: d :: rest =>
      if (c.isLower || c.isDigit) && d.isUpper then c :: ' ' :: camelSplit (d :: rest)
      else c :: camelSplit (d :: rest)

/-- Maximal runs of alphanumeric characters (the effect of mapping
non-alphanumeric runs to spaces, trimming, splitting on spaces and dropping
empty pieces). -/
def splitNonAlnum : List Char → List (List Char)
  | [] => [[]]
  | c :: cs =>
      if isAlnumCh c then
        match splitNonAlnum cs with
        | g :: gs => (c :: g) :: gs
        | [] => [[c]]
      else [] :: splitNonAlnum cs

/-- `word.charAt(0).toUpperCase() + word.slice(1)`. -/
def capitalizeWord : List Char → List Char
  | [] => []
  | c :: cs => c.toUpper :: cs

/-- `toPascalCase` from the source: camel-case boundaries and
non-alphanumeric runs become word breaks, each word is capitalized, and the
words are concatenated. -/
def toPascalCase (value : String) : String :=
  if value = "" then ""
  else
    let words := (splitNonAlnum (camelSplit value.data)).filter (fun w => w ≠ [])
    String.mk (List.flatten (words.map capitalizeWord))

/-! ## `shouldHoistRef` -/

/-- `shouldHoistRef` from the source: a local `$ref` needs hoisting unless
it starts with `#/$defs/`, addresses `#/components/schemas/<name>` with no
further segments, or addresses any other `#/components/...` location. -/
def shouldHoistRef (ref : String) : Bool :=
  if !(jsStartsWith ref "#/") then false
  else if jsStartsWith ref "#/$defs/" then false
  else if jsStartsWith ref "#/components/schemas/" then
    jsIncludesChar (jsSliceFrom ref ("#/components/schemas/".length)) '/'
  else if jsStartsWith ref "#/components/" then false
  else true

/-! ## JSON-pointer resolution (`resolveJsonPointerWithParent`)

The source walks the live document and returns the parent container, the
key within it and the current value; writes then go through
`parent[key] = ...`.  Here resolution returns the full path of segments to
the addressed location (so a write is a functional `setAt`) together with
the value found there (`none` when the final segment addresses nothing,
matching the `value: undefined` outcome).  A walk that enters a scalar
(string, number, boolean) or `null` always ends with the source returning
`null` — either the next child read is `undefined`, or the final parent
fails the `typeof parent !== 'object'` check — so the embedding cuts those
walks off directly. -/

/-- A canonical JavaScript array index: digits only, no leading zero
(except `"0"` itself). -/
def isCanonicalIndex (s : String) : Bool :=
  s ≠ "" && s.data.all Char.isDigit && (s = "0" || s.data.head? ≠ some '0')

/-- The numeric value of a digit string. -/
def digitsToNat (s : String) : Nat :=
  s.data.foldl (fun n c => n * 10 + (c.toNat - ('0').toNat)) 0

/-- One resolution step: the segment a string key denotes in a container
(object key, or array index when canonical). -/
def segFor (v : JVal) (s : String) : Seg :=
  match v with
  | JVal.arr _ => if isCanonicalIndex s then Seg.idx (digitsToNat s) else Seg.key s
  | _ => Seg.key s

/-- The walk of `resolveJsonPointerWithParent`: returns the path to the
addressed location and the value found there. -/
def resolveSegs : JVal → List String → List Seg → Option (List Seg × Option JVal)
  | _, [], _ => none
  | cur, [seg], acc =>
      if cur.isObjLike then
        let sg := segFor cur seg
        some (acc ++ [sg], cur.getSeg sg)
      else none
  | cur, seg :: rest, acc =>
      if cur.isObjLike then
        let sg := segFor cur seg
        match cur.getSeg sg with
        | some child => resolveSegs child rest (acc ++ [sg])
        | none => none
      else none

/-- `resolveJsonPointerWithParent` from the source, in path form. -/
def resolveJsonPointerWithParent (root : JVal) (pointer : String) :
    Option (List Seg × Option JVal) :=
  if !(jsStartsWith pointer "#/") then none
  else resolveSegs root ((splitSlash (jsSliceFrom pointer 2).data).map decodePointerSegment) []

/-- The value a pointer resolves to, when it addresses an existing
location. -/
def resolvedValue (root : JVal) (pointer : String) : Option JVal :=
  match resolveJsonPointerWithParent root pointer with
  | some (_, some v) => some v
  | _ => none

/-! ## Component naming (`generateComponentName`) -/

/-- The structural keywords stripped from pointer segments when deriving a
component name. -/
def structuralSegments : List String :=
  ["components", "schemas", "$defs", "schema", "content", "responses",
   "requestBody", "properties", "definitions", "pathItems",
   "allOf", "anyOf", "oneOf", "then", "else", "if"]

/-- `extractPointerNameSegments` from the source. -/
def extractPointerNameSegments (pointer : String) (contextSegment : String) :
    List String :=
  if !(jsStartsWith pointer "#/") then []
  else
    let rawSegments := ((splitSlash (jsSliceFrom pointer 2).data).map
      decodePointerSegment).filter (fun s => s ≠ "")
    if rawSegments = [] then []
    else
      let relevantSegments :=
        match rawSegments with
        | "components" :: "schemas" :: rest => rest
        | "$defs" :: rest => rest
        | "paths" :: _ =>
            let idxs := (List.range rawSegments.length).filter
              (fun i => rawSegments.get? i = some "schema")
            match idxs.getLast? with
            | some i => rawSegments.drop (i + 1)
            | none => rawSegments.drop (rawSegments.length - 2)
        | _ => rawSegments
      let relevantSegments :=
        match relevantSegments with
        | "properties" :: rest => rest
        | l => l
      let sanitizedSegments := relevantSegments.filter
        (fun s => !(structuralSegments.contains s))
      let pascalSegments := (sanitizedSegments.map toPascalCase).filter (fun s => s ≠ "")
      let pascalSegments :=
        match pascalSegments with
        | p :: rest => if contextSegment ≠ "" ∧ p = contextSegment then rest else p :: rest
        | [] => []
      if pascalSegments = [] then ["Component"] else pascalSegments

/-- A string strictly longer than every member of `names` (used as the
value of the collision loop's unreachable fuel-exhaustion branch, so that
the returned name is always fresh). -/
def freshPad (names : List String) : String :=
  String.mk (List.replicate (1 + names.foldl (fun m s => max m s.length) 0) 'Z')

/-- The `while (existingNames.has(uniqueCandidate))` collision loop:
append `2`, `3`, ... until the candidate is unused (fuelled; the
fuel-exhaustion branch, unreachable for sufficient fuel, still returns a
fresh name by length). -/
def pickUniqueLoop (candidate : String) (names : List String) : Nat → Nat → String
  | _, 0 => candidate ++ freshPad names
  | k, fuel + 1 =>
      let c := candidate ++ Nat.repr k
      if names.contains c then pickUniqueLoop candidate names (k + 1) fuel else c

/-- `generateComponentName` from the source; returns the unique name and
the updated name registry (the source's `existingNames.add`). -/
def generateComponentName (contextName : String) (pointer : String)
    (existingNames : List String) : String × List String :=
  let contextSegment := toPascalCase contextName
  let pointerSegments := extractPointerNameSegments pointer contextSegment
  let (base, segments) :=
    if contextSegment = "" then
      match pointerSegments with
      | [] => ("Hoisted", ([] : List String))
      | b :: rest => (if b = "" then "Hoisted" else b, rest)
    else (contextSegment, pointerSegments)
  let suffix := String.join segments
  let candidate := if suffix = "" then base else base ++ suffix
  let candidate := if candidate = "" then "HoistedComponent" else candidate
  let uniqueCandidate :=
    if existingNames.contains candidate then
      pickUniqueLoop candidate existingNames 2 (existingNames.length + 1)
    else candidate
  (uniqueCandidate, existingNames ++ [uniqueCandidate])

/-! ## Endpoint allow-list and the endpoint-filter stage -/

/-- One record of the endpoint allow-list (`disabled` absent is modelled as
`false`). -/
structure Endpoint where
  pathPattern : String
  method : String
  toolName : String
  disabled : Bool
  deriving Repr, DecidableEq

/-- ASCII `toLowerCase`. -/
def jsToLower (s : String) : String := String.mk (s.data.map Char.toLower)

/-- Optional-chaining property read `o?.[k]`. -/
def oGet (o : Option JVal) (k : String) : Option JVal := o.bind (fun v => v.jGet k)

/-- The precondition loop of `createAndSaveSimplifiedOpenAPI`: every
non-disabled endpoint's `pathPattern` must be a truthy entry of
`openApiSpec.paths`, otherwise the run throws before any stage mutates the
document. -/
def checkEndpointPaths (spec : JVal) : List Endpoint → Except String Unit
  | [] => Except.ok ()
  | e :: rest =>
      if !(truthy (oGet (spec.jGet "paths") e.pathPattern)) then
        Except.error ("Path \"" ++ e.pathPattern ++ "\" not found in OpenAPI spec.")
      else checkEndpointPaths spec rest

/-- Operation-level parameter rewriting: a `$ref` into
`#/components/parameters/` is replaced by a copy of the resolved component
parameter when it exists.  Cases where the source would throw a `TypeError`
(`param` is `null`, or `param.$ref` is truthy but not a string) become
errors. -/
def resolveFilterParam (spec : JVal) (param : JVal) : Except String JVal :=
  match param with
  | JVal.null => Except.error "cannot read properties of null"
  | JVal.obj _ =>
      match param.jGet "$ref" with
      | some r =>
          if truthy (some r) then
            match r with
            | JVal.str s =>
                if jsStartsWith s "#/components/parameters/" then
                  let paramName := jsReplaceOnce s "#/components/parameters/"
                  let resolvedParam := oGet (oGet (some spec) "components") "parameters"
                    |>.bind (fun ps => ps.jGet paramName)
                  match resolvedParam with
                  | some rp => if truthy (some rp) then Except.ok rp else Except.ok param
                  | none => Except.ok param
                else Except.ok param
            | _ => Except.error "$ref is not a string"
          else Except.ok param
      | none => Except.ok param
  | _ => Except.ok param

/-- The per-operation mutation of the filter loop: assign `operationId`,
default `description` from `summary`, and rewrite parameter references. -/
def updateOperation (spec : JVal) (eo : Endpoint) (op : JVal) : Except String JVal :=
  match op with
  | JVal.obj _ => do
      let op := op.jSet "operationId" (JVal.str eo.toolName)
      let op :=
        if !(truthy (op.jGet "description")) && truthy (op.jGet "summary") then
          op.jSet "description" ((op.jGet "summary").getD JVal.null)
        else op
      match op.jGet "parameters" with
      | some ps =>
          if truthy (some ps) then
            match ps with
            | JVal.arr items => do
                let items' ← items.mapM (resolveFilterParam spec)
                pure (op.jSet "parameters" (JVal.arr items'))
            | _ => Except.error "parameters.map is not a function"
          else pure op
      | none => pure op
  | _ => Except.error "cannot set operationId on a non-object"

/-- Left-to-right effectful filter-map (the `for ... of Object.entries`
loops that delete or rewrite entries while possibly throwing). -/
def filterMapE (f : α → Except String (Option β)) : List α → Except String (List β)
  | [] => Except.ok []
  | a :: as => do
      match ← f a with
      | some b => do
          let rest ← filterMapE f as
          pure (b :: rest)
      | none => filterMapE f as

/-- The inner loop over one path item: keep exactly the entries whose key
matches some allow-listed method for this path (everything else, including
non-operation keys such as `parameters` or `summary`, is deleted), and
update kept operations. -/
def filterPathItem (spec : JVal) (e : List Endpoint) (value : JVal) :
    Except String JVal :=
  match value with
  | JVal.obj fields => do
      let fields' ← filterMapE (fun (kv : String × JVal) => do
        match e.find? (fun ep => jsToLower ep.method = kv.1) with
        | some eo => do
            let op' ← updateOperation spec eo kv.2
            pure (some (kv.1, op'))
        | none => pure none) fields
      pure (JVal.obj fields')
  | v => pure v

/-- The endpoint-filter stage (the `for (const [key, value] of
Object.entries(openApiSpec.paths))` loop): paths with no allow-list match
are deleted; surviving path items are filtered by `filterPathItem`. -/
def filterPathsStage (endpoints : List Endpoint) (spec : JVal) :
    Except String JVal :=
  match spec.jGet "paths" with
  | some (JVal.obj pathFields) => do
      let pathFields' ← filterMapE (fun (kv : String × JVal) => do
        let e := endpoints.filter (fun ep => ep.pathPattern = kv.1)
        if e.isEmpty then pure none
        else do
          let v' ← filterPathItem spec e kv.2
          pure (some (kv.1, v'))) pathFields
      pure (spec.jSet "paths" (JVal.obj pathFields'))
  | _ => pure spec

/-! ## Structural cleaner -/

mutual
/-- Structural equality of JSON values (JavaScript `===`-style comparison
is only ever applied to strings and booleans in the source; this full
version backs the `new Set` dedup of `required` lists). -/
def beqJ : JVal → JVal → Bool
  | JVal.null, JVal.null => true
  | JVal.bool a, JVal.bool b => a == b
  | JVal.num a, JVal.num b => a == b
  | JVal.str a, JVal.str b => a == b
  | JVal.arr a, JVal.arr b => beqJList a b
  | JVal.obj a, JVal.obj b => beqJFields a b
  | _, _ => false
def beqJList : List JVal → List JVal → Bool
  | [], [] => true
  | a :: as, b :: bs => beqJ a b && beqJList as bs
  | _, _ => false
def beqJFields : List (String × JVal) → List (String × JVal) → Bool
  | [], [] => true
  | (k, a) :: as, (l, b) :: bs => k == l && beqJ a b && beqJFields as bs
  | _, _ => false
end

/-- `[...new Set(xs)]`: drop duplicates, keeping first occurrences. -/
def dedupJAux (seen : List JVal) : List JVal → List JVal
  | [] => []
  | x :: xs =>
      if seen.any (beqJ x) then dedupJAux seen xs
      else x :: dedupJAux (seen ++ [x]) xs

/-- Template-literal stringification of a value (only scalar values reach
an interpolation site in the modelled runs; arrays and objects are
approximated). -/
def jsTemplateStr : JVal → String
  | JVal.str s => s
  | JVal.num n => toString n
  | JVal.bool b => cond b "true" "false"
  | JVal.null => "null"
  | JVal.arr _ => ""
  | JVal.obj _ => "[object Object]"

/-- `${schema.description || ''}`. -/
def descriptionOrEmpty (schema : JVal) : String :=
  match schema.jGet "description" with
  | some d => if truthy (some d) then jsTemplateStr d else ""
  | none => ""

/-- `s.trim()`. -/
def jsTrim (s : String) : String :=
  String.mk (((s.data.dropWhile Char.isWhitespace).reverse.dropWhile Char.isWhitespace).reverse)

mutual
/-- `removeODataTypeRecursively`: delete every `@odata.type` key in the
tree. -/
def removeODataTypeRecursively : JVal → JVal
  | JVal.arr items => JVal.arr (removeODataList items)
  | JVal.obj fields => JVal.obj (removeODataFields fields)
  | v => v
def removeODataList : List JVal → List JVal
  | [] => []
  | x :: xs => removeODataTypeRecursively x :: removeODataList xs
def removeODataFields : List (String × JVal) → List (String × JVal)
  | [] => []
  | (k, v) :: rest =>
      if k = "@odata.type" then removeODataFields rest
      else (k, removeODataTypeRecursively v) :: removeODataFields rest
end

/-- `item.$ref` is truthy. -/
def isRefItem (item : JVal) : Bool := truthy (item.jGet "$ref")

/-- `item.type === 'object' && item.nullable === true &&
Object.keys(item).length <= 2`. -/
def isNullableObjectMarker : JVal → Bool
  | JVal.obj fields =>
      (match fields.lookup "type" with
        | some (JVal.str s) => s = "object"
        | _ => false)
      && (match fields.lookup "nullable" with
        | some (JVal.bool b) => b
        | _ => false)
      && fields.length ≤ 2
  | _ => false

/-- The two-branch `anyOf` collapse shared verbatim by
`simplifyAnyOfSchema`, `flattenComplexSchema` and
`simplifyNestedPropertiesRecursively`: a reference plus an empty nullable
object marker becomes the reference with `nullable: true`. -/
def collapseRefNullablePair (schema : JVal) (items : List JVal) : JVal :=
  if items.any isRefItem && items.any isNullableObjectMarker then
    let refItem := (items.find? isRefItem).getD JVal.null
    let schema := schema.jDel "anyOf"
    let schema := schema.jSet "$ref" ((refItem.jGet "$ref").getD JVal.null)
    schema.jSet "nullable" (JVal.bool true)
  else schema

/-- The more-than-two-branch union collapse shared verbatim by the three
sites above: `type` becomes the first branch's `type` (or `'object'`),
`nullable: true` is set, the description gains a
`[Simplified from N options]` note, and the union keyword is deleted. -/
def collapseUnionKw (schema : JVal) (kw : String) (items : List JVal) : JVal :=
  let firstOption := items.head?.getD JVal.null
  let t := firstOption.jGet "type"
  let schema := schema.jSet "type" (if truthy t then t.getD JVal.null else JVal.str "object")
  let schema := schema.jSet "nullable" (JVal.bool true)
  let schema := schema.jSet "description"
    (JVal.str (jsTrim (descriptionOrEmpty schema ++ " [Simplified from " ++
      Nat.repr items.length ++ " options]")))
  schema.jDel kw

/-- `simplifyAnyOfSchema` from the source (the logging-only `context`
parameter is dropped). -/
def simplifyAnyOfSchema (schema : JVal) : JVal :=
  match schema.jGet "anyOf" with
  | some (JVal.arr anyOfItems) =>
      if anyOfItems.length = 2 then collapseRefNullablePair schema anyOfItems
      else if anyOfItems.length > 2 then collapseUnionKw schema "anyOf" anyOfItems
      else schema
  | _ => schema

/-- `flattenComplexSchema` from the source: the `anyOf` rules followed by
the `oneOf` more-than-two collapse (the `schemaName` parameter only feeds
logging). -/
def flattenComplexSchema (schema : JVal) (_schemaName : String) : JVal :=
  let schema :=
    match schema.jGet "anyOf" with
    | some (JVal.arr items) =>
        if items.length = 2 then collapseRefNullablePair schema items
        else if items.length > 2 then collapseUnionKw schema "anyOf" items
        else schema
    | _ => schema
  match schema.jGet "oneOf" with
  | some (JVal.arr items) =>
      if items.length > 2 then collapseUnionKw schema "oneOf" items else schema
  | _ => schema

/-- `shouldReduceProperties`. -/
def shouldReduceProperties (schema : JVal) : Bool :=
  match schema.jGet "properties" with
  | some p => truthy (some p) && (p.keys.length > 25)
  | none => false

/-- The priority retention list of `reduceProperties` (26 entries). -/
def priorityProperties : List String :=
  ["id", "name", "displayName", "description", "createdDateTime",
   "lastModifiedDateTime", "status", "state", "type", "value", "email",
   "userPrincipalName", "title", "content", "body", "subject", "message",
   "attachments", "error", "code", "details", "url", "href", "path",
   "method", "enabled"]

/-- `list.slice(0, stop)` with JavaScript negative-index semantics. -/
def jsSliceUpTo (l : List α) (stop : Int) : List α :=
  if stop < 0 then l.take ((l.length : Int) + stop).toNat else l.take stop.toNat

/-- `reduceProperties` from the source (the `schemaName` parameter only
feeds logging): keep the truthy priority properties (in priority order),
then fill `25 - kept` slots with the remaining keys in declaration order
(`slice(0, remainingSlots)`, which for a negative slot count keeps all but
the last `|remainingSlots|` keys), then set `additionalProperties: true`
and append the count note to the description. -/
def reduceProperties (schema : JVal) (_schemaName : String) : JVal :=
  match schema.jGet "properties" with
  | some properties =>
      let propertyCount := properties.keys.length
      if propertyCount > 25 then
        let keptPriority := priorityProperties.foldl (fun kept key =>
          if truthy (properties.jGet key) then
            setField kept key ((properties.jGet key).getD JVal.null)
          else kept) []
        let remainingSlots : Int := 25 - (keptPriority.length : Int)
        let otherKeys := properties.keys.filter
          (fun k => !(truthy ((JVal.obj keptPriority).jGet k)))
        let keptAll := (jsSliceUpTo otherKeys remainingSlots).foldl (fun kept k =>
          setField kept k ((properties.jGet k).getD JVal.null)) keptPriority
        let schema := schema.jSet "properties" (JVal.obj keptAll)
        let schema := schema.jSet "additionalProperties" (JVal.bool true)
        schema.jSet "description"
          (JVal.str (jsTrim (descriptionOrEmpty schema ++ " [Note: Simplified from " ++
            Nat.repr propertyCount ++ " properties to 25 most common ones]")))
      else schema
  | none => schema

/-- `Object.assign(target, src)` for object values (a no-op for non-object
sources, which the modelled runs never produce). -/
def assignInto (target : JVal) (src : JVal) : JVal :=
  match target, src with
  | JVal.obj t, JVal.obj s => JVal.obj (s.foldl (fun acc kv => setField acc kv.1 kv.2) t)
  | t, _ => t

/-- One member step of `mergeAllOfSchemas`: merge a referenced schema's
properties, required list and (first) description. -/
def mergeAllOfMember (merged refSchema : JVal) (copyDescription : Bool) : JVal :=
  let merged :=
    match refSchema.jGet "properties" with
    | some p =>
        if truthy (some p) then
          merged.jSet "properties"
            (assignInto ((merged.jGet "properties").getD (JVal.obj [])) p)
        else merged
    | none => merged
  let merged :=
    match refSchema.jGet "required" with
    | some (JVal.arr rs) =>
        let mergedReq := match merged.jGet "required" with
          | some (JVal.arr m) => m
          | _ => []
        merged.jSet "required" (JVal.arr (mergedReq ++ rs))
    | _ => merged
  if copyDescription then
    match refSchema.jGet "description" with
    | some d =>
        if truthy (some d) && !(truthy (merged.jGet "description")) then
          merged.jSet "description" d
        else merged
    | none => merged
  else merged

/-- One `allOf` item of `mergeAllOfSchemas`: a truthy string `$ref` is
resolved against the registry (dropping the canonical prefix), otherwise
the item's own properties are merged. -/
def mergeAllOfStep (allSchemas : List (String × JVal)) (merged item : JVal) : JVal :=
  match item.jGet "$ref" with
  | some (JVal.str s) =>
      if s ≠ "" then
        let refSchemaName := jsReplaceOnce s "#/components/schemas/"
        match allSchemas.lookup refSchemaName with
        | some refSchema =>
            if truthy (some refSchema) then mergeAllOfMember merged refSchema true
            else merged
        | none => merged
      else if truthy (item.jGet "properties") then mergeAllOfMember merged item false
      else merged
  | some other =>
      if truthy (some other) then merged
      else if truthy (item.jGet "properties") then mergeAllOfMember merged item false
      else merged
  | none =>
      if truthy (item.jGet "properties") then mergeAllOfMember merged item false
      else merged

/-- `mergeAllOfSchemas` from the source. -/
def mergeAllOfSchemas (allOfArray : List JVal) (allSchemas : List (String × JVal)) : JVal :=
  let merged := JVal.obj [("type", JVal.str "object"), ("properties", JVal.obj [])]
  let merged := allOfArray.foldl (mergeAllOfStep allSchemas) merged
  match merged.jGet "required" with
  | some (JVal.arr req) => merged.jSet "required" (JVal.arr (dedupJAux [] req))
  | _ => merged

/-- `simplifyNestedPropertiesRecursively` from the source, with
`remainingDepth = maxDepth - currentDepth` as the explicit recursion
budget (`maxDepth` is always 3): at `remainingDepth = 1` — that is,
`currentDepth === maxDepth - 1` — a nested object property is flattened to
a plain `type: 'object'`; above that, its properties are recursed into;
union rules then apply at every depth. -/
def simplifyNestedPropertiesRecursively : Nat → JVal → JVal
  | 0, properties => properties
  | Nat.succ rem, properties =>
      match properties with
      | JVal.obj fields =>
          JVal.obj (fields.map (fun kv => (kv.1,
            if kv.2.isObjLike then
              let prop := kv.2
              let prop :=
                if rem = 0 && truthy (prop.jGet "properties") then
                  let prop := prop.jSet "type" (JVal.str "object")
                  let prop := prop.jSet "description"
                    (JVal.str (jsTrim (descriptionOrEmpty prop ++ " [Simplified: nested object]")))
                  (prop.jDel "properties").jDel "additionalProperties"
                else if truthy (prop.jGet "properties") then
                  prop.jSet "properties"
                    (simplifyNestedPropertiesRecursively rem ((prop.jGet "properties").getD JVal.null))
                else prop
              let prop :=
                match prop.jGet "anyOf" with
                | some (JVal.arr items) =>
                    if items.length = 2 then collapseRefNullablePair prop items
                    else if items.length > 2 then collapseUnionKw prop "anyOf" items
                    else prop
                | _ => prop
              match prop.jGet "oneOf" with
              | some (JVal.arr items) =>
                  if items.length > 2 then collapseUnionKw prop "oneOf" items else prop
              | _ => prop
            else kv.2)))
      | v => v

/-- `flattenComplexSchemasRecursively` from the source: fold over the
schema registry's key snapshot, rewriting each schema in place (union
collapse, `allOf` merge against the current registry, property-count
reduction, nested-property simplification). -/
def flattenComplexSchemasRecursively (schemas : List (String × JVal)) : List (String × JVal) :=
  (schemas.map Prod.fst).foldl (fun cur name =>
    match cur.lookup name with
    | some schema =>
        match schema with
        | JVal.obj _ =>
            let s1 := flattenComplexSchema schema name
            let s2 :=
              match s1.jGet "allOf" with
              | some (JVal.arr items) =>
                  (assignInto s1 (mergeAllOfSchemas items cur)).jDel "allOf"
              | _ => s1
            let s3 :=
              if truthy (s2.jGet "properties") && shouldReduceProperties s2 then
                reduceProperties s2 name
              else s2
            let s4 :=
              match s3.jGet "properties" with
              | some props =>
                  if truthy (some props) then
                    s3.jSet "properties" (simplifyNestedPropertiesRecursively 3 props)
                  else s3
              | none => s3
            setField cur name s4
        | _ => cur
    | none => cur) schemas

/-- The parameter/request-body/response sweep of `simplifyAnyOfInPaths`
applied to one media-type object. -/
def simplifyMediaTypeObj (mtObj : JVal) : JVal :=
  match oGet (some mtObj) "schema" with
  | some sch =>
      if truthy (some sch) && truthy (sch.jGet "anyOf") then
        mtObj.jSet "schema" (simplifyAnyOfSchema sch)
      else mtObj
  | none => mtObj

/-- `simplifyAnyOfInPaths` applied to one operation. -/
def simplifyAnyOfInOperation (op : JVal) : JVal :=
  let op :=
    match op.jGet "parameters" with
    | some (JVal.arr items) =>
        op.jSet "parameters" (JVal.arr (items.map (fun param =>
          match oGet (some param) "schema" with
          | some sch =>
              if truthy (some sch) && truthy (sch.jGet "anyOf") then
                param.jSet "schema" (simplifyAnyOfSchema sch)
              else param
          | none => param)))
    | _ => op
  let op :=
    match op.jGet "requestBody" with
    | some rb =>
        if truthy (some rb) then
          match rb.jGet "content" with
          | some (JVal.obj cf) =>
              op.jSet "requestBody" (rb.jSet "content"
                (JVal.obj (cf.map (fun (kv : String × JVal) =>
                  (kv.1, simplifyMediaTypeObj kv.2)))))
          | _ => op
        else op
    | none => op
  match op.jGet "responses" with
  | some (JVal.obj rf) =>
      op.jSet "responses" (JVal.obj (rf.map (fun (kv : String × JVal) =>
        match kv.2.jGet "content" with
        | some (JVal.obj cf) =>
            (kv.1, kv.2.jSet "content"
              (JVal.obj (cf.map (fun (mkv : String × JVal) =>
                (mkv.1, simplifyMediaTypeObj mkv.2)))))
        | _ => kv)))
  | _ => op

/-- `simplifyAnyOfInPaths` from the source. -/
def simplifyAnyOfInPaths (paths : JVal) : JVal :=
  match paths with
  | JVal.obj pathFields =>
      JVal.obj (pathFields.map (fun pkv =>
        match pkv.2 with
        | JVal.obj itemFields =>
            (pkv.1, JVal.obj (itemFields.map (fun mkv =>
              if mkv.2.isObjLike then (mkv.1, simplifyAnyOfInOperation mkv.2) else mkv)))
        | _ => pkv))
  | v => v

/-! ## Reference normalizer (`normalizeSchemaRefs`)

The normalizer threads explicit state: the document, the
pointer→component map, the name registry (`existingNames`) and the hoist
counter.  `processSchema` receives live node references in the source;
here it receives the node's path and re-reads the current document, so
that writes performed through resolved pointers stay visible exactly as
in-place mutation of a tree-shaped document.  Deep cloning
(`cloneSchema`) is the identity on pure values. -/

/-- The mutable state of one `normalizeSchemaRefs` run. -/
structure NState where
  doc : JVal
  ptrMap : List (String × String)
  existingNames : List String
  hoistedCount : Nat
  deriving Repr

/-- The HTTP method names recognised by the traversal. -/
def httpMethods : List String :=
  ["get", "put", "post", "delete", "options", "head", "patch", "trace"]

/-- ASCII `toUpperCase`. -/
def jsToUpper (s : String) : String := String.mk (s.data.map Char.toUpper)

/-- The kinds of schema-composition keywords the traversal descends into. -/
inductive KwMode where
  | arrOnly   -- `Array.isArray(schema.kw)` guard, elements
  | single    -- `if (schema.kw)` guard, the value itself
  | itemsKind -- `if (schema.kw)` then array elements or the value
  | objSingle -- `schema.kw && typeof schema.kw === 'object'` guard, the value
  | valsKind  -- `schema.kw && typeof === 'object'` guard, `Object.values`
  | depsKind  -- `valsKind` plus the inner `dep && typeof dep === 'object'` guard
  deriving Repr

/-- The keyword list of `processSchema`, in source order. -/
def schemaChildSpecs : List (String × KwMode) :=
  [("allOf", KwMode.arrOnly), ("anyOf", KwMode.arrOnly), ("oneOf", KwMode.arrOnly),
   ("prefixItems", KwMode.arrOnly), ("not", KwMode.single), ("contains", KwMode.single),
   ("propertyNames", KwMode.single), ("if", KwMode.single), ("then", KwMode.single),
   ("else", KwMode.single), ("items", KwMode.itemsKind),
   ("additionalProperties", KwMode.objSingle), ("additionalItems", KwMode.objSingle),
   ("unevaluatedItems", KwMode.objSingle), ("unevaluatedProperties", KwMode.objSingle),
   ("patternProperties", KwMode.valsKind), ("dependencies", KwMode.depsKind),
   ("dependentSchemas", KwMode.valsKind), ("properties", KwMode.valsKind)]

/-- The sub-paths (relative to the schema node) visited for one keyword. -/
def childSubpaths (node : JVal) (kw : String) (mode : KwMode) : List (List Seg) :=
  match mode, node.jGet kw with
  | KwMode.arrOnly, some (JVal.arr xs) =>
      (List.range xs.length).map (fun i => [Seg.key kw, Seg.idx i])
  | KwMode.arrOnly, _ => []
  | KwMode.single, some v => if truthy (some v) then [[Seg.key kw]] else []
  | KwMode.single, none => []
  | KwMode.itemsKind, some (JVal.arr xs) =>
      (List.range xs.length).map (fun i => [Seg.key kw, Seg.idx i])
  | KwMode.itemsKind, some v => if truthy (some v) then [[Seg.key kw]] else []
  | KwMode.itemsKind, none => []
  | KwMode.objSingle, some v => if v.isObjLike then [[Seg.key kw]] else []
  | KwMode.objSingle, none => []
  | KwMode.valsKind, some (JVal.obj fields) => fields.map (fun kv => [Seg.key kw, Seg.key kv.1])
  | KwMode.valsKind, some (JVal.arr xs) =>
      (List.range xs.length).map (fun i => [Seg.key kw, Seg.idx i])
  | KwMode.valsKind, _ => []
  | KwMode.depsKind, some (JVal.obj fields) =>
      (fields.filter (fun kv => kv.2.isObjLike)).map (fun kv => [Seg.key kw, Seg.key kv.1])
  | KwMode.depsKind, some (JVal.arr xs) =>
      ((List.range xs.length).filter (fun i => (xs.get? i).any isObjLike)).map
        (fun i => [Seg.key kw, Seg.idx i])
  | KwMode.depsKind, _ => []

/-- The media types of a `content` object whose entries carry a truthy
`schema` (`content?.schema` guards of the source). -/
def contentSchemaKeys (content : JVal) : List String :=
  content.entries.filterMap (fun kv =>
    if truthy (oGet (some kv.2) "schema") then some kv.1 else none)

mutual

/-- `hoistRef` from the source: given a `$ref` string found at a schema
node, decide canonicality, consult the pointer map, resolve, alias or
clone-and-install, and return the replacement reference (if any) together
with the updated state. -/
def hoistRefS : Nat → NState → String → String → NState × Option String
  | 0, st, _, _ => (st, none)
  | Nat.succ fuel, st, ref, contextName =>
      if !(shouldHoistRef ref) then (st, none)
      else
        match st.ptrMap.lookup ref with
        | some componentName => (st, some ("#/components/schemas/" ++ componentName))
        | none =>
            match resolveJsonPointerWithParent st.doc ref with
            | none => (st, none)
            | some (targetPath, valueOpt) =>
                match valueOpt with
                | none => (st, none)
                | some value =>
                    if !value.isObjLike then (st, none)
                    else
                      let aliased :=
                        match value.jGet "$ref" with
                        | some (JVal.str r2) =>
                            if r2 ≠ "" && !(shouldHoistRef r2) &&
                                jsStartsWith r2 "#/components/schemas/" then some r2
                            else none
                        | _ => none
                      match aliased with
                      | some r2 =>
                          let existingName := jsReplaceOnce r2 "#/components/schemas/"
                          ({ st with ptrMap := st.ptrMap ++ [(ref, existingName)] }, some r2)
                      | none =>
                          let clonedSchema := value
                          let derivedContext :=
                            if contextName = "" && jsStartsWith ref "#/components/schemas/" then
                              ((splitSlash (jsSliceFrom ref
                                ("#/components/schemas/".length)).data).head?).getD ""
                            else contextName
                          let nameAndRegistry :=
                            generateComponentName derivedContext ref st.existingNames
                          let componentName := nameAndRegistry.1
                          let doc1 := modifyAt st.doc [Seg.key "components", Seg.key "schemas"]
                            (fun s => s.jSet componentName clonedSchema)
                          let replacementRef := "#/components/schemas/" ++ componentName
                          let doc2 := setAt doc1 targetPath
                            (JVal.obj [("$ref", JVal.str replacementRef)])
                          let st1 : NState :=
                            ⟨doc2, st.ptrMap ++ [(ref, componentName)],
                             nameAndRegistry.2, st.hoistedCount + 1⟩
                          let st2 := processSchemaAt fuel st1
                            [Seg.key "components", Seg.key "schemas", Seg.key componentName]
                            componentName
                          (st2, some replacementRef)

/-- `processSchema` from the source, addressing the schema node by path:
rewrite the node's own `$ref` through `hoistRef`, then descend into every
schema-composition keyword, re-reading the live document at each step. -/
def processSchemaAt : Nat → NState → List Seg → String → NState
  | 0, st, _, _ => st
  | Nat.succ fuel, st, path, contextName =>
      match getAt st.doc path with
      | some node =>
          if node.isObjLike then
            let st :=
              match node.jGet "$ref" with
              | some (JVal.str s) =>
                  let hr := hoistRefS fuel st s contextName
                  match hr.2 with
                  | some normalizedRef =>
                      let newDoc := modifyAt hr.1.doc path
                        (fun n => n.jSet "$ref" (JVal.str normalizedRef))
                      { hr.1 with doc := newDoc }
                  | none => hr.1
              | _ => st
            schemaChildSpecs.foldl (fun s spec =>
              match getAt s.doc path with
              | some n =>
                  (childSubpaths n spec.1 spec.2).foldl (fun s' sub =>
                    processSchemaAt fuel s' (path ++ sub) contextName) s
              | none => s) st
          else st
      | none => st

/-- `processParameter` from the source: derive the naming context from the
parameter's `name`, then process `parameter.schema` and the schemas of
`parameter.content`. -/
def processParameterAt : Nat → NState → List Seg → String → NState
  | 0, st, _, _ => st
  | Nat.succ fuel, st, path, contextName =>
      match getAt st.doc path with
      | some parameter =>
          if parameter.isObjLike then
            let parameterName :=
              match parameter.jGet "name" with
              | some (JVal.str s) => s
              | _ => ""
            let derivedContext := contextName
            let derivedContext :=
              if parameterName ≠ "" then
                (if derivedContext ≠ "" then derivedContext ++ " " ++ parameterName
                 else parameterName)
              else derivedContext
            let derivedContext := if derivedContext = "" then "Parameter" else derivedContext
            let st :=
              match parameter.jGet "schema" with
              | some sch =>
                  if sch.isObjLike then
                    processSchemaAt fuel st (path ++ [Seg.key "schema"]) derivedContext
                  else st
              | none => st
            match getAt st.doc path with
            | some p2 =>
                match p2.jGet "content" with
                | some content =>
                    if content.isObjLike then
                      (contentSchemaKeys content).foldl (fun s mediaType =>
                        let mediaContext :=
                          if mediaType ≠ "" then derivedContext ++ " " ++ mediaType
                          else derivedContext
                        processSchemaAt fuel s
                          (path ++ [Seg.key "content", Seg.key mediaType, Seg.key "schema"])
                          mediaContext) st
                    else st
                | none => st
            | none => st
          else st
      | none => st

end

mutual
/-- Size of a JSON tree (used to pick ample fuel for concrete runs). -/
def sizeJ : JVal → Nat
  | JVal.arr items => 1 + sizeJList items
  | JVal.obj fields => 1 + sizeJFields fields
  | _ => 1
def sizeJList : List JVal → Nat
  | [] => 0
  | x :: xs => sizeJ x + sizeJList xs
def sizeJFields : List (String × JVal) → Nat
  | [] => 0
  | kv :: rest => 1 + sizeJ kv.2 + sizeJFields rest
end

/-- The `operation` branch of the normalizer's paths loop. -/
def normalizeOperation (fuel : Nat) (st : NState) (pathKey method : String) : NState :=
  let opPath := [Seg.key "paths", Seg.key pathKey, Seg.key method]
  match getAt st.doc opPath with
  | some operation =>
      if operation.isObjLike then
        let normalizedMethod := jsToLower method
        let contextName :=
          match operation.jGet "operationId" with
          | some oid =>
              if truthy (some oid) then jsTemplateStr oid
              else jsToUpper normalizedMethod ++ " " ++ pathKey
          | none => jsToUpper normalizedMethod ++ " " ++ pathKey
        let st :=
          match operation.jGet "parameters" with
          | some (JVal.arr items) =>
              (List.range items.length).foldl (fun s i =>
                processParameterAt fuel s (opPath ++ [Seg.key "parameters", Seg.idx i])
                  (contextName ++ " parameter")) st
          | _ => st
        let st :=
          match getAt st.doc opPath with
          | some op2 =>
              match oGet (op2.jGet "requestBody") "content" with
              | some content =>
                  (contentSchemaKeys content).foldl (fun s mediaType =>
                    processSchemaAt fuel s
                      (opPath ++ [Seg.key "requestBody", Seg.key "content",
                        Seg.key mediaType, Seg.key "schema"]) contextName) st
              | none => st
          | none => st
        match getAt st.doc opPath with
        | some op3 =>
            match op3.jGet "responses" with
            | some responses =>
                if truthy (some responses) then
                  (responses.entries).foldl (fun s rkv =>
                    match getAt s.doc (opPath ++ [Seg.key "responses", Seg.key rkv.1]) with
                    | some response =>
                        if response.isObjLike then
                          match response.jGet "content" with
                          | some content =>
                              if truthy (some content) then
                                (contentSchemaKeys content).foldl (fun s2 mediaType =>
                                  processSchemaAt fuel s2
                                    (opPath ++ [Seg.key "responses", Seg.key rkv.1,
                                      Seg.key "content", Seg.key mediaType, Seg.key "schema"])
                                    contextName) s
                              else s
                          | none => s
                        else s
                    | none => s) st
                else st
            | none => st
        | none => st
      else st
  | none => st

/-- `normalizeSchemaRefs` from the source, returning the rewritten
document together with the run's `hoistedCount`. -/
def normalizeSchemaRefs (openApiSpec : JVal) : JVal × Nat :=
  if !openApiSpec.isObjLike then (openApiSpec, 0)
  else
    -- `openApiSpec.components = openApiSpec.components || {}` and the same
    -- for `components.schemas`.
    let comps :=
      if truthy (openApiSpec.jGet "components") then
        (openApiSpec.jGet "components").getD JVal.null
      else JVal.obj []
    let comps :=
      if truthy (comps.jGet "schemas") then comps else comps.jSet "schemas" (JVal.obj [])
    let doc := openApiSpec.jSet "components" comps
    -- fuel bounds only the traversal's recursion depth (not its total
    -- work); twice the document size is ample for the documents
    -- considered here, and every general theorem below holds for all fuel
    let fuel := 2 * sizeJ doc + 4
    let st0 : NState := ⟨doc, [], ((oGet (doc.jGet "components") "schemas").getD (JVal.obj [])).keys, 0⟩
    -- component schemas (key snapshot; components added during the loop are
    -- processed inline by `hoistRef`, not revisited here)
    let schemaNames := ((oGet (st0.doc.jGet "components") "schemas").getD (JVal.obj [])).keys
    let st := schemaNames.foldl (fun s schemaName =>
      processSchemaAt fuel s [Seg.key "components", Seg.key "schemas", Seg.key schemaName]
        schemaName) st0
    -- component parameters
    let paramNames := ((oGet (st.doc.jGet "components") "parameters").getD (JVal.obj [])).keys
    let st := paramNames.foldl (fun s parameterName =>
      processParameterAt fuel s [Seg.key "components", Seg.key "parameters", Seg.key parameterName]
        ("ComponentParameter " ++ parameterName)) st
    -- paths: path-level parameters, then operations
    let pathKeys := ((st.doc.jGet "paths").getD (JVal.obj [])).keys
    let st := pathKeys.foldl (fun s pathKey =>
      match getAt s.doc [Seg.key "paths", Seg.key pathKey] with
      | some pathItem =>
          if pathItem.isObjLike then
            let s :=
              match pathItem.jGet "parameters" with
              | some (JVal.arr items) =>
                  (List.range items.length).foldl (fun s' i =>
                    processParameterAt fuel s'
                      [Seg.key "paths", Seg.key pathKey, Seg.key "parameters", Seg.idx i]
                      ("Path " ++ pathKey)) s
              | _ => s
            match getAt s.doc [Seg.key "paths", Seg.key pathKey] with
            | some pi2 =>
                (pi2.entries.map Prod.fst).foldl (fun s' method =>
                  if httpMethods.contains (jsToLower method) then
                    normalizeOperation fuel s' pathKey method
                  else s') s
            | none => s
          else s
      | none => s) st
    -- component responses
    let responseNames := ((oGet (st.doc.jGet "components") "responses").getD (JVal.obj [])).keys
    let st := responseNames.foldl (fun s responseName =>
      match getAt s.doc [Seg.key "components", Seg.key "responses", Seg.key responseName] with
      | some response =>
          if response.isObjLike && truthy (response.jGet "content") then
            (contentSchemaKeys ((response.jGet "content").getD JVal.null)).foldl
              (fun s2 mediaType =>
                processSchemaAt fuel s2
                  [Seg.key "components", Seg.key "responses", Seg.key responseName,
                   Seg.key "content", Seg.key mediaType, Seg.key "schema"]
                  "ComponentResponse") s
          else s
      | none => s) st
    -- component request bodies
    let requestBodyNames :=
      ((oGet (st.doc.jGet "components") "requestBodies").getD (JVal.obj [])).keys
    let st := requestBodyNames.foldl (fun s requestBodyName =>
      match getAt s.doc [Seg.key "components", Seg.key "requestBodies", Seg.key requestBodyName] with
      | some requestBody =>
          if requestBody.isObjLike && truthy (requestBody.jGet "content") then
            (contentSchemaKeys ((requestBody.jGet "content").getD JVal.null)).foldl
              (fun s2 mediaType =>
                processSchemaAt fuel s2
                  [Seg.key "components", Seg.key "requestBodies", Seg.key requestBodyName,
                   Seg.key "content", Seg.key mediaType, Seg.key "schema"]
                  "ComponentRequestBody") s
          else s
      | none => s) st
    (st.doc, st.hoistedCount)

/-! ## Reachability (`findUsedSchemas`) and pruning (`pruneUnusedSchemas`) -/

mutual
/-- `findRefsInObject`: collect, in traversal order, every string `$ref`
value starting with `#/components/schemas/`. -/
def findRefsInObject : JVal → List String
  | JVal.arr items => findRefsList items
  | JVal.obj fields => findRefsFields fields
  | _ => []
def findRefsList : List JVal → List String
  | [] => []
  | x :: xs => findRefsInObject x ++ findRefsList xs
def findRefsFields : List (String × JVal) → List String
  | [] => []
  | (k, v) :: rest =>
      (if k = "$ref" then
        match v with
        | JVal.str s => if jsStartsWith s "#/components/schemas/" then [s] else []
        | _ => if v.isObjLike then findRefsInObject v else []
      else if v.isObjLike then findRefsInObject v else []) ++ findRefsFields rest
end

/-- `processSchemaRefs` composed with `enqueueSchemaRef`: the schema names
to enqueue from one schema value. -/
def enqueuedSchemaNames (schema : JVal) : List String :=
  if schema.isObjLike then
    ((findRefsInObject schema).map (fun ref => jsReplaceOnce ref "#/components/schemas/")).filter
      (fun n => n ≠ "")
  else []

/-- The seed-collection state of `findUsedSchemas` (the three memo sets
and the schema-name queue). -/
structure SeedState where
  visitedResponses : List String
  visitedRequestBodies : List String
  visitedParameters : List String
  queue : List String
  deriving Repr

/-- The queue additions from the content of one response-like container. -/
def seedFromContent (container : JVal) : List String :=
  match container.jGet "content" with
  | some content =>
      if truthy (some content) then
        content.entries.flatMap (fun kv =>
          match oGet (some kv.2) "schema" with
          | some sch => if truthy (some sch) then enqueuedSchemaNames sch else []
          | none => [])
      else []
  | none => []

/-- `processResponse` from `findUsedSchemas`: follow a component-response
reference (memoized), otherwise collect the content schemas' references. -/
def seedResponse (responses : List (String × JVal)) : Nat → SeedState → JVal → SeedState
  | 0, st, _ => st
  | Nat.succ fuel, st, response =>
      if response.isObjLike then
        match response.jGet "$ref" with
        | some r =>
            if truthy (some r) then
              match r with
              | JVal.str s =>
                  let responseName := jsReplaceOnce s "#/components/responses/"
                  if !(st.visitedResponses.contains responseName) then
                    match responses.lookup responseName with
                    | some target =>
                        if truthy (some target) then
                          seedResponse responses fuel
                            { st with visitedResponses := st.visitedResponses ++ [responseName] }
                            target
                        else st
                    | none => st
                  else st
              | _ => st
            else { st with queue := st.queue ++ seedFromContent response }
        | none => { st with queue := st.queue ++ seedFromContent response }
      else st

/-- `processRequestBody` from `findUsedSchemas`. -/
def seedRequestBody (requestBodies : List (String × JVal)) : Nat → SeedState → JVal → SeedState
  | 0, st, _ => st
  | Nat.succ fuel, st, requestBody =>
      if requestBody.isObjLike then
        match requestBody.jGet "$ref" with
        | some r =>
            if truthy (some r) then
              match r with
              | JVal.str s =>
                  let requestBodyName := jsReplaceOnce s "#/components/requestBodies/"
                  if !(st.visitedRequestBodies.contains requestBodyName) then
                    match requestBodies.lookup requestBodyName with
                    | some target =>
                        if truthy (some target) then
                          seedRequestBody requestBodies fuel
                            { st with visitedRequestBodies :=
                                st.visitedRequestBodies ++ [requestBodyName] }
                            target
                        else st
                    | none => st
                  else st
              | _ => st
            else { st with queue := st.queue ++ seedFromContent requestBody }
        | none => { st with queue := st.queue ++ seedFromContent requestBody }
      else st

/-- `processParameter` from `findUsedSchemas`. -/
def seedParameter (parameters : List (String × JVal)) : Nat → SeedState → JVal → SeedState
  | 0, st, _ => st
  | Nat.succ fuel, st, parameter =>
      if parameter.isObjLike then
        match parameter.jGet "$ref" with
        | some r =>
            if truthy (some r) then
              match r with
              | JVal.str s =>
                  let parameterName := jsReplaceOnce s "#/components/parameters/"
                  if !(st.visitedParameters.contains parameterName) then
                    match parameters.lookup parameterName with
                    | some target =>
                        if truthy (some target) then
                          seedParameter parameters fuel
                            { st with visitedParameters :=
                                st.visitedParameters ++ [parameterName] }
                            target
                        else st
                    | none => st
                  else st
              | _ => st
            else
              let fromSchema :=
                match parameter.jGet "schema" with
                | some sch => if truthy (some sch) then enqueuedSchemaNames sch else []
                | none => []
              { st with queue := st.queue ++ fromSchema ++ seedFromContent parameter }
        | none =>
            let fromSchema :=
              match parameter.jGet "schema" with
              | some sch => if truthy (some sch) then enqueuedSchemaNames sch else []
              | none => []
            { st with queue := st.queue ++ fromSchema ++ seedFromContent parameter }
      else st

/-- The recursive `processSchema` closure of `findUsedSchemas`: thread the
`(visited, used)` pair through a depth-first walk of canonical schema
references. -/
def processSchemaClosure (schemas : List (String × JVal)) :
    Nat → List String × List String → String → List String × List String
  | 0, vu, _ => vu
  | Nat.succ fuel, vu, schemaName =>
      if vu.1.contains schemaName then vu
      else
        let visited := vu.1 ++ [schemaName]
        match schemas.lookup schemaName with
        | some schema =>
            -- `const schema = schemas[schemaName]; if (!schema) { warn; return }`
            if truthy (some schema) then
              let used := vu.2 ++ [schemaName]
              (findRefsInObject schema).foldl (fun vu' ref =>
                let refSchemaName := jsReplaceOnce ref "#/components/schemas/"
                if truthy ((schemas.lookup refSchemaName).bind some) then
                  processSchemaClosure schemas fuel vu' refSchemaName
                else vu') (visited, used)
            else (visited, vu.2)
        | none => (visited, vu.2)

/-- The unconditionally retained error-schema names. -/
def errorSchemaNames : List String :=
  ["microsoft.graph.ODataErrors.ODataError", "microsoft.graph.ODataErrors.MainError",
   "microsoft.graph.ODataErrors.ErrorDetails", "microsoft.graph.ODataErrors.InnerError"]

/-- `findUsedSchemas` from the source: seed from every surviving path
item's parameters, request bodies and responses (following component
references), close under canonical schema references, then force-keep the
error schemas present in the registry. -/
def findUsedSchemas (openApiSpec : JVal) : List String :=
  let schemas := ((oGet (openApiSpec.jGet "components") "schemas").getD (JVal.obj [])).entries
  let responses := ((oGet (openApiSpec.jGet "components") "responses").getD (JVal.obj [])).entries
  let requestBodies :=
    ((oGet (openApiSpec.jGet "components") "requestBodies").getD (JVal.obj [])).entries
  let parameters :=
    ((oGet (openApiSpec.jGet "components") "parameters").getD (JVal.obj [])).entries
  let paths := (openApiSpec.jGet "paths").getD (JVal.obj [])
  let fuel := sizeJ openApiSpec + 2
  let st0 : SeedState := ⟨[], [], [], []⟩
  let st := paths.entries.foldl (fun st pkv =>
    let pathItem := pkv.2
    if pathItem.isObjLike then
      pathItem.entries.foldl (fun st okv =>
        match okv.1, okv.2 with
        | "parameters", JVal.arr params =>
            params.foldl (fun st p => seedParameter parameters fuel st p) st
        | _, operation =>
            if operation.isObjLike then
              let st :=
                match operation.jGet "requestBody" with
                | some rb => if truthy (some rb) then seedRequestBody requestBodies fuel st rb
                             else st
                | none => st
              let st :=
                match operation.jGet "responses" with
                | some rs =>
                    if truthy (some rs) then
                      rs.entries.foldl (fun st rkv => seedResponse responses fuel st rkv.2) st
                    else st
                | none => st
              match operation.jGet "parameters" with
              | some (JVal.arr params) =>
                  params.foldl (fun st p => seedParameter parameters fuel st p) st
              | _ => st
            else st) st
    else st) st0
  let vu := st.queue.foldl (fun vu schemaName =>
    processSchemaClosure schemas fuel vu schemaName) ([], [])
  let vu := errorSchemaNames.foldl (fun vu errorSchema =>
    if truthy ((schemas.lookup errorSchema).bind some) then
      processSchemaClosure schemas fuel vu errorSchema
    else vu) vu
  vu.2

mutual
/-- `cleanBrokenRefs` from the source: remove every canonical schema
reference whose target is not a (truthy) member of `availableSchemas` —
splicing reference-carrying array elements out, deleting `$ref` keys from
objects (substituting `type: 'object'` when the object becomes empty) —
without descending into array elements that themselves carry a `$ref`. -/
def cleanBrokenRefs (availableSchemas : List (String × JVal)) : JVal → JVal
  | JVal.arr items => JVal.arr (cleanBrokenList availableSchemas items)
  | JVal.obj fields =>
      let cleaned := cleanBrokenFields availableSchemas fields
      JVal.obj (if cleaned.isEmpty && !fields.isEmpty then [("type", JVal.str "object")] else cleaned)
  | v => v
def cleanBrokenList (availableSchemas : List (String × JVal)) : List JVal → List JVal
  | [] => []
  | item :: rest =>
      if item.isObjLike && truthy (item.jGet "$ref") then
        match item.jGet "$ref" with
        | some (JVal.str s) =>
            let refSchemaName := jsReplaceOnce s "#/components/schemas/"
            if truthy ((availableSchemas.lookup refSchemaName).bind some) then
              item :: cleanBrokenList availableSchemas rest
            else cleanBrokenList availableSchemas rest
        | _ => item :: cleanBrokenList availableSchemas rest
      else if item.isObjLike then
        cleanBrokenRefs availableSchemas item :: cleanBrokenList availableSchemas rest
      else item :: cleanBrokenList availableSchemas rest
def cleanBrokenFields (availableSchemas : List (String × JVal)) :
    List (String × JVal) → List (String × JVal)
  | [] => []
  | (k, v) :: rest =>
      if k = "$ref" then
        match v with
        | JVal.str s =>
            if jsStartsWith s "#/components/schemas/" then
              let refSchemaName := jsReplaceOnce s "#/components/schemas/"
              if truthy ((availableSchemas.lookup refSchemaName).bind some) then
                (k, v) :: cleanBrokenFields availableSchemas rest
              else cleanBrokenFields availableSchemas rest
            else (k, v) :: cleanBrokenFields availableSchemas rest
        | _ =>
            (k, if v.isObjLike then cleanBrokenRefs availableSchemas v else v) ::
              cleanBrokenFields availableSchemas rest
      else
        (k, if v.isObjLike then cleanBrokenRefs availableSchemas v else v) ::
          cleanBrokenFields availableSchemas rest
end

/-- `pruneUnusedSchemas` from the source: delete unused registry entries,
sweep `components.schemas`, `components.responses` and `paths` with
`cleanBrokenRefs`, then prune `components.responses` (keeping `error`) and
`components.requestBodies` to the members referenced by surviving
operations.  `components.requestBodies` values are never swept. -/
def pruneUnusedSchemas (openApiSpec : JVal) (usedSchemas : List String) : JVal :=
  match oGet (openApiSpec.jGet "components") "schemas" with
  | some (JVal.obj sf) =>
      let sf1 := sf.filter (fun kv => usedSchemas.contains kv.1)
      let sf2 := sf1.map (fun kv =>
        (kv.1, if truthy (some kv.2) then cleanBrokenRefs sf1 kv.2 else kv.2))
      let spec := openApiSpec.jSet "components"
        (((openApiSpec.jGet "components").getD JVal.null).jSet "schemas" (JVal.obj sf2))
      let spec :=
        match oGet (spec.jGet "components") "responses" with
        | some (JVal.obj rf) =>
            if truthy (some (JVal.obj rf)) then
              spec.jSet "components"
                (((spec.jGet "components").getD JVal.null).jSet "responses"
                  (JVal.obj (rf.map (fun (kv : String × JVal) =>
                    (kv.1, if truthy (some kv.2) then cleanBrokenRefs sf2 kv.2 else kv.2)))))
            else spec
        | _ => spec
      let spec :=
        match spec.jGet "paths" with
        | some (JVal.obj pf) =>
            spec.jSet "paths" (JVal.obj (pf.map (fun (kv : String × JVal) =>
              (kv.1, if truthy (some kv.2) then cleanBrokenRefs sf2 kv.2 else kv.2))))
        | _ => spec
      -- prune `components.responses` to the operation-referenced members plus `error`
      let spec :=
        match oGet (spec.jGet "components") "responses" with
        | some (JVal.obj rf) =>
            let usedResponses := (((spec.jGet "paths").getD (JVal.obj [])).entries.flatMap
              (fun (pkv : String × JVal) => pkv.2.entries.flatMap (fun (okv : String × JVal) =>
                match okv.2.jGet "responses" with
                | some rs =>
                    if truthy (some rs) then
                      rs.entries.filterMap (fun rkv =>
                        match oGet (some rkv.2) "$ref" with
                        | some (JVal.str s) =>
                            if s ≠ "" then some (jsReplaceOnce s "#/components/responses/")
                            else none
                        | _ => none)
                    else []
                | none => []))) ++ ["error"]
            spec.jSet "components"
              (((spec.jGet "components").getD JVal.null).jSet "responses"
                (JVal.obj (rf.filter (fun kv => usedResponses.contains kv.1))))
        | _ => spec
      -- prune `components.requestBodies` to the operation-referenced members
      match oGet (spec.jGet "components") "requestBodies" with
      | some (JVal.obj bf) =>
          let usedRequestBodies := ((spec.jGet "paths").getD (JVal.obj [])).entries.flatMap
            (fun (pkv : String × JVal) => pkv.2.entries.filterMap (fun (okv : String × JVal) =>
              match oGet (okv.2.jGet "requestBody") "$ref" with
              | some (JVal.str s) =>
                  if s ≠ "" then some (jsReplaceOnce s "#/components/requestBodies/")
                  else none
              | _ => none))
          spec.jSet "components"
            (((spec.jGet "components").getD JVal.null).jSet "requestBodies"
              (JVal.obj (bf.filter (fun kv => usedRequestBodies.contains kv.1))))
      | _ => spec
  | _ => openApiSpec

/-! ## The full pipeline (`createAndSaveSimplifiedOpenAPI`)

File reading, YAML parsing and serialization are external collaborators;
the embedding takes the parsed allow-list and document and returns the
document that would be serialized, or an error when the source throws
before writing. -/

/-- `createAndSaveSimplifiedOpenAPI` from the source: filter disabled
endpoints, check every allow-listed path exists (aborting before any
mutation otherwise), filter paths/operations, run the structural cleaners,
the reference normalizer and the reachability pruner, and return the
document to be written. -/
def createAndSaveSimplifiedOpenAPI (allEndpoints : List Endpoint)
    (openApiSpecInput : JVal) : Except String JVal := do
  let endpoints := allEndpoints.filter (fun e => !e.disabled)
  let _ ← checkEndpointPaths openApiSpecInput endpoints
  let spec ← filterPathsStage endpoints openApiSpecInput
  let spec :=
    if truthy (spec.jGet "components") && truthy (oGet (spec.jGet "components") "schemas") then
      match oGet (spec.jGet "components") "schemas" with
      | some (JVal.obj sf) =>
          let schemasV := removeODataTypeRecursively (JVal.obj sf)
          let schemasV :=
            match schemasV with
            | JVal.obj sf2 => JVal.obj (flattenComplexSchemasRecursively sf2)
            | v => v
          spec.jSet "components"
            (((spec.jGet "components").getD JVal.null).jSet "schemas" schemasV)
      | _ => spec
    else spec
  let spec :=
    if truthy (spec.jGet "paths") then
      let pathsV := removeODataTypeRecursively ((spec.jGet "paths").getD JVal.null)
      spec.jSet "paths" (simplifyAnyOfInPaths pathsV)
    else spec
  let spec := (normalizeSchemaRefs spec).1
  let usedSchemas := findUsedSchemas spec
  pure (pruneUnusedSchemas spec usedSchemas)

/-! # Theorems -/

/-! ## C2: the canonicality test -/

theorem isPre_append_left {p q s : List Char} (h : isPre (p ++ q) s = true) :
    isPre p s = true := by
  induction p generalizing s with
  | nil => simp [isPre]
  | cons c cs ih =>
      cases s with
      | nil => simp [isPre] at h
      | cons d ds =>
          simp [isPre] at h ⊢
          exact ⟨h.1, ih h.2⟩

theorem startsWith_schemas_implies_components (ref : String)
    (h : jsStartsWith ref "#/components/schemas/" = true) :
    jsStartsWith ref "#/components/" = true := by
  have hd : ("#/components/schemas/").data = ("#/components/").data ++ ("schemas/").data := by
    decide
  unfold jsStartsWith at h ⊢
  rw [hd] at h
  exact isPre_append_left h

/-- C2.  For every local `$ref` string (one starting with `#/`), the
normalizer's canonicality test declines to hoist exactly when the pointer
starts with `#/$defs/`, addresses a non-schema `#/components/...`
collection, or addresses `#/components/schemas/<name>` with no further
path segments; every other local pointer is hoisted. -/
theorem shouldHoistRef_characterization (ref : String)
    (h : jsStartsWith ref "#/" = true) :
    shouldHoistRef ref = false ↔
      (jsStartsWith ref "#/$defs/" = true ∨
       (jsStartsWith ref "#/components/" = true ∧
        jsStartsWith ref "#/components/schemas/" = false) ∨
       (jsStartsWith ref "#/components/schemas/" = true ∧
        jsIncludesChar (jsSliceFrom ref ("#/components/schemas/".length)) '/' = false)) := by
  cases h1 : jsStartsWith ref "#/$defs/" <;>
    cases h2 : jsStartsWith ref "#/components/schemas/" <;>
      cases h4 : jsIncludesChar (jsSliceFrom ref ("#/components/schemas/".length)) '/'
  all_goals
    first
    | (have h3 := startsWith_schemas_implies_components ref h2
       cases h3' : jsStartsWith ref "#/components/" <;>
         simp_all [shouldHoistRef])
    | (cases h3 : jsStartsWith ref "#/components/" <;>
         simp_all [shouldHoistRef])

/-- Witness for C2 at the root-level pointer `#/properties/x`, which the
characterization classifies as hoisted. -/
theorem shouldHoistRef_characterization_witness :
    jsStartsWith "#/properties/x" "#/" = true ∧
      (shouldHoistRef "#/properties/x" = false ↔
        (jsStartsWith "#/properties/x" "#/$defs/" = true ∨
         (jsStartsWith "#/properties/x" "#/components/" = true ∧
          jsStartsWith "#/properties/x" "#/components/schemas/" = false) ∨
         (jsStartsWith "#/properties/x" "#/components/schemas/" = true ∧
          jsIncludesChar (jsSliceFrom "#/properties/x" ("#/components/schemas/".length)) '/' =
            false))) :=
  ⟨by decide, shouldHoistRef_characterization "#/properties/x" (by decide)⟩

/-! ## C7: unresolvable pointers are a no-op -/

/-- C7.  When a `$ref` that requires hoisting is not memoized and fails to
resolve against the document (the pointer does not address an existing
location), `hoistRef` returns the state completely unchanged — same
document (so the `$ref` string stays as it was), same pointer map, same
name registry, same hoist count — and no replacement reference, so the
caller leaves the `$ref` untouched. -/
theorem hoistRef_unresolvable_noop (fuel : Nat) (st : NState) (ref contextName : String)
    (hhoist : shouldHoistRef ref = true)
    (hmap : st.ptrMap.lookup ref = none)
    (hres : resolvedValue st.doc ref = none) :
    hoistRefS fuel st ref contextName = (st, none) := by
  cases fuel with
  | zero => rfl
  | succ fuel =>
      unfold hoistRefS
      rw [hhoist]
      simp only [Bool.not_true, Bool.false_eq_true, if_false]
      rw [hmap]
      unfold resolvedValue at hres
      cases hr : resolveJsonPointerWithParent st.doc ref with
      | none => simp
      | some pv =>
          obtain ⟨targetPath, valueOpt⟩ := pv
          cases valueOpt with
          | none => simp
          | some v => rw [hr] at hres; simp at hres

/-- Witness for C7: a document with no `nope` entry leaves
`{$ref: "#/nope"}` alone. -/
theorem hoistRef_unresolvable_noop_witness :
    shouldHoistRef "#/nope" = true ∧
      (NState.mk (JVal.obj [("paths", JVal.obj [])]) [] [] 0).ptrMap.lookup "#/nope" = none ∧
      resolvedValue (NState.mk (JVal.obj [("paths", JVal.obj [])]) [] [] 0).doc "#/nope" = none ∧
      hoistRefS 5 (NState.mk (JVal.obj [("paths", JVal.obj [])]) [] [] 0) "#/nope" "Ctx" =
        (NState.mk (JVal.obj [("paths", JVal.obj [])]) [] [] 0, none) :=
  ⟨by decide, by decide, by decide,
   hoistRef_unresolvable_noop 5 (NState.mk (JVal.obj [("paths", JVal.obj [])]) [] [] 0)
     "#/nope" "Ctx" (by decide) (by decide) (by decide)⟩

/-! ## C4: a missing allow-listed path aborts the run -/

theorem checkEndpointPaths_error_of_missing (spec : JVal) (l : List Endpoint)
    (e : Endpoint) (he : e ∈ l)
    (hmiss : truthy (oGet (spec.jGet "paths") e.pathPattern) = false) :
    ∃ msg, checkEndpointPaths spec l = Except.error msg := by
  induction l with
  | nil => cases he
  | cons hd tl ih =>
      unfold checkEndpointPaths
      cases hh : truthy (oGet (spec.jGet "paths") hd.pathPattern) with
      | false =>
          refine ⟨"Path \"" ++ hd.pathPattern ++ "\" not found in OpenAPI spec.", ?_⟩
          simp [hh]
      | true =>
          rcases List.mem_cons.mp he with rfl | htl
          · rw [hh] at hmiss; cases hmiss
          · obtain ⟨msg, hmsg⟩ := ih htl
            exact ⟨msg, by simp [hh, hmsg]⟩

/-- C4.  If any non-disabled allow-list record names a `pathPattern` that
is not a key of the source document's `paths` map, the run fails with an
error: no output document is produced (and, the precondition loop being
the first statement after loading, no stage has mutated the document). -/
theorem createAndSave_missing_path_errors (allEndpoints : List Endpoint)
    (spec : JVal) (e : Endpoint) (he : e ∈ allEndpoints) (hd : e.disabled = false)
    (hmiss : oGet (spec.jGet "paths") e.pathPattern = none) :
    ∃ msg, createAndSaveSimplifiedOpenAPI allEndpoints spec = Except.error msg := by
  have hef : e ∈ allEndpoints.filter (fun x => !x.disabled) := by
    rw [List.mem_filter]
    exact ⟨he, by rw [hd]; rfl⟩
  have htr : truthy (oGet (spec.jGet "paths") e.pathPattern) = false := by
    rw [hmiss]; rfl
  obtain ⟨msg, hmsg⟩ :=
    checkEndpointPaths_error_of_missing spec (allEndpoints.filter (fun x => !x.disabled)) e hef htr
  refine ⟨msg, ?_⟩
  unfold createAndSaveSimplifiedOpenAPI
  simp [hmsg, Bind.bind, Except.bind]

/-- Witness for C4: an allow-list naming `/absent` over a document whose
`paths` only holds `/t` makes the run error out. -/
theorem createAndSave_missing_path_errors_witness :
    (⟨"/absent", "get", "tool", false⟩ : Endpoint) ∈
        [(⟨"/absent", "get", "tool", false⟩ : Endpoint)] ∧
      (⟨"/absent", "get", "tool", false⟩ : Endpoint).disabled = false ∧
      oGet ((JVal.obj [("paths", JVal.obj [("/t", JVal.obj [])])]).jGet "paths") "/absent" =
        none ∧
      ∃ msg, createAndSaveSimplifiedOpenAPI [⟨"/absent", "get", "tool", false⟩]
        (JVal.obj [("paths", JVal.obj [("/t", JVal.obj [])])]) = Except.error msg :=
  ⟨by decide, by decide, by decide,
   createAndSave_missing_path_errors [⟨"/absent", "get", "tool", false⟩]
     (JVal.obj [("paths", JVal.obj [("/t", JVal.obj [])])])
     ⟨"/absent", "get", "tool", false⟩ (by decide) (by decide) (by decide)⟩

/-! ## C10: the endpoint filter deletes every non-allow-listed path-item key -/

theorem filterMapE_mem {α β : Type} (f : α → Except String (Option β)) (l : List α)
    (out : List β) (h : filterMapE f l = Except.ok out) :
    ∀ b ∈ out, ∃ a ∈ l, f a = Except.ok (some b) := by
  induction l generalizing out with
  | nil =>
      unfold filterMapE at h
      cases h
      intro b hb; cases hb
  | cons a as ih =>
      unfold filterMapE at h
      cases hfa : f a with
      | error msg => rw [hfa] at h; simp [Bind.bind, Except.bind] at h
      | ok ob =>
          rw [hfa] at h
          cases ob with
          | none =>
              simp only [Bind.bind, Except.bind] at h
              intro b hb
              obtain ⟨a', ha', hfa'⟩ := ih out h b hb
              exact ⟨a', List.mem_cons_of_mem _ ha', hfa'⟩
          | some b0 =>
              simp only [Bind.bind, Except.bind] at h
              cases hrest : filterMapE f as with
              | error msg => rw [hrest] at h; simp at h
              | ok rest =>
                  rw [hrest] at h
                  simp only [pure, Except.pure, Except.ok.injEq] at h
                  subst h
                  intro b hb
                  rcases List.mem_cons.mp hb with rfl | hb'
                  · exact ⟨a, List.mem_cons_self a as, hfa⟩
                  · obtain ⟨a', ha', hfa'⟩ := ih rest hrest b hb'
                    exact ⟨a', List.mem_cons_of_mem _ ha', hfa'⟩

theorem setField_lookup_self (fields : List (String × JVal)) (k : String) (x : JVal) :
    (setField fields k x).lookup k = some x := by
  induction fields with
  | nil => simp [setField, List.lookup]
  | cons kv rest ih =>
      obtain ⟨k', v⟩ := kv
      unfold setField
      by_cases hk : k' = k
      · subst hk; simp [List.lookup]
      · simp only [if_neg hk, List.lookup]
        rw [show (k == k') = false from beq_eq_false_iff_ne.mpr (Ne.symm hk)]
        exact ih

/-- C10.  After the endpoint-filter stage, every key remaining in a
surviving path item is an allow-listed (lower-cased) method for that path:
non-matching entries — including non-operation keys such as the shared
`parameters` array, `summary` or `description` — are all deleted. -/
theorem filter_keys_allowlisted (endpoints : List Endpoint) (spec out : JVal)
    (hout : filterPathsStage endpoints spec = Except.ok out)
    (pkv : String × JVal) (hp : pkv ∈ ((out.jGet "paths").getD (JVal.obj [])).entries)
    (mkv : String × JVal) (hm : mkv ∈ pkv.2.entries) :
    ∃ ep ∈ endpoints, ep.pathPattern = pkv.1 ∧ jsToLower ep.method = mkv.1 := by
  unfold filterPathsStage at hout
  cases hpaths : spec.jGet "paths" with
  | none =>
      rw [hpaths] at hout
      simp only [pure, Except.pure, Except.ok.injEq] at hout
      subst hout
      rw [hpaths] at hp
      simp [JVal.entries, Option.getD] at hp
  | some pv =>
      cases pv with
      | obj pathFields =>
          rw [hpaths] at hout
          simp only [Bind.bind, Except.bind] at hout
          split at hout
          · simp at hout
          · rename_i pathFields' hfm
            simp only [pure, Except.pure, Except.ok.injEq] at hout
            subst hout
            cases spec with
            | obj sfields =>
                simp only [JVal.jSet, JVal.jGet, setField_lookup_self, Option.getD,
                  JVal.entries] at hp
                obtain ⟨kv, hkv, hf⟩ := filterMapE_mem _ pathFields pathFields' hfm pkv hp
                try simp only [Bind.bind, Except.bind] at hf
                split at hf
                · simp [pure, Except.pure] at hf
                · split at hf
                  · simp at hf
                  · rename_i henonempty v' hfp
                    simp only [pure, Except.pure, Except.ok.injEq, Option.some.injEq] at hf
                    have hfst : kv.1 = pkv.1 := by rw [← hf]
                    have hsnd : v' = pkv.2 := by rw [← hf]
                    unfold filterPathItem at hfp
                    cases hkv2 : kv.2 with
                    | obj fields =>
                        rw [hkv2] at hfp
                        try simp only [Bind.bind, Except.bind] at hfp
                        split at hfp
                        · simp at hfp
                        · rename_i fields' hfm2
                          simp only [pure, Except.pure, Except.ok.injEq] at hfp
                          rw [← hsnd, ← hfp] at hm
                          simp only [JVal.entries] at hm
                          obtain ⟨fkv, hfkv, hg⟩ := filterMapE_mem _ fields fields' hfm2 mkv hm
                          try simp only [Bind.bind, Except.bind] at hg
                          split at hg
                          · rename_i eo hfind
                            split at hg
                            · simp at hg
                            · rename_i op' hup
                              simp only [pure, Except.pure, Except.ok.injEq,
                                Option.some.injEq] at hg
                              have heo := List.find?_some hfind
                              have heomem := List.mem_of_find?_eq_some hfind
                              rw [List.mem_filter] at heomem
                              refine ⟨eo, heomem.1, ?_, ?_⟩
                              · rw [← hfst]
                                exact of_decide_eq_true heomem.2
                              · have h1 : mkv.1 = fkv.1 := (congrArg Prod.fst hg).symm
                                rw [h1]
                                exact of_decide_eq_true heo
                          · simp [pure, Except.pure] at hg
                    | null =>
                        rw [hkv2] at hfp
                        simp only [pure, Except.pure, Except.ok.injEq] at hfp
                        rw [← hsnd, ← hfp] at hm
                        simp [JVal.entries] at hm
                    | bool b =>
                        rw [hkv2] at hfp
                        simp only [pure, Except.pure, Except.ok.injEq] at hfp
                        rw [← hsnd, ← hfp] at hm
                        simp [JVal.entries] at hm
                    | num n =>
                        rw [hkv2] at hfp
                        simp only [pure, Except.pure, Except.ok.injEq] at hfp
                        rw [← hsnd, ← hfp] at hm
                        simp [JVal.entries] at hm
                    | str s =>
                        rw [hkv2] at hfp
                        simp only [pure, Except.pure, Except.ok.injEq] at hfp
                        rw [← hsnd, ← hfp] at hm
                        simp [JVal.entries] at hm
                    | arr items =>
                        rw [hkv2] at hfp
                        simp only [pure, Except.pure, Except.ok.injEq] at hfp
                        rw [← hsnd, ← hfp] at hm
                        simp [JVal.entries] at hm
            | null => simp [JVal.jGet] at hpaths
            | bool b => simp [JVal.jGet] at hpaths
            | num n => simp [JVal.jGet] at hpaths
            | str s => simp [JVal.jGet] at hpaths
            | arr items => simp [JVal.jGet] at hpaths
      | null =>
          rw [hpaths] at hout
          simp only [pure, Except.pure, Except.ok.injEq] at hout
          subst hout
          rw [hpaths] at hp
          simp [JVal.entries, Option.getD] at hp
      | bool b =>
          rw [hpaths] at hout
          simp only [pure, Except.pure, Except.ok.injEq] at hout
          subst hout
          rw [hpaths] at hp
          simp [JVal.entries, Option.getD] at hp
      | num n =>
          rw [hpaths] at hout
          simp only [pure, Except.pure, Except.ok.injEq] at hout
          subst hout
          rw [hpaths] at hp
          simp [JVal.entries, Option.getD] at hp
      | str s =>
          rw [hpaths] at hout
          simp only [pure, Except.pure, Except.ok.injEq] at hout
          subst hout
          rw [hpaths] at hp
          simp [JVal.entries, Option.getD] at hp
      | arr items =>
          rw [hpaths] at hout
          simp only [pure, Except.pure, Except.ok.injEq] at hout
          subst hout
          rw [hpaths] at hp
          simp [JVal.entries, Option.getD] at hp

/-- The document of the C10 witness. -/
def filterWitnessSpec : JVal := JVal.obj [("paths", JVal.obj [
  ("/t", JVal.obj [("summary", JVal.str "s"),
                   ("get", JVal.obj [("summary", JVal.str "x")]),
                   ("parameters", JVal.arr [])]),
  ("/gone", JVal.obj [("get", JVal.obj [])])])]

/-- The allow-list of the C10 witness. -/
def filterWitnessEps : List Endpoint := [⟨"/t", "GET", "getT", false⟩]

/-- The filter-stage output of the C10 witness: `/gone` is dropped and the
path-item keys `summary` and `parameters` of `/t` are deleted. -/
def filterWitnessOut : JVal := JVal.obj [("paths", JVal.obj [
  ("/t", JVal.obj [
    ("get", JVal.obj [("summary", JVal.str "x"), ("operationId", JVal.str "getT"),
                      ("description", JVal.str "x")])])])]

/-- The surviving path item and operation entry of the C10 witness. -/
def filterWitnessItem : JVal := JVal.obj [
  ("get", JVal.obj [("summary", JVal.str "x"), ("operationId", JVal.str "getT"),
                    ("description", JVal.str "x")])]

/-- Witness for C10: on a concrete document the only key surviving in
`/t`'s path item is `get`, which is allow-listed for `/t`. -/
theorem filter_keys_allowlisted_witness :
    filterPathsStage filterWitnessEps filterWitnessSpec = Except.ok filterWitnessOut ∧
      ∃ ep ∈ filterWitnessEps, ep.pathPattern = "/t" ∧ jsToLower ep.method = "get" :=
  ⟨by decide,
   filter_keys_allowlisted filterWitnessEps filterWitnessSpec filterWitnessOut (by decide)
     ("/t", filterWitnessItem) (by decide)
     ("get", JVal.obj [("summary", JVal.str "x"), ("operationId", JVal.str "getT"),
        ("description", JVal.str "x")]) (by decide)⟩

/-! ## C8: the 25-property cap

`reduceProperties`'s priority list has 26 entries.  When every priority
property is present (truthy) and the total count exceeds 25, the kept set
already holds 26 entries, `remainingSlots` is `-1`, and
`otherKeys.slice(0, -1)` drops one element instead of yielding none — the
result keeps 26 properties while its own appended description claims the
schema was simplified "to 25".  The claim (and the code's own annotation
and log line) say exactly 25. -/

/-- A schema carrying all 26 priority properties plus one more. -/
def overfullSchema : JVal := JVal.obj [("properties", JVal.obj
  ((priorityProperties.map (fun k => (k, JVal.obj [("type", JVal.str "string")]))) ++
   [("extra", JVal.obj [("type", JVal.str "string")])]))]

/-- C8 (failing evaluation).  `overfullSchema` has 27 properties, so the
cleaner reduces it — but the output keeps 26 properties, not 25, while its
description still records a reduction "to 25". -/
theorem reduceProperties_overfull_keeps_26 :
    shouldReduceProperties overfullSchema = true ∧
      (((reduceProperties overfullSchema "Big").jGet "properties").getD JVal.null).keys.length
        = 26 ∧
      (reduceProperties overfullSchema "Big").jGet "description" =
        some (JVal.str "[Note: Simplified from 27 properties to 25 most common ones]") ∧
      (reduceProperties overfullSchema "Big").jGet "additionalProperties" =
        some (JVal.bool true) := by
  refine ⟨by decide, by decide, by decide, by decide⟩

/-! ## Object-access lemmas -/

theorem lookup_setField_ne (fields : List (String × JVal)) (k k' : String) (x : JVal)
    (h : ¬ k' = k) : (setField fields k x).lookup k' = fields.lookup k' := by
  induction fields with
  | nil =>
      simp only [setField, List.lookup]
      rw [show (k' == k) = false from beq_eq_false_iff_ne.mpr h]
  | cons kv rest ih =>
      obtain ⟨k0, v⟩ := kv
      unfold setField
      by_cases hk : k0 = k
      · subst hk
        simp only [if_pos rfl, List.lookup]
        rw [show (k' == k0) = false from beq_eq_false_iff_ne.mpr h]
      · simp only [if_neg hk, List.lookup]
        cases hbeq : (k' == k0) with
        | true => rfl
        | false => exact ih

theorem lookup_delField_self (fields : List (String × JVal)) (k : String) :
    (fields.filter (fun kv => kv.1 ≠ k)).lookup k = none := by
  induction fields with
  | nil => rfl
  | cons kv rest ih =>
      obtain ⟨k0, v⟩ := kv
      by_cases hk : k0 = k
      · simp only [List.filter, hk]
        simpa using ih
      · simp only [List.filter]
        rw [show (decide ((k0, v).1 ≠ k)) = true by simpa using hk]
        simp only [List.lookup]
        rw [show (k == k0) = false from beq_eq_false_iff_ne.mpr (fun hc => hk hc.symm)]
        exact ih

theorem lookup_delField_ne (fields : List (String × JVal)) (k k' : String)
    (h : ¬ k' = k) : (fields.filter (fun kv => kv.1 ≠ k)).lookup k' = fields.lookup k' := by
  induction fields with
  | nil => rfl
  | cons kv rest ih =>
      obtain ⟨k0, v⟩ := kv
      by_cases hk : k0 = k
      · subst hk
        simp only [List.filter]
        rw [show (decide ((k0, v).1 ≠ k0)) = false by simp]
        simp only [List.lookup]
        rw [show (k' == k0) = false from beq_eq_false_iff_ne.mpr h]
        exact ih
      · simp only [List.filter]
        rw [show (decide ((k0, v).1 ≠ k)) = true by simpa using hk]
        simp only [List.lookup]
        cases hbeq : (k' == k0) with
        | true => rfl
        | false => exact ih

theorem jGet_obj (fields : List (String × JVal)) (k : String) :
    (JVal.obj fields).jGet k = fields.lookup k := rfl

theorem descriptionOrEmpty_congr (v w : JVal)
    (h : v.jGet "description" = w.jGet "description") :
    descriptionOrEmpty v = descriptionOrEmpty w := by
  unfold descriptionOrEmpty
  rw [h]

/-! ## C9: multi-branch unions collapse to the first branch's type -/

theorem collapseUnionKw_spec (f : List (String × JVal)) (kw : String) (items : List JVal)
    (tv : JVal)
    (hkT : ¬ "type" = kw) (hkN : ¬ "nullable" = kw) (hkD : ¬ "description" = kw)
    (htype : (items.head?.getD JVal.null).jGet "type" = some tv)
    (htruthy : truthy (some tv) = true) :
    (collapseUnionKw (JVal.obj f) kw items).jGet kw = none ∧
      (collapseUnionKw (JVal.obj f) kw items).jGet "type" = some tv ∧
      (collapseUnionKw (JVal.obj f) kw items).jGet "nullable" = some (JVal.bool true) ∧
      (collapseUnionKw (JVal.obj f) kw items).jGet "description" =
        some (JVal.str (jsTrim (descriptionOrEmpty (JVal.obj f) ++ " [Simplified from " ++
          Nat.repr items.length ++ " options]"))) := by
  have hdesc : descriptionOrEmpty
      (JVal.obj (setField (setField f "type" tv) "nullable" (JVal.bool true))) =
      descriptionOrEmpty (JVal.obj f) := by
    apply descriptionOrEmpty_congr
    simp only [jGet_obj]
    rw [lookup_setField_ne _ _ _ _ (by decide), lookup_setField_ne _ _ _ _ (by decide)]
  simp only [collapseUnionKw, htype, htruthy, eq_self_iff_true, if_true]
  simp only [Option.getD]
  simp only [JVal.jSet, JVal.jDel, JVal.jGet, hdesc]
  refine ⟨?_, ?_, ?_, ?_⟩
  · exact lookup_delField_self _ _
  · rw [lookup_delField_ne _ _ _ hkT, lookup_setField_ne _ _ _ _ (by decide),
      lookup_setField_ne _ _ _ _ (by decide), setField_lookup_self]
  · rw [lookup_delField_ne _ _ _ hkN, lookup_setField_ne _ _ _ _ (by decide),
      setField_lookup_self]
  · rw [lookup_delField_ne _ _ _ hkD, setField_lookup_self]

/-- C9.  For a component schema whose `anyOf` (respectively `oneOf`) union
has more than two branches whose first branch declares a (truthy) `type`,
the cleaner removes the union keyword and rewrites the schema to that
first branch's type with `nullable: true` and a description annotation
recording the original branch count.  (For the `anyOf` half the schema is
assumed to carry no `oneOf` key, since a simultaneous oversized `oneOf`
would overwrite the same fields immediately afterwards; symmetrically the
`oneOf` half assumes no `anyOf` key.) -/
theorem flattenComplexSchema_collapses_multibranch (f : List (String × JVal)) (name : String) :
    (∀ items tv, f.lookup "anyOf" = some (JVal.arr items) → 2 < items.length →
      f.lookup "oneOf" = none →
      (items.head?.getD JVal.null).jGet "type" = some tv → truthy (some tv) = true →
      ((flattenComplexSchema (JVal.obj f) name).jGet "anyOf" = none ∧
       (flattenComplexSchema (JVal.obj f) name).jGet "type" = some tv ∧
       (flattenComplexSchema (JVal.obj f) name).jGet "nullable" = some (JVal.bool true) ∧
       (flattenComplexSchema (JVal.obj f) name).jGet "description" =
         some (JVal.str (jsTrim (descriptionOrEmpty (JVal.obj f) ++ " [Simplified from " ++
           Nat.repr items.length ++ " options]"))))) ∧
    (∀ items tv, f.lookup "anyOf" = none → f.lookup "oneOf" = some (JVal.arr items) →
      2 < items.length →
      (items.head?.getD JVal.null).jGet "type" = some tv → truthy (some tv) = true →
      ((flattenComplexSchema (JVal.obj f) name).jGet "oneOf" = none ∧
       (flattenComplexSchema (JVal.obj f) name).jGet "type" = some tv ∧
       (flattenComplexSchema (JVal.obj f) name).jGet "nullable" = some (JVal.bool true) ∧
       (flattenComplexSchema (JVal.obj f) name).jGet "description" =
         some (JVal.str (jsTrim (descriptionOrEmpty (JVal.obj f) ++ " [Simplified from " ++
           Nat.repr items.length ++ " options]"))))) := by
  constructor
  · intro items tv hany hlen honeOf htype htruthy
    have hone2 : (collapseUnionKw (JVal.obj f) "anyOf" items).jGet "oneOf" = none := by
      simp only [collapseUnionKw, JVal.jSet, JVal.jDel, JVal.jGet]
      rw [lookup_delField_ne _ _ _ (by decide), lookup_setField_ne _ _ _ _ (by decide),
        lookup_setField_ne _ _ _ _ (by decide), lookup_setField_ne _ _ _ _ (by decide)]
      exact honeOf
    have hflat : flattenComplexSchema (JVal.obj f) name =
        collapseUnionKw (JVal.obj f) "anyOf" items := by
      unfold flattenComplexSchema
      rw [show (JVal.obj f).jGet "anyOf" = some (JVal.arr items) from hany]
      dsimp only
      rw [if_neg (by omega : ¬ items.length = 2), if_pos hlen, hone2]
    rw [hflat]
    exact collapseUnionKw_spec f "anyOf" items tv (by decide) (by decide) (by decide)
      htype htruthy
  · intro items tv hany honeOf hlen htype htruthy
    have hflat : flattenComplexSchema (JVal.obj f) name =
        collapseUnionKw (JVal.obj f) "oneOf" items := by
      unfold flattenComplexSchema
      rw [show (JVal.obj f).jGet "anyOf" = none from hany]
      dsimp only
      rw [show (JVal.obj f).jGet "oneOf" = some (JVal.arr items) from honeOf]
      dsimp only
      rw [if_pos hlen]
    rw [hflat]
    exact collapseUnionKw_spec f "oneOf" items tv (by decide) (by decide) (by decide)
      htype htruthy

/-- Witness for C9 (scenario 5): a three-branch `anyOf` whose first branch
is a string schema collapses to `type: 'string'`, `nullable: true` and an
annotated description. -/
theorem flattenComplexSchema_collapses_multibranch_witness :
    ([("anyOf", JVal.arr [JVal.obj [("type", JVal.str "string")],
        JVal.obj [("type", JVal.str "number")], JVal.obj [("type", JVal.str "object")]])] :
          List (String × JVal)).lookup "anyOf" =
        some (JVal.arr [JVal.obj [("type", JVal.str "string")],
          JVal.obj [("type", JVal.str "number")], JVal.obj [("type", JVal.str "object")]]) ∧
      (flattenComplexSchema (JVal.obj [("anyOf", JVal.arr
          [JVal.obj [("type", JVal.str "string")], JVal.obj [("type", JVal.str "number")],
           JVal.obj [("type", JVal.str "object")]])]) "S").jGet "anyOf" = none ∧
      (flattenComplexSchema (JVal.obj [("anyOf", JVal.arr
          [JVal.obj [("type", JVal.str "string")], JVal.obj [("type", JVal.str "number")],
           JVal.obj [("type", JVal.str "object")]])]) "S").jGet "type" =
        some (JVal.str "string") ∧
      (flattenComplexSchema (JVal.obj [("anyOf", JVal.arr
          [JVal.obj [("type", JVal.str "string")], JVal.obj [("type", JVal.str "number")],
           JVal.obj [("type", JVal.str "object")]])]) "S").jGet "description" =
        some (JVal.str "[Simplified from 3 options]") := by
  have h := (flattenComplexSchema_collapses_multibranch
    [("anyOf", JVal.arr [JVal.obj [("type", JVal.str "string")],
      JVal.obj [("type", JVal.str "number")], JVal.obj [("type", JVal.str "object")]])] "S").1
    [JVal.obj [("type", JVal.str "string")], JVal.obj [("type", JVal.str "number")],
     JVal.obj [("type", JVal.str "object")]]
    (JVal.str "string") (by decide) (by decide) (by decide) (by decide) (by decide)
  exact ⟨by decide, h.1, h.2.1, by rw [h.2.2.2]; decide⟩

/-! ## C3: pointer memoization -/

/-- The pointer→component map only ever grows by appending. -/
def MapExtends (st st' : NState) : Prop := ∃ ext, st'.ptrMap = st.ptrMap ++ ext

theorem MapExtends.rfl (st : NState) : MapExtends st st := ⟨[], by simp⟩

theorem MapExtends.trans {s1 s2 s3 : NState} (h1 : MapExtends s1 s2)
    (h2 : MapExtends s2 s3) : MapExtends s1 s3 := by
  obtain ⟨e1, he1⟩ := h1
  obtain ⟨e2, he2⟩ := h2
  exact ⟨e1 ++ e2, by rw [he2, he1, List.append_assoc]⟩

theorem foldl_mapExtends {α : Type} (f : NState → α → NState)
    (h : ∀ st x, MapExtends st (f st x)) : ∀ (l : List α) (st : NState),
    MapExtends st (l.foldl f st) := by
  intro l
  induction l with
  | nil => intro st; exact MapExtends.rfl st
  | cons x xs ih => intro st; exact (h st x).trans (ih (f st x))

theorem MapExtends.foldl_of {α : Type} (f : NState → α → NState)
    (h : ∀ s x, MapExtends s (f s x)) (l : List α) {st X : NState}
    (hX : MapExtends st X) : MapExtends st (l.foldl f X) :=
  hX.trans (foldl_mapExtends f h l X)

theorem normalizer_mapExtends : ∀ fuel : Nat,
    (∀ st ref ctx, MapExtends st (hoistRefS fuel st ref ctx).1) ∧
    (∀ st path ctx, MapExtends st (processSchemaAt fuel st path ctx)) ∧
    (∀ st path ctx, MapExtends st (processParameterAt fuel st path ctx)) := by
  intro fuel
  induction fuel with
  | zero =>
      refine ⟨fun st ref ctx => ?_, fun st path ctx => ?_, fun st path ctx => ?_⟩ <;>
        exact MapExtends.rfl st
  | succ fuel ih =>
      obtain ⟨ihH, ihS, ihP⟩ := ih
      have hH : ∀ st ref ctx, MapExtends st (hoistRefS (fuel + 1) st ref ctx).1 := by
        intro st ref ctx
        unfold hoistRefS
        split
        · exact MapExtends.rfl st
        · split
          · exact MapExtends.rfl st
          · split
            · exact MapExtends.rfl st
            · split
              · exact MapExtends.rfl st
              · split
                · exact MapExtends.rfl st
                · dsimp only
                  split
                  · exact ⟨_, rfl⟩
                  · dsimp only
                    exact MapExtends.trans ⟨_, rfl⟩ (ihS _ _ _)
      have hJ : ∀ (st : NState) (path : List Seg) (ctx : String) (node : JVal),
          MapExtends st (match node.jGet "$ref" with
            | some (JVal.str s) =>
                let hr := hoistRefS fuel st s ctx
                match hr.2 with
                | some normalizedRef =>
                    let newDoc := modifyAt hr.1.doc path
                      (fun n => n.jSet "$ref" (JVal.str normalizedRef))
                    { hr.1 with doc := newDoc }
                | none => hr.1
            | _ => st) := by
        intro st path ctx node
        split
        · rename_i s hs
          have h := ihH st s ctx
          dsimp only
          split
          · exact h
          · exact h
        · exact MapExtends.rfl st
      have hS : ∀ st path ctx, MapExtends st (processSchemaAt (fuel + 1) st path ctx) := by
        intro st path ctx
        unfold processSchemaAt
        split
        · split
          · refine MapExtends.foldl_of _ ?_ _ ?_
            · intro s2 spec
              split
              · refine MapExtends.foldl_of _ ?_ _ (MapExtends.rfl s2)
                intro s3 sub
                exact ihS s3 (path ++ sub) ctx
              · exact MapExtends.rfl s2
            · exact hJ st path ctx _
          · exact MapExtends.rfl st
        · exact MapExtends.rfl st
      refine ⟨hH, hS, ?_⟩
      intro st path ctx
      show MapExtends st (processParameterAt (Nat.succ fuel) st path ctx)
      rw [processParameterAt.eq_2]
      split
      · split
        · dsimp only
          split
          · split
            · split
              · refine MapExtends.foldl_of _ (fun s3 mt => ihS s3 _ _) _ ?_
                split
                · split
                  · exact ihS _ _ _
                  · exact MapExtends.rfl _
                · exact MapExtends.rfl _
              · split
                · split
                  · exact ihS _ _ _
                  · exact MapExtends.rfl _
                · exact MapExtends.rfl _
            · split
              · split
                · exact ihS _ _ _
                · exact MapExtends.rfl _
              · exact MapExtends.rfl _
          · split
            · split
              · exact ihS _ _ _
              · exact MapExtends.rfl _
            · exact MapExtends.rfl _
        · exact MapExtends.rfl _
      · exact MapExtends.rfl _

/-- C3 (amended).  Pointer memoization: a hoist request for a pointer
already in the pointer→component map returns the recorded component's
canonical reference with the state unchanged (no new component, no
counting), and the pointer map is append-only across the whole schema
traversal — so a pointer is associated with at most one component name for
the entire run, and every later occurrence is rewritten to that single
name. -/
theorem pointer_memoization :
    (∀ fuel st ref ctx n, shouldHoistRef ref = true →
      st.ptrMap.lookup ref = some n →
      hoistRefS (fuel + 1) st ref ctx = (st, some ("#/components/schemas/" ++ n))) ∧
    (∀ fuel st path ctx, ∃ ext,
      (processSchemaAt fuel st path ctx).ptrMap = st.ptrMap ++ ext) := by
  constructor
  · intro fuel st ref ctx n hhoist hmap
    unfold hoistRefS
    rw [hhoist]
    simp only [Bool.not_true, Bool.false_eq_true, if_false]
    rw [hmap]
  · intro fuel st path ctx
    exact (normalizer_mapExtends fuel).2.1 st path ctx

/-- Witness for C3: with `#/X/y` memoized to `N`, a second hoist of the
same pointer returns `#/components/schemas/N` and leaves the state
untouched; the traversal's map extension is exhibited on a tiny state. -/
theorem pointer_memoization_witness :
    shouldHoistRef "#/X/y" = true ∧
      (NState.mk (JVal.obj []) [("#/X/y", "N")] ["N"] 1).ptrMap.lookup "#/X/y" = some "N" ∧
      hoistRefS 4 (NState.mk (JVal.obj []) [("#/X/y", "N")] ["N"] 1) "#/X/y" "Ctx" =
        (NState.mk (JVal.obj []) [("#/X/y", "N")] ["N"] 1,
         some "#/components/schemas/N") ∧
      ∃ ext, (processSchemaAt 3 (NState.mk (JVal.obj []) [("#/X/y", "N")] ["N"] 1)
        [Seg.key "components"] "C").ptrMap = [("#/X/y", "N")] ++ ext :=
  ⟨by decide, by decide,
   pointer_memoization.1 3 (NState.mk (JVal.obj []) [("#/X/y", "N")] ["N"] 1)
     "#/X/y" "Ctx" "N" (by decide) (by decide),
   pointer_memoization.2 3 (NState.mk (JVal.obj []) [("#/X/y", "N")] ["N"] 1)
     [Seg.key "components"] "C"⟩

/-- The document of the C3/C5/C6 counterexamples: two distinct schema
locations carry the same non-canonical (and unresolvable) pointer
`#/missing/x`. -/
def sharedBadPtrDoc : JVal := JVal.obj [("components", JVal.obj [("schemas", JVal.obj [
  ("A", JVal.obj [("properties", JVal.obj [
    ("p", JVal.obj [("$ref", JVal.str "#/missing/x")]),
    ("q", JVal.obj [("$ref", JVal.str "#/missing/x")])])])])])]

/-- C3 (counterexample).  `sharedBadPtrDoc` has two distinct schema
locations carrying the exact same non-canonical pointer, yet the
normalizer synthesizes no component at all and rewrites neither location:
its output is the input unchanged, refuting "exactly one new component ...
and every such location is rewritten". -/
theorem pointer_memoization_counterexample :
    shouldHoistRef "#/missing/x" = true ∧
      getAt sharedBadPtrDoc [Seg.key "components", Seg.key "schemas", Seg.key "A",
        Seg.key "properties", Seg.key "p", Seg.key "$ref"] =
        some (JVal.str "#/missing/x") ∧
      getAt sharedBadPtrDoc [Seg.key "components", Seg.key "schemas", Seg.key "A",
        Seg.key "properties", Seg.key "q", Seg.key "$ref"] =
        some (JVal.str "#/missing/x") ∧
      normalizeSchemaRefs sharedBadPtrDoc = (sharedBadPtrDoc, 0) := by
  refine ⟨by decide, by decide, by decide, by decide⟩

/-! ## Hereditary `$ref` predicates

Several invariants quantify over every string `$ref` value in a tree;
`refsOkBy P` states that every object field `("$ref", str s)` anywhere in
the value satisfies `P s`. -/

mutual
def refsOkBy (P : String → Bool) : JVal → Bool
  | JVal.arr items => refsOkByL P items
  | JVal.obj fields => refsOkByF P fields
  | _ => true
def refsOkByL (P : String → Bool) : List JVal → Bool
  | [] => true
  | x :: xs => refsOkBy P x && refsOkByL P xs
def refsOkByF (P : String → Bool) : List (String × JVal) → Bool
  | [] => true
  | (k, v) :: rest =>
      (if k = "$ref" then
        (match v with
          | JVal.str s => P s
          | _ => true)
      else true) && refsOkBy P v && refsOkByF P rest
end

theorem refsOkByF_lookup (P : String → Bool) (fields : List (String × JVal)) (k : String)
    (v : JVal) (hok : refsOkByF P fields = true) (hlk : fields.lookup k = some v) :
    refsOkBy P v = true := by
  induction fields with
  | nil => cases hlk
  | cons kv rest ih =>
      obtain ⟨k0, v0⟩ := kv
      unfold refsOkByF at hok
      simp only [Bool.and_eq_true] at hok
      simp only [List.lookup] at hlk
      cases hbeq : (k == k0) with
      | true =>
          rw [hbeq] at hlk
          simp only [Option.some.injEq] at hlk
          subst hlk
          exact hok.1.2
      | false =>
          rw [hbeq] at hlk
          exact ih hok.2 hlk

theorem refsOkByL_get (P : String → Bool) (items : List JVal) (n : Nat) (x : JVal)
    (hok : refsOkByL P items = true) (hget : items.get? n = some x) :
    refsOkBy P x = true := by
  induction items generalizing n with
  | nil => cases hget
  | cons y ys ih =>
      unfold refsOkByL at hok
      simp only [Bool.and_eq_true] at hok
      cases n with
      | zero =>
          simp only [List.get?] at hget
          cases hget
          exact hok.1
      | succ m =>
          simp only [List.get?] at hget
          exact ih m hok.2 hget

theorem refsOkBy_getSeg (P : String → Bool) (v : JVal) (s : Seg) (c : JVal)
    (hok : refsOkBy P v = true) (hc : getSeg v s = some c) : refsOkBy P c = true := by
  cases v with
  | obj fields =>
      cases s with
      | key k => exact refsOkByF_lookup P fields k c hok hc
      | idx n => cases hc
  | arr items =>
      cases s with
      | key k => cases hc
      | idx n => exact refsOkByL_get P items n c hok hc
  | null => cases hc
  | bool b => cases hc
  | num n => cases hc
  | str s => cases hc

theorem refsOkBy_getAt (P : String → Bool) (v : JVal) (path : List Seg) (c : JVal)
    (hok : refsOkBy P v = true) (hc : getAt v path = some c) : refsOkBy P c = true := by
  induction path generalizing v with
  | nil => cases hc; exact hok
  | cons s rest ih =>
      unfold getAt at hc
      cases hs : getSeg v s with
      | none => rw [hs] at hc; cases hc
      | some child =>
          rw [hs] at hc
          exact ih child (refsOkBy_getSeg P v s child hok hs) hc

theorem refsOkByF_refStr (P : String → Bool) (fields : List (String × JVal)) (s : String)
    (hok : refsOkByF P fields = true) (hlk : fields.lookup "$ref" = some (JVal.str s)) :
    P s = true := by
  induction fields with
  | nil => cases hlk
  | cons kv rest ih =>
      obtain ⟨k0, v0⟩ := kv
      unfold refsOkByF at hok
      simp only [Bool.and_eq_true] at hok
      simp only [List.lookup] at hlk
      cases hbeq : ("$ref" == k0) with
      | true =>
          rw [hbeq] at hlk
          simp only [Option.some.injEq] at hlk
          have hk0 : k0 = "$ref" := (beq_iff_eq.mp hbeq).symm
          subst hlk
          have h1 := hok.1.1
          rw [hk0] at h1
          simp only [if_pos rfl] at h1
          exact h1
      | false =>
          rw [hbeq] at hlk
          exact ih hok.2 hlk

theorem refsOkBy_jGet_refStr (P : String → Bool) (v : JVal) (s : String)
    (hok : refsOkBy P v = true) (hlk : v.jGet "$ref" = some (JVal.str s)) : P s = true := by
  cases v with
  | obj fields => exact refsOkByF_refStr P fields s hok hlk
  | arr items => cases hlk
  | null => cases hlk
  | bool b => cases hlk
  | num n => cases hlk
  | str t => cases hlk

/-! ## C6: a second normalizer pass -/

/-- Every `$ref` string in the value is canonical (the normalizer would
not hoist it). -/
def allRefsCanonical (v : JVal) : Bool := refsOkBy (fun s => !shouldHoistRef s) v

/-- The document's `components.schemas` container is an object. -/
def hasComponentsSchemas (doc : JVal) : Bool :=
  match oGet (doc.jGet "components") "schemas" with
  | some (JVal.obj _) => true
  | _ => false

theorem hoistRefS_nonHoistable (fuel : Nat) (st : NState) (ref ctx : String)
    (h : shouldHoistRef ref = false) : hoistRefS fuel st ref ctx = (st, none) := by
  cases fuel with
  | zero => rfl
  | succ fuel =>
      unfold hoistRefS
      rw [h]
      simp

theorem foldl_const {α : Type} (f : NState → α → NState) (st : NState)
    (h : ∀ x, f st x = st) : ∀ l : List α, l.foldl f st = st := by
  intro l
  induction l with
  | nil => rfl
  | cons x xs ih => rw [List.foldl_cons, h x, ih]

theorem setField_self (fields : List (String × JVal)) (k : String) (v : JVal)
    (h : fields.lookup k = some v) : setField fields k v = fields := by
  induction fields with
  | nil => cases h
  | cons kv rest ih =>
      obtain ⟨k0, v0⟩ := kv
      simp only [List.lookup] at h
      unfold setField
      by_cases hk : k0 = k
      · rw [show (k == k0 : Bool) = true from beq_iff_eq.mpr hk.symm] at h
        simp only [Option.some.injEq] at h
        rw [if_pos hk, ← h]
      · rw [show (k == k0 : Bool) = false from
          beq_eq_false_iff_ne.mpr (fun hc => hk hc.symm)] at h
        rw [if_neg hk, ih h]

theorem normalizer_canonical_noop : ∀ fuel : Nat,
    (∀ st path ctx, allRefsCanonical st.doc = true →
      processSchemaAt fuel st path ctx = st) ∧
    (∀ st path ctx, allRefsCanonical st.doc = true →
      processParameterAt fuel st path ctx = st) := by
  intro fuel
  induction fuel with
  | zero => exact ⟨fun st path ctx _ => rfl, fun st path ctx _ => rfl⟩
  | succ fuel ih =>
      obtain ⟨ihS, ihP⟩ := ih
      have hS : ∀ st path ctx, allRefsCanonical st.doc = true →
          processSchemaAt (fuel + 1) st path ctx = st := by
        intro st path ctx hdoc
        show processSchemaAt (Nat.succ fuel) st path ctx = st
        rw [processSchemaAt.eq_2]
        split
        · rename_i node hnode
          split
          · rename_i hobj
            have hcnode : refsOkBy (fun s => !shouldHoistRef s) node = true :=
              refsOkBy_getAt _ st.doc path node hdoc hnode
            have hinit : (match node.jGet "$ref" with
                | some (JVal.str s) =>
                    let hr := hoistRefS fuel st s ctx
                    match hr.2 with
                    | some normalizedRef =>
                        let newDoc := modifyAt hr.1.doc path
                          (fun n => n.jSet "$ref" (JVal.str normalizedRef))
                        { hr.1 with doc := newDoc }
                    | none => hr.1
                | _ => st) = st := by
              split
              · rename_i s hs
                have hP := refsOkBy_jGet_refStr _ node s hcnode hs
                have hnoop := hoistRefS_nonHoistable fuel st s ctx
                  (by revert hP; cases shouldHoistRef s <;> simp)
                rw [hnoop]
              · rfl
            rw [hinit]
            apply foldl_const
            intro spec
            split
            · apply foldl_const
              intro sub
              exact ihS st (path ++ sub) ctx hdoc
            · rfl
          · rfl
        · rfl
      refine ⟨hS, ?_⟩
      intro st path ctx hdoc
      show processParameterAt (Nat.succ fuel) st path ctx = st
      rw [processParameterAt.eq_2]
      split
      · rename_i parameter hparam
        split
        · rename_i hobj
          dsimp only
          have hmid : (match parameter.jGet "schema" with
              | some sch =>
                  if sch.isObjLike = true then
                    processSchemaAt fuel st (path ++ [Seg.key "schema"])
                      (let parameterName := match parameter.jGet "name" with
                        | some (JVal.str s) => s
                        | _ => ""
                       let derivedContext := ctx
                       let derivedContext := if parameterName ≠ "" then
                           (if derivedContext ≠ "" then derivedContext ++ " " ++ parameterName
                            else parameterName)
                         else derivedContext
                       if derivedContext = "" then "Parameter" else derivedContext)
                  else st
              | none => st) = st := by
            split
            · split
              · exact ihS st _ _ hdoc
              · rfl
            · rfl
          rw [hmid]
          split
          · split
            · split
              · apply foldl_const
                intro mt
                exact ihS st _ _ hdoc
              · rfl
            · rfl
          · rfl
        · rfl
      · rfl

theorem foldl_const_of_init {α : Type} (f : NState → α → NState) (st init : NState)
    (hinit : init = st) (h : ∀ x, f st x = st) (l : List α) : l.foldl f init = st := by
  rw [hinit]; exact foldl_const f st h l

theorem normalizeOperation_noop (fuel : Nat) (st : NState) (pathKey method : String)
    (hdoc : allRefsCanonical st.doc = true) :
    normalizeOperation fuel st pathKey method = st := by
  have hS := (normalizer_canonical_noop fuel).1
  have hP := (normalizer_canonical_noop fuel).2
  unfold normalizeOperation
  dsimp only
  split
  · split
    · split
      · split
        · split
          · refine foldl_const_of_init _ _ _ ?_ ?_ _
            · split
              · split
                · refine foldl_const_of_init _ _ _ ?_ ?_ _
                  · split
                    · apply foldl_const
                      intro i
                      exact hP st _ _ hdoc
                    · rfl
                  · intro mt
                    exact hS st _ _ hdoc
                · split
                  · apply foldl_const
                    intro i
                    exact hP st _ _ hdoc
                  · rfl
              · split
                · apply foldl_const
                  intro i
                  exact hP st _ _ hdoc
                · rfl
            · intro rkv
              split
              · split
                · split
                  · split
                    · apply foldl_const
                      intro mt
                      exact hS st _ _ hdoc
                    · rfl
                  · rfl
                · rfl
              · rfl
          · split
            · split
              · refine foldl_const_of_init _ _ _ ?_ ?_ _
                · split
                  · apply foldl_const
                    intro i
                    exact hP st _ _ hdoc
                  · rfl
                · intro mt
                  exact hS st _ _ hdoc
              · split
                · apply foldl_const
                  intro i
                  exact hP st _ _ hdoc
                · rfl
            · split
              · apply foldl_const
                intro i
                exact hP st _ _ hdoc
              · rfl
        · split
          · split
            · refine foldl_const_of_init _ _ _ ?_ ?_ _
              · split
                · apply foldl_const
                  intro i
                  exact hP st _ _ hdoc
                · rfl
              · intro mt
                exact hS st _ _ hdoc
            · split
              · apply foldl_const
                intro i
                exact hP st _ _ hdoc
              · rfl
          · split
            · apply foldl_const
              intro i
              exact hP st _ _ hdoc
            · rfl
      · split
        · split
          · refine foldl_const_of_init _ _ _ ?_ ?_ _
            · split
              · apply foldl_const
                intro i
                exact hP st _ _ hdoc
              · rfl
            · intro mt
              exact hS st _ _ hdoc
          · split
            · apply foldl_const
              intro i
              exact hP st _ _ hdoc
            · rfl
        · split
          · apply foldl_const
            intro i
            exact hP st _ _ hdoc
          · rfl
    · rfl
  · rfl

theorem nstate_pair_of_eq (fields : List (String × JVal)) (names : List String)
    (st : NState) (h : st = ⟨JVal.obj fields, [], names, 0⟩) :
    (st.doc, st.hoistedCount) = (JVal.obj fields, 0) := by
  rw [h]

theorem normalizeSchemaRefs_canonical_noop (d : JVal)
    (hcs : hasComponentsSchemas d = true)
    (hcanon : allRefsCanonical d = true) :
    normalizeSchemaRefs d = (d, 0) := by
  unfold hasComponentsSchemas at hcs
  split at hcs
  case _ sf heq =>
    unfold oGet at heq
    cases hm : d.jGet "components" with
    | none => rw [hm] at heq; cases heq
    | some c =>
        rw [hm] at heq
        simp only [Option.bind] at heq
        cases c with
        | obj cf =>
            simp only [JVal.jGet] at heq
            cases d with
            | obj fields =>
                simp only [JVal.jGet] at hm
                unfold normalizeSchemaRefs
                simp only [JVal.isObjLike, Bool.not_true, Bool.false_eq_true, if_false,
                  JVal.jGet, hm, Option.getD, truthy, if_true, heq,
                  JVal.jSet, setField_self fields "components" (JVal.obj cf) hm]
                have hS := (normalizer_canonical_noop (2 * sizeJ (JVal.obj fields) + 4)).1
                have hP := (normalizer_canonical_noop (2 * sizeJ (JVal.obj fields) + 4)).2
                apply nstate_pair_of_eq
                refine foldl_const_of_init _ _ _ ?_ ?_ _
                · refine foldl_const_of_init _ _ _ ?_ ?_ _
                  · refine foldl_const_of_init _ _ _ ?_ ?_ _
                    · refine foldl_const_of_init _ _ _ ?_ ?_ _
                      · apply foldl_const
                        intro schemaName
                        exact hS _ _ _ hcanon
                      · intro parameterName
                        exact hP _ _ _ hcanon
                    · intro pathKey
                      split
                      · split
                        · split
                          · refine foldl_const_of_init _ _ _ ?_ ?_ _
                            · split
                              · apply foldl_const
                                intro i
                                exact hP _ _ _ hcanon
                              · rfl
                            · intro method
                              split
                              · exact normalizeOperation_noop _ _ _ _ hcanon
                              · rfl
                          · split
                            · apply foldl_const
                              intro i
                              exact hP _ _ _ hcanon
                            · rfl
                        · rfl
                      · rfl
                  · intro responseName
                    split
                    · split
                      · apply foldl_const
                        intro mediaType
                        exact hS _ _ _ hcanon
                      · rfl
                    · rfl
                · intro requestBodyName
                  split
                  · split
                    · apply foldl_const
                      intro mediaType
                      exact hS _ _ _ hcanon
                    · rfl
                  · rfl
            | null => cases hm
            | bool b => cases hm
            | num n => cases hm
            | str s => cases hm
            | arr items => cases hm
        | null => cases heq
        | bool b => cases heq
        | num n => cases heq
        | str t => cases heq
        | arr items => cases heq
  case _ hne =>
    cases hcs

/-- A document on which the normalizer is not idempotent.  Schema `A`
references `#/components/schemas/BP/properties/q`, which does not resolve
during the first pass (no component `BP` exists yet, so the hoist is a
no-op); later in the same pass, hoisting `#/components/schemas/B/properties/p`
out of schema `B` synthesizes the component `BP`.  In the first pass's
output, `A`'s pointer is still non-canonical but now resolves, so a second
pass hoists it. -/
def twoPhaseRefDoc : JVal := JVal.obj [("components", JVal.obj [("schemas", JVal.obj [
  ("A", JVal.obj [("properties", JVal.obj [("x",
      JVal.obj [("$ref", JVal.str "#/components/schemas/BP/properties/q")])])]),
  ("B", JVal.obj [("properties", JVal.obj [
      ("y", JVal.obj [("$ref", JVal.str "#/components/schemas/B/properties/p")]),
      ("p", JVal.obj [("properties", JVal.obj [("q",
          JVal.obj [("type", JVal.str "string")])])])])])
])])]

/-- Running `normalizeSchemaRefs` on its own output can perform a further
hoist: the first pass on `twoPhaseRefDoc` leaves the non-canonical pointer
`#/components/schemas/BP/properties/q` in place (it did not resolve when
visited) while synthesizing the component `BP` it points into, so the
second pass hoists it (`hoistedCount = 1`, and a new component is
created). -/
theorem canonicalization_idempotence_counterexample :
    (normalizeSchemaRefs (normalizeSchemaRefs twoPhaseRefDoc).1).2 = 1 := by
  set_option maxRecDepth 40000 in
  set_option maxHeartbeats 1600000 in
  decide

/-- C6: a second `normalizeSchemaRefs` pass on the normalizer's own output
performs zero hoists and leaves the document unchanged, provided every
`$ref` in that output is canonical and the output's `components.schemas`
is an object.  (The canonicality proviso is necessary: unresolvable
pointers survive the first pass untouched, and one of them may become
resolvable once later hoists of the same pass synthesize new components,
as `twoPhaseRefDoc` shows.) -/
theorem canonicalization_idempotence (d out : JVal)
    (hout : out = (normalizeSchemaRefs d).1)
    (hcanon : allRefsCanonical out = true)
    (hcs : hasComponentsSchemas out = true) :
    normalizeSchemaRefs out = (out, 0) :=
  normalizeSchemaRefs_canonical_noop out hcs hcanon

/-- A small, already fully canonical document for exercising the
idempotence theorem. -/
def canonicalSmallDoc : JVal := JVal.obj [("components", JVal.obj [("schemas", JVal.obj [
  ("A", JVal.obj [("type", JVal.str "object")])])])]

theorem canonicalization_idempotence_witness :
    normalizeSchemaRefs ((normalizeSchemaRefs canonicalSmallDoc).1) =
      ((normalizeSchemaRefs canonicalSmallDoc).1, 0) :=
  canonicalization_idempotence canonicalSmallDoc ((normalizeSchemaRefs canonicalSmallDoc).1)
    rfl
    (by set_option maxRecDepth 40000 in set_option maxHeartbeats 1600000 in decide)
    (by set_option maxRecDepth 40000 in set_option maxHeartbeats 1600000 in decide)

/-! ## C5: growth of the schema registry

The registry is the object at `components.schemas`.  The normalizer's
fresh-hoist branch adds exactly one key to it per increment of
`hoistedCount`; every other write of the traversal leaves its key list
unchanged.  These definitions capture the registry's key list and the
per-state bookkeeping invariant. -/

/-- The registry's key list, when `components.schemas` is an object. -/
def schemasShape (d : JVal) : Option (List String) :=
  match getAt d [Seg.key "components", Seg.key "schemas"] with
  | some (JVal.obj sf) => some (sf.map Prod.fst)
  | _ => none

/-- The number of entries of `components.schemas` (0 when absent or not an
object). -/
def schemasCountOf (d : JVal) : Nat :=
  (((oGet (d.jGet "components") "schemas").getD JVal.null).keys).length

/-- The decoded segment list a local pointer addresses. -/
def refTargetSegs (ref : String) : List String :=
  (splitSlash (jsSliceFrom ref 2).data).map decodePointerSegment

/-- A pointer that does not address the `components` container itself nor
the `components.schemas` registry (rewriting either would destroy the
registry). -/
def pointerSafeB (ref : String) : Bool :=
  !(refTargetSegs ref = ["components"] : Bool) &&
    !(refTargetSegs ref = ["components", "schemas"] : Bool)

/-- A write path that does not address the document root, the `components`
container or the registry itself. -/
def avoidsRegistry (p : List Seg) : Prop :=
  p ≠ [] ∧ p ≠ [Seg.key "components"] ∧ p ≠ [Seg.key "components", Seg.key "schemas"]

/-- The normalizer-state invariant: every `$ref` of the document is
registry-safe, the registry is an object, and each of its keys is
registered in `existingNames`. -/
def InvN (st : NState) : Prop :=
  refsOkBy pointerSafeB st.doc = true ∧
  ∃ ks, schemasShape st.doc = some ks ∧ ∀ n, n ∈ ks → n ∈ st.existingNames

/-- Registry growth accounting between two states: the key count grew by
exactly the growth of `hoistedCount`. -/
def growthOk (s t : NState) : Prop :=
  schemasCountOf t.doc + s.hoistedCount = schemasCountOf s.doc + t.hoistedCount

theorem growthOk_rfl (s : NState) : growthOk s s := rfl

theorem growthOk_trans {a b c : NState} (h1 : growthOk a b) (h2 : growthOk b c) :
    growthOk a c := by
  unfold growthOk at *
  omega

theorem avoidsRegistry_append (p q : List Seg) (hp : avoidsRegistry p) :
    avoidsRegistry (p ++ q) := by
  obtain ⟨h0, h1, h2⟩ := hp
  refine ⟨?_, ?_, ?_⟩ <;> intro h
  · cases p with
    | nil => exact h0 rfl
    | cons a p2 => simp at h
  · have hl := congrArg List.length h
    simp only [List.length_append, List.length_cons, List.length_nil] at hl
    cases p with
    | nil => exact h0 rfl
    | cons a p2 =>
        simp only [List.length_cons] at hl
        have hp2 : p2 = [] := List.length_eq_zero.mp (by omega)
        have hq : q = [] := List.length_eq_zero.mp (by omega)
        subst hp2; subst hq
        simp only [List.append_nil] at h
        exact h1 h
  · have hl := congrArg List.length h
    simp only [List.length_append, List.length_cons, List.length_nil] at hl
    cases p with
    | nil => exact h0 rfl
    | cons a p2 =>
        simp only [List.length_cons] at hl
        cases p2 with
        | nil =>
            simp only [List.length_nil] at hl
            obtain ⟨e, he⟩ := List.length_eq_one.mp (show q.length = 1 by omega)
            subst he
            simp only [List.cons_append, List.nil_append, List.cons.injEq] at h
            exact h1 (by rw [h.1])
        | cons b p3 =>
            simp only [List.length_cons] at hl
            have hp3 : p3 = [] := List.length_eq_zero.mp (by omega)
            have hq : q = [] := List.length_eq_zero.mp (by omega)
            subst hp3; subst hq
            simp only [List.append_nil] at h
            exact h2 h

theorem avoidsRegistry_of_len3 (a b c : Seg) (r : List Seg) :
    avoidsRegistry (a :: b :: c :: r) := by
  refine ⟨by simp, by simp, by simp⟩

theorem lookup_none_of_not_mem_keys (fields : List (String × JVal)) (k : String)
    (h : k ∉ fields.map Prod.fst) : fields.lookup k = none := by
  induction fields with
  | nil => rfl
  | cons kv rest ih =>
      simp only [List.map, List.mem_cons] at h
      push_neg at h
      simp only [List.lookup]
      rw [show (k == kv.1 : Bool) = false from beq_eq_false_iff_ne.mpr h.1]
      exact ih h.2

theorem map_fst_setField_of_lookup (fields : List (String × JVal)) (k : String)
    (x v : JVal) (h : fields.lookup k = some v) :
    (setField fields k x).map Prod.fst = fields.map Prod.fst := by
  induction fields with
  | nil => cases h
  | cons kv rest ih =>
      obtain ⟨k0, v0⟩ := kv
      simp only [List.lookup] at h
      unfold setField
      by_cases hk : k0 = k
      · rw [if_pos hk]
        simp [List.map]
      · rw [if_neg hk]
        rw [show (k == k0 : Bool) = false from
          beq_eq_false_iff_ne.mpr (fun hc => hk hc.symm)] at h
        simp only [List.map, List.cons.injEq, true_and]
        exact ih h

theorem map_fst_setField_of_none (fields : List (String × JVal)) (k : String)
    (x : JVal) (h : fields.lookup k = none) :
    (setField fields k x).map Prod.fst = fields.map Prod.fst ++ [k] := by
  induction fields with
  | nil => rfl
  | cons kv rest ih =>
      obtain ⟨k0, v0⟩ := kv
      simp only [List.lookup] at h
      unfold setField
      by_cases hk : k0 = k
      · rw [show (k == k0 : Bool) = true from beq_iff_eq.mpr hk.symm] at h
        cases h
      · rw [if_neg hk]
        rw [show (k == k0 : Bool) = false from
          beq_eq_false_iff_ne.mpr (fun hc => hk hc.symm)] at h
        simp only [List.map, List.cons_append, List.cons.injEq, true_and]
        exact ih h

theorem getSeg_setSeg_self (d w : JVal) (s : Seg) (c : JVal)
    (h : getSeg d s = some c) : getSeg (setSeg d s w) s = some w := by
  cases d with
  | obj fields =>
      cases s with
      | key k => exact setField_lookup_self fields k w
      | idx n => cases h
  | arr items =>
      cases s with
      | key k => cases h
      | idx n =>
          have h2 : items.get? n = some c := h
          have hlt : n < items.length := by
            by_contra hge
            rw [List.get?_eq_none.mpr (Nat.le_of_not_lt hge)] at h2
            cases h2
          exact List.get?_set_eq_of_lt w hlt
  | null => cases h
  | bool b => cases h
  | num n => cases h
  | str t => cases h

theorem getAt_setAt_self (p : List Seg) : ∀ (d w c : JVal), getAt d p = some c →
    getAt (setAt d p w) p = some w := by
  induction p with
  | nil => intro d w c h; rfl
  | cons s rest ih =>
      intro d w c h
      unfold getAt at h
      split at h
      · rename_i ch hch
        show getAt (setAt d (s :: rest) w) (s :: rest) = some w
        unfold setAt
        rw [hch]
        unfold getAt
        rw [getSeg_setSeg_self d _ s ch hch]
        exact ih ch w c h
      · cases h

/-- The top-level key list of a value (objects only). -/
def shapeTop (x : JVal) : Option (List String) :=
  match x with
  | JVal.obj sf => some (sf.map Prod.fst)
  | _ => none

theorem shapeTop_setAt (s : Seg) (r : List Seg) (v x : JVal) :
    shapeTop (setAt x (s :: r) v) = shapeTop x := by
  unfold setAt
  split
  · rename_i ch hch
    cases x with
    | obj fields =>
        cases s with
        | key k =>
            show shapeTop (JVal.obj (setField fields k (setAt ch r v))) = _
            simp only [shapeTop]
            rw [map_fst_setField_of_lookup fields k _ ch hch]
        | idx n => cases hch
    | arr items =>
        cases s with
        | key k => cases hch
        | idx n => rfl
    | null => cases hch
    | bool b => cases hch
    | num nn => cases hch
    | str t => cases hch
  · rfl

/-- The key list at `schemas` inside a container. -/
def shapeAtSchemas (c : JVal) : Option (List String) :=
  match getSeg c (Seg.key "schemas") with
  | some x => shapeTop x
  | none => none

theorem schemasShape_expand (d : JVal) :
    schemasShape d = match getSeg d (Seg.key "components") with
      | some c => shapeAtSchemas c
      | none => none := by
  unfold schemasShape shapeAtSchemas shapeTop
  simp only [getAt]
  cases getSeg d (Seg.key "components") with
  | none => rfl
  | some c =>
      simp only [getAt]
      cases getSeg c (Seg.key "schemas") with
      | none => rfl
      | some x => cases x <;> rfl

theorem getSeg_key (d : JVal) (k : String) : getSeg d (Seg.key k) = d.jGet k := by
  cases d <;> rfl

theorem schemasCountOf_eq (d : JVal) :
    schemasCountOf d = ((schemasShape d).getD []).length := by
  rw [schemasShape_expand]
  unfold schemasCountOf oGet
  rw [getSeg_key]
  cases d.jGet "components" with
  | none => rfl
  | some c =>
      simp only [Option.bind]
      rw [show c.jGet "schemas" = getSeg c (Seg.key "schemas") from (getSeg_key c _).symm]
      unfold shapeAtSchemas
      cases getSeg c (Seg.key "schemas") with
      | none => rfl
      | some x =>
          cases x <;> simp [shapeTop, JVal.keys, Option.getD]

theorem schemasCount_of_shape (d d2 : JVal) (h : schemasShape d2 = schemasShape d) :
    schemasCountOf d2 = schemasCountOf d := by
  rw [schemasCountOf_eq, schemasCountOf_eq, h]

theorem schemasShape_setAt (d v : JVal) (p : List Seg) (hp : avoidsRegistry p) :
    schemasShape (setAt d p v) = schemasShape d := by
  obtain ⟨h0, h1, h2⟩ := hp
  cases p with
  | nil => exact absurd rfl h0
  | cons s1 rest =>
      unfold setAt
      split
      case _ c hc =>
        rw [schemasShape_expand, schemasShape_expand]
        cases d with
        | obj fields =>
            cases s1 with
            | idx n => cases hc
            | key k =>
                by_cases hk : k = "components"
                · subst hk
                  cases rest with
                  | nil => exact absurd rfl h1
                  | cons s2 rest2 =>
                      show (match getSeg (JVal.obj (setField fields "components" _))
                          (Seg.key "components") with
                        | some c => shapeAtSchemas c
                        | none => none) = _
                      rw [show getSeg (JVal.obj (setField fields "components"
                          (setAt c (s2 :: rest2) v))) (Seg.key "components") =
                          some (setAt c (s2 :: rest2) v) from
                        setField_lookup_self fields "components" _]
                      rw [show getSeg (JVal.obj fields) (Seg.key "components") = some c from hc]
                      by_cases hs2 : s2 = Seg.key "schemas"
                      · subst hs2
                        cases rest2 with
                        | nil => exact absurd rfl h2
                        | cons s3 r3 =>
                            show shapeAtSchemas (setAt c (Seg.key "schemas" :: s3 :: r3) v) = _
                            unfold setAt
                            split
                            case _ c1 hc1 =>
                              unfold shapeAtSchemas
                              cases c with
                              | obj cf =>
                                  simp only [setSeg]
                                  rw [show getSeg (JVal.obj (setField cf "schemas"
                                      (setAt c1 (s3 :: r3) v))) (Seg.key "schemas") =
                                      some (setAt c1 (s3 :: r3) v) from
                                    setField_lookup_self cf "schemas" _]
                                  rw [show getSeg (JVal.obj cf) (Seg.key "schemas") =
                                      some c1 from hc1]
                                  exact shapeTop_setAt s3 r3 v c1
                              | arr items => cases hc1
                              | null => cases hc1
                              | bool b => cases hc1
                              | num nn => cases hc1
                              | str t => cases hc1
                            case _ => rfl
                      · show shapeAtSchemas (setAt c (s2 :: rest2) v) = _
                        unfold setAt
                        split
                        case _ c1 hc1 =>
                          unfold shapeAtSchemas
                          cases c with
                          | obj cf =>
                              cases s2 with
                              | idx n => cases hc1
                              | key k2 =>
                                  have hk2 : ¬ ("schemas" : String) = k2 := by
                                    intro hh
                                    exact hs2 (by rw [← hh])
                                  show (match (setField cf k2 _).lookup "schemas" with
                                    | some x => shapeTop x
                                    | none => none) = _
                                  rw [lookup_setField_ne cf k2 "schemas" _ hk2]
                                  rfl
                          | arr items =>
                              cases s2 with
                              | key k2 => cases hc1
                              | idx n => rfl
                          | null => cases hc1
                          | bool b => cases hc1
                          | num nn => cases hc1
                          | str t => cases hc1
                        case _ => rfl
                · show (match (setField fields k _).lookup "components" with
                    | some c => shapeAtSchemas c
                    | none => none) = _
                  rw [lookup_setField_ne fields k "components" _
                    (fun hh => hk hh.symm)]
                  rfl
        | arr items =>
            cases s1 with
            | key k => cases hc
            | idx n => rfl
        | null => cases hc
        | bool b => cases hc
        | num nn => cases hc
        | str t => cases hc
      case _ => rfl

theorem schemasShape_install (d clone : JVal) (n : String) (ks : List String)
    (hs : schemasShape d = some ks) (hn : n ∉ ks) :
    schemasShape (modifyAt d [Seg.key "components", Seg.key "schemas"]
      (fun s => s.jSet n clone)) = some (ks ++ [n]) := by
  unfold schemasShape at hs
  split at hs
  case _ sf hget =>
    simp only [Option.some.injEq] at hs
    unfold modifyAt
    rw [hget]
    unfold schemasShape
    rw [getAt_setAt_self _ d _ _ hget]
    show some ((setField sf n clone).map Prod.fst) = _
    rw [map_fst_setField_of_none sf n clone
      (lookup_none_of_not_mem_keys sf n (by rw [hs]; exact hn))]
    rw [hs]
  case _ => cases hs


theorem setAt_str_cases (p : List Seg) (c v : JVal) (s : String)
    (h : setAt c p v = JVal.str s) : (p = [] ∧ v = JVal.str s) ∨ c = JVal.str s := by
  cases p with
  | nil => exact Or.inl ⟨rfl, h⟩
  | cons sg rest =>
      unfold setAt at h
      split at h
      · rename_i ch hch
        cases c with
        | obj fields => cases sg <;> cases h
        | arr items => cases sg <;> cases h
        | null => cases hch
        | bool b => cases hch
        | num n => cases hch
        | str t => cases hch
      · exact Or.inr h

/-- The `$ref`-entry condition `refsOkByF` imposes on a field `(k, x)`. -/
def entryOk (P : String → Bool) (k : String) (x : JVal) : Bool :=
  if k = "$ref" then
    match x with
    | JVal.str s => P s
    | _ => true
  else true

theorem refsOkByF_setField (P : String → Bool) (fields : List (String × JVal))
    (k : String) (x : JVal) (hf : refsOkByF P fields = true) (hx : refsOkBy P x = true)
    (hk : entryOk P k x = true) : refsOkByF P (setField fields k x) = true := by
  induction fields with
  | nil =>
      show refsOkByF P [(k, x)] = true
      unfold refsOkByF
      simp only [Bool.and_eq_true]
      exact ⟨⟨hk, hx⟩, rfl⟩
  | cons kv rest ih =>
      obtain ⟨k0, v0⟩ := kv
      unfold refsOkByF at hf
      simp only [Bool.and_eq_true] at hf
      unfold setField
      by_cases hk0 : k0 = k
      · rw [if_pos hk0]
        subst hk0
        unfold refsOkByF
        simp only [Bool.and_eq_true]
        exact ⟨⟨hk, hx⟩, hf.2⟩
      · rw [if_neg hk0]
        unfold refsOkByF
        simp only [Bool.and_eq_true]
        exact ⟨hf.1, ih hf.2⟩

theorem refsOkByL_set (P : String → Bool) (items : List JVal) (x : JVal)
    (hl : refsOkByL P items = true) (hx : refsOkBy P x = true) :
    ∀ n, refsOkByL P (items.set n x) = true := by
  induction items with
  | nil => intro n; exact hl
  | cons y ys ih =>
      intro n
      unfold refsOkByL at hl
      simp only [Bool.and_eq_true] at hl
      cases n with
      | zero =>
          show refsOkByL P (x :: ys) = true
          unfold refsOkByL
          rw [hx, hl.2]
          rfl
      | succ m =>
          show refsOkByL P (y :: ys.set m x) = true
          unfold refsOkByL
          rw [hl.1, ih hl.2 m]
          rfl

theorem refsOkBy_setAt (P : String → Bool) (p : List Seg) :
    ∀ d v, refsOkBy P d = true → refsOkBy P v = true →
    (∀ s, v = JVal.str s → P s = true ∨ getAt d p = some v) →
    refsOkBy P (setAt d p v) = true := by
  induction p with
  | nil => intro d v hd hv hstr; exact hv
  | cons sg rest ih =>
      intro d v hd hv hstr
      unfold setAt
      split
      case _ c hc =>
        have hcok : refsOkBy P c = true := refsOkBy_getSeg P d sg c hd hc
        have hstr2 : ∀ s, v = JVal.str s → P s = true ∨ getAt c rest = some v := by
          intro s hs
          cases hstr s hs with
          | inl hp => exact Or.inl hp
          | inr hget =>
              unfold getAt at hget
              rw [hc] at hget
              exact Or.inr hget
        have hw : refsOkBy P (setAt c rest v) = true := ih c v hcok hv hstr2
        cases d with
        | obj fields =>
            cases sg with
            | idx n => cases hc
            | key k =>
                show refsOkByF P (setField fields k (setAt c rest v)) = true
                refine refsOkByF_setField P fields k _ hd hw ?_
                unfold entryOk
                split
                · rename_i hkref
                  split
                  · rename_i s hws
                    cases setAt_str_cases rest c v s hws with
                    | inl hnil =>
                        obtain ⟨hrest, hv'⟩ := hnil
                        cases hstr s hv' with
                        | inl hp => exact hp
                        | inr hget =>
                            subst hrest
                            unfold getAt at hget
                            rw [hc] at hget
                            simp only [getAt, Option.some.injEq] at hget
                            subst hkref
                            refine refsOkByF_refStr P fields s hd ?_
                            have hlk : fields.lookup "$ref" = some c := hc
                            rw [hget, hv'] at hlk
                            exact hlk
                    | inr hcs =>
                        subst hkref
                        refine refsOkByF_refStr P fields s hd ?_
                        have hlk : fields.lookup "$ref" = some c := hc
                        rw [hcs] at hlk
                        exact hlk
                  · rfl
                · rfl
        | arr items =>
            cases sg with
            | key k => cases hc
            | idx n =>
                show refsOkByL P (items.set n (setAt c rest v)) = true
                exact refsOkByL_set P items _ hd hw n
        | null => cases hc
        | bool b => cases hc
        | num n => cases hc
        | str t => cases hc
      case _ => exact hd

theorem refsOkBy_jSet (P : String → Bool) (c x : JVal) (k : String)
    (hc : refsOkBy P c = true) (hx : refsOkBy P x = true)
    (hk : entryOk P k x = true) : refsOkBy P (c.jSet k x) = true := by
  cases c with
  | obj fields => exact refsOkByF_setField P fields k x hc hx hk
  | arr items => exact hc
  | null => exact hc
  | bool b => exact hc
  | num n => exact hc
  | str t => exact hc

theorem refsOkBy_modifyAt_jSet (P : String → Bool) (d : JVal) (p : List Seg)
    (k : String) (x : JVal) (hd : refsOkBy P d = true) (hx : refsOkBy P x = true)
    (hk : entryOk P k x = true) : refsOkBy P (modifyAt d p (fun n => n.jSet k x)) = true := by
  unfold modifyAt
  split
  case _ c hc =>
    have hcok : refsOkBy P c = true := refsOkBy_getAt P d p c hd hc
    refine refsOkBy_setAt P p d _ hd (refsOkBy_jSet P c x k hcok hx hk) ?_
    intro s hs
    refine Or.inr ?_
    rw [hc]
    cases c with
    | obj fields => cases hs
    | arr items => rfl
    | null => rfl
    | bool b => rfl
    | num n => rfl
    | str t => rfl
  case _ => exact hd


theorem isPre_exists_suffix (p : List Char) : ∀ s, isPre p s = true →
    ∃ t, s = p ++ t := by
  induction p with
  | nil => intro s _; exact ⟨s, rfl⟩
  | cons c cs ih =>
      intro s h
      cases s with
      | nil => cases h
      | cons d ds =>
          unfold isPre at h
          simp only [Bool.and_eq_true, beq_iff_eq] at h
          obtain ⟨t, ht⟩ := ih ds h.2
          exact ⟨t, by rw [h.1, ht]; rfl⟩

theorem jsStartsWith_exists_suffix (s p : String) (h : jsStartsWith s p = true) :
    ∃ t, s = p ++ String.mk t := by
  obtain ⟨t, ht⟩ := isPre_exists_suffix p.data s.data h
  refine ⟨t, ?_⟩
  have hdata : s.data = (p ++ String.mk t).data := by
    rw [String.data_append]
    exact ht
  exact congrArg String.mk hdata

theorem splitSlash_ne_nil (l : List Char) : splitSlash l ≠ [] := by
  cases l with
  | nil => simp [splitSlash]
  | cons c cs =>
      unfold splitSlash
      split
      · simp
      · split <;> simp

theorem splitSlash_append_slash (cs : List Char) (l : List Char) (h : '/' ∉ cs) :
    splitSlash (cs ++ '/' :: l) = String.mk cs :: splitSlash l := by
  induction cs with
  | nil =>
      show splitSlash ('/' :: l) = "" :: splitSlash l
      conv_lhs => unfold splitSlash
      rw [if_pos rfl]
  | cons c cs2 ih =>
      have hc : ¬ c = '/' := fun hc => h (hc ▸ List.mem_cons_self c cs2)
      have h2 : '/' ∉ cs2 := fun hm => h (List.mem_cons_of_mem c hm)
      show splitSlash (c :: (cs2 ++ '/' :: l)) = _
      conv_lhs => unfold splitSlash
      rw [if_neg hc, ih h2]

theorem refTargetSegs_canonical (n : String) :
    refTargetSegs ("#/components/schemas/" ++ n) =
      "components" :: "schemas" :: (splitSlash n.data).map decodePointerSegment := by
  unfold refTargetSegs jsSliceFrom
  rw [String.data_append]
  rw [show ("#/components/schemas/").data =
    '#' :: '/' :: ("components".data ++ '/' :: ("schemas".data ++ ['/'])) from rfl]
  rw [show (('#' :: '/' :: ("components".data ++ '/' :: ("schemas".data ++ ['/']))
      ++ n.data).drop 2) =
    "components".data ++ '/' :: ("schemas".data ++ '/' :: n.data) from by
      simp [List.drop, List.append_assoc]]
  rw [show (String.mk ("components".data ++ '/' :: ("schemas".data ++ '/' :: n.data))).data
    = "components".data ++ '/' :: ("schemas".data ++ '/' :: n.data) from rfl]
  rw [splitSlash_append_slash "components".data _ (by decide)]
  rw [splitSlash_append_slash "schemas".data _ (by decide)]
  rfl

theorem pointerSafeB_canonical (n : String) :
    pointerSafeB ("#/components/schemas/" ++ n) = true := by
  unfold pointerSafeB
  rw [refTargetSegs_canonical]
  simp only [Bool.and_eq_true, Bool.not_eq_true', decide_eq_false_iff_not]
  constructor
  · simp
  · intro h
    simp only [List.cons.injEq] at h
    exact absurd (List.map_eq_nil.mp h.2.2) (splitSlash_ne_nil n.data)

theorem resolveSegs_shape (segs : List String) :
    ∀ (v : JVal) (acc : List Seg) (p : List Seg) (w : Option JVal),
    resolveSegs v segs acc = some (p, w) →
    ∃ tail, p = acc ++ tail ∧ tail.length = segs.length ∧
      (∀ i k, tail.get? i = some (Seg.key k) → segs.get? i = some k) ∧
      w = getAt v tail := by
  induction segs with
  | nil => intro v acc p w h; cases h
  | cons seg rest ih =>
      intro v acc p w h
      cases rest with
      | nil =>
          unfold resolveSegs at h
          split at h
          · simp only [Option.some.injEq, Prod.mk.injEq] at h
            refine ⟨[segFor v seg], h.1.symm, rfl, ?_, ?_⟩
            · intro i k hik
              cases i with
              | zero =>
                  simp only [List.get?] at hik ⊢
                  cases hseg : segFor v seg with
                  | key k2 =>
                      rw [hseg] at hik
                      simp only [Option.some.injEq, Seg.key.injEq] at hik
                      rw [← hik]
                      unfold segFor at hseg
                      split at hseg
                      · split at hseg
                        · cases hseg
                        · simp only [Seg.key.injEq] at hseg
                          rw [hseg]
                      · simp only [Seg.key.injEq] at hseg
                        rw [hseg]
                  | idx m =>
                      rw [hseg] at hik
                      cases hik
              | succ j => cases hik
            · rw [← h.2]
              unfold getAt
              cases hs : getSeg v (segFor v seg) with
              | none => rfl
              | some ch => rfl
          · cases h
      | cons seg2 rest2 =>
          unfold resolveSegs at h
          split at h
          · rename_i hobj
            dsimp only at h
            split at h
            case _ child hchild =>
              obtain ⟨tail, htail, hlen, hkeys, hval⟩ := ih child _ p w h
              refine ⟨segFor v seg :: tail, by rw [htail]; simp, by simp [hlen], ?_, ?_⟩
              · intro i k hik
                cases i with
                | zero =>
                    simp only [List.get?] at hik ⊢
                    cases hseg : segFor v seg with
                    | key k2 =>
                        rw [hseg] at hik
                        simp only [Option.some.injEq, Seg.key.injEq] at hik
                        rw [← hik]
                        unfold segFor at hseg
                        split at hseg
                        · split at hseg
                          · cases hseg
                          · simp only [Seg.key.injEq] at hseg
                            rw [hseg]
                        · simp only [Seg.key.injEq] at hseg
                          rw [hseg]
                    | idx m =>
                        rw [hseg] at hik
                        cases hik
                | succ j => exact hkeys j k hik
              · rw [hval]
                conv_rhs => unfold getAt
                rw [hchild]
            case _ => cases h
          · cases h

theorem resolve_targetPath_avoids (root : JVal) (ref : String) (p : List Seg)
    (w : Option JVal) (hsafe : pointerSafeB ref = true)
    (hres : resolveJsonPointerWithParent root ref = some (p, w)) :
    avoidsRegistry p ∧ w = getAt root p := by
  unfold resolveJsonPointerWithParent at hres
  split at hres
  · cases hres
  · obtain ⟨tail, htail, hlen, hkeys, hval⟩ := resolveSegs_shape _ root [] p w hres
    simp only [List.nil_append] at htail
    subst htail
    have hfold : List.map decodePointerSegment (splitSlash (jsSliceFrom ref 2).data)
        = refTargetSegs ref := rfl
    rw [hfold] at hlen hkeys
    unfold pointerSafeB at hsafe
    simp only [Bool.and_eq_true, Bool.not_eq_true', decide_eq_false_iff_not] at hsafe
    have hnil : refTargetSegs ref ≠ [] := by
      intro hh
      exact absurd (List.map_eq_nil.mp (hfold.symm ▸ hh)) (splitSlash_ne_nil _)
    refine ⟨⟨?_, ?_, ?_⟩, hval⟩
    · intro hp
      rw [hp] at hlen
      exact hnil (List.length_eq_zero.mp hlen.symm)
    · intro hp
      rw [hp] at hlen hkeys
      refine hsafe.1 ?_
      have h0 := hkeys 0 "components" rfl
      cases hsegs : refTargetSegs ref with
      | nil => exact absurd hsegs hnil
      | cons a rest =>
          cases rest with
          | nil =>
              rw [hsegs] at h0
              simp only [List.get?, Option.some.injEq] at h0
              rw [h0]
          | cons b rest2 =>
              rw [hsegs] at hlen
              simp at hlen
    · intro hp
      rw [hp] at hlen hkeys
      refine hsafe.2 ?_
      have h0 := hkeys 0 "components" rfl
      have h1 := hkeys 1 "schemas" rfl
      cases hsegs : refTargetSegs ref with
      | nil => exact absurd hsegs hnil
      | cons a rest =>
          cases rest with
          | nil =>
              rw [hsegs] at hlen
              simp at hlen
          | cons b rest2 =>
              cases rest2 with
              | nil =>
                  rw [hsegs] at h0 h1
                  simp only [List.get?, Option.some.injEq] at h0 h1
                  rw [h0, h1]
              | cons e rest3 =>
                  rw [hsegs] at hlen
                  simp at hlen

theorem foldl_maxlen_ge_init (names : List String) :
    ∀ init : Nat, init ≤ names.foldl (fun m t => max m t.length) init := by
  induction names with
  | nil => intro init; exact Nat.le_refl init
  | cons t ts ih =>
      intro init
      exact Nat.le_trans (Nat.le_max_left init t.length) (ih (max init t.length))

theorem mem_le_foldl_maxlen (names : List String) (s : String) (h : s ∈ names) :
    ∀ init : Nat, s.length ≤ names.foldl (fun m t => max m t.length) init := by
  induction names with
  | nil => cases h
  | cons t ts ih =>
      intro init
      cases List.mem_cons.mp h with
      | inl hs =>
          subst hs
          exact Nat.le_trans (Nat.le_max_right init s.length)
            (foldl_maxlen_ge_init ts (max init s.length))
      | inr hs => exact ih hs (max init t.length)

theorem freshPad_length (names : List String) :
    (freshPad names).length = 1 + names.foldl (fun m t => max m t.length) 0 := by
  unfold freshPad
  show (List.replicate (1 + names.foldl (fun m t => max m t.length) 0) 'Z').length = _
  rw [List.length_replicate]

theorem append_freshPad_not_mem (c : String) (names : List String) :
    (c ++ freshPad names) ∉ names := by
  intro hm
  have hle := mem_le_foldl_maxlen names _ hm 0
  rw [String.length_append, freshPad_length] at hle
  omega

theorem pickUniqueLoop_not_mem (c : String) (names : List String) :
    ∀ fuel k, pickUniqueLoop c names k fuel ∉ names := by
  intro fuel
  induction fuel with
  | zero => intro k; exact append_freshPad_not_mem c names
  | succ f ih =>
      intro k
      unfold pickUniqueLoop
      dsimp only
      split
      · exact ih (k + 1)
      · rename_i hcon
        intro hm
        simp at hcon
        exact hcon hm

theorem uniquePick_not_mem (cand : String) (names : List String) :
    (if names.contains cand = true then pickUniqueLoop cand names 2 (names.length + 1)
     else cand) ∉ names := by
  split
  · exact pickUniqueLoop_not_mem cand names (names.length + 1) 2
  · rename_i hcon
    intro hm
    simp at hcon
    exact hcon hm

theorem generateComponentName_fresh (contextName pointer : String)
    (names : List String) :
    (generateComponentName contextName pointer names).1 ∉ names := by
  unfold generateComponentName
  dsimp only
  exact uniquePick_not_mem _ names

theorem generateComponentName_registry (contextName pointer : String)
    (names : List String) :
    (generateComponentName contextName pointer names).2 =
      names ++ [(generateComponentName contextName pointer names).1] := rfl


theorem schemasShape_modifyAt (d : JVal) (p : List Seg) (f : JVal → JVal)
    (hp : avoidsRegistry p) : schemasShape (modifyAt d p f) = schemasShape d := by
  unfold modifyAt
  split
  · exact schemasShape_setAt d _ p hp
  · rfl

theorem growth_foldl {α : Type} (f : NState → α → NState)
    (h : ∀ s x, InvN s → InvN (f s x) ∧ growthOk s (f s x)) :
    ∀ (l : List α) (s : NState), InvN s →
      InvN (l.foldl f s) ∧ growthOk s (l.foldl f s) := by
  intro l
  induction l with
  | nil => intro s hs; exact ⟨hs, growthOk_rfl s⟩
  | cons x xs ih =>
      intro s hs
      obtain ⟨h1, h2⟩ := h s x hs
      obtain ⟨h3, h4⟩ := ih (f s x) h1
      exact ⟨h3, growthOk_trans h2 h4⟩

theorem growth_fold_step {α : Type} (f : NState → α → NState) (l : List α)
    (s0 s1 : NState)
    (hstep : ∀ s x, InvN s → InvN (f s x) ∧ growthOk s (f s x))
    (h0 : InvN s1 ∧ growthOk s0 s1) :
    InvN (l.foldl f s1) ∧ growthOk s0 (l.foldl f s1) := by
  obtain ⟨ha, hb⟩ := growth_foldl f hstep l s1 h0.1
  exact ⟨ha, growthOk_trans h0.2 hb⟩

theorem refsOkBy_refObj (n : String) :
    refsOkBy pointerSafeB
      (JVal.obj [("$ref", JVal.str ("#/components/schemas/" ++ n))]) = true := by
  show refsOkByF pointerSafeB [("$ref", JVal.str ("#/components/schemas/" ++ n))] = true
  unfold refsOkByF
  simp only [Bool.and_eq_true]
  refine ⟨⟨?_, rfl⟩, rfl⟩
  simp only [if_true]
  exact pointerSafeB_canonical n

/-- The state built by the fresh-hoist branch of `hoistRef`: install the
clone under a fresh component name, rewrite the pointer's location to a
canonical `$ref`, append to the pointer map and registry, and count the
hoist.  It preserves the invariant and grows the registry by exactly
one. -/
theorem fresh_install (st : NState) (ref ctx2 : String) (targetPath : List Seg)
    (value : JVal) (hInv : InvN st) (htp : avoidsRegistry targetPath)
    (hvalok : refsOkBy pointerSafeB value = true) (hvobj : value.isObjLike = true) :
    InvN ⟨setAt (modifyAt st.doc [Seg.key "components", Seg.key "schemas"]
        (fun s => s.jSet (generateComponentName ctx2 ref st.existingNames).1 value))
        targetPath
        (JVal.obj [("$ref", JVal.str ("#/components/schemas/" ++
          (generateComponentName ctx2 ref st.existingNames).1))]),
      st.ptrMap ++ [(ref, (generateComponentName ctx2 ref st.existingNames).1)],
      (generateComponentName ctx2 ref st.existingNames).2, st.hoistedCount + 1⟩ ∧
    growthOk st ⟨setAt (modifyAt st.doc [Seg.key "components", Seg.key "schemas"]
        (fun s => s.jSet (generateComponentName ctx2 ref st.existingNames).1 value))
        targetPath
        (JVal.obj [("$ref", JVal.str ("#/components/schemas/" ++
          (generateComponentName ctx2 ref st.existingNames).1))]),
      st.ptrMap ++ [(ref, (generateComponentName ctx2 ref st.existingNames).1)],
      (generateComponentName ctx2 ref st.existingNames).2, st.hoistedCount + 1⟩ := by
  obtain ⟨hrefs, ks, hshape, hsub⟩ := hInv
  have hfresh : (generateComponentName ctx2 ref st.existingNames).1 ∉ ks :=
    fun hm => generateComponentName_fresh ctx2 ref st.existingNames (hsub _ hm)
  have hentry : entryOk pointerSafeB
      (generateComponentName ctx2 ref st.existingNames).1 value = true := by
    unfold entryOk
    split
    · cases value with
      | obj f => rfl
      | arr l => rfl
      | null => exact Bool.noConfusion hvobj
      | bool b => exact Bool.noConfusion hvobj
      | num m => exact Bool.noConfusion hvobj
      | str t => exact Bool.noConfusion hvobj
    · rfl
  have hshape1 : schemasShape (modifyAt st.doc [Seg.key "components", Seg.key "schemas"]
      (fun s => s.jSet (generateComponentName ctx2 ref st.existingNames).1 value)) =
      some (ks ++ [(generateComponentName ctx2 ref st.existingNames).1]) :=
    schemasShape_install st.doc value _ ks hshape hfresh
  have hrefs1 : refsOkBy pointerSafeB (modifyAt st.doc
      [Seg.key "components", Seg.key "schemas"]
      (fun s => s.jSet (generateComponentName ctx2 ref st.existingNames).1 value)) = true :=
    refsOkBy_modifyAt_jSet pointerSafeB st.doc _ _ value hrefs hvalok hentry
  have hshape2 : schemasShape (setAt (modifyAt st.doc
      [Seg.key "components", Seg.key "schemas"]
      (fun s => s.jSet (generateComponentName ctx2 ref st.existingNames).1 value))
      targetPath
      (JVal.obj [("$ref", JVal.str ("#/components/schemas/" ++
        (generateComponentName ctx2 ref st.existingNames).1))])) =
      some (ks ++ [(generateComponentName ctx2 ref st.existingNames).1]) := by
    rw [schemasShape_setAt _ _ targetPath htp]
    exact hshape1
  have hrefs2 : refsOkBy pointerSafeB (setAt (modifyAt st.doc
      [Seg.key "components", Seg.key "schemas"]
      (fun s => s.jSet (generateComponentName ctx2 ref st.existingNames).1 value))
      targetPath
      (JVal.obj [("$ref", JVal.str ("#/components/schemas/" ++
        (generateComponentName ctx2 ref st.existingNames).1))])) = true := by
    refine refsOkBy_setAt pointerSafeB targetPath _ _ hrefs1 (refsOkBy_refObj _) ?_
    intro s hs
    cases hs
  refine ⟨⟨hrefs2, ks ++ [(generateComponentName ctx2 ref st.existingNames).1],
    hshape2, ?_⟩, ?_⟩
  · intro n hn
    show n ∈ (generateComponentName ctx2 ref st.existingNames).2
    rw [generateComponentName_registry]
    cases List.mem_append.mp hn with
    | inl h => exact List.mem_append_left _ (hsub n h)
    | inr h => exact List.mem_append_right _ h
  · show growthOk st _
    unfold growthOk
    show schemasCountOf (setAt _ targetPath _) + st.hoistedCount =
      schemasCountOf st.doc + (st.hoistedCount + 1)
    rw [schemasCountOf_eq, schemasCountOf_eq, hshape2, hshape]
    simp only [Option.getD, List.length_append, List.length_cons, List.length_nil]
    omega


theorem fresh_branch_growth (fuel : Nat)
    (ihS : ∀ st path ctx, InvN st → avoidsRegistry path →
      InvN (processSchemaAt fuel st path ctx) ∧
        growthOk st (processSchemaAt fuel st path ctx))
    (st : NState) (ref ctx2 : String) (targetPath : List Seg) (value : JVal)
    (hInv : InvN st) (htp : avoidsRegistry targetPath)
    (hvalok : refsOkBy pointerSafeB value = true) (hvobj : value.isObjLike = true) :
    (InvN (processSchemaAt fuel
        ⟨setAt (modifyAt st.doc [Seg.key "components", Seg.key "schemas"]
            (fun s => s.jSet (generateComponentName ctx2 ref st.existingNames).1 value))
          targetPath
          (JVal.obj [("$ref", JVal.str ("#/components/schemas/" ++
            (generateComponentName ctx2 ref st.existingNames).1))]),
        st.ptrMap ++ [(ref, (generateComponentName ctx2 ref st.existingNames).1)],
        (generateComponentName ctx2 ref st.existingNames).2, st.hoistedCount + 1⟩
        [Seg.key "components", Seg.key "schemas",
          Seg.key (generateComponentName ctx2 ref st.existingNames).1]
        (generateComponentName ctx2 ref st.existingNames).1) ∧
      growthOk st (processSchemaAt fuel
        ⟨setAt (modifyAt st.doc [Seg.key "components", Seg.key "schemas"]
            (fun s => s.jSet (generateComponentName ctx2 ref st.existingNames).1 value))
          targetPath
          (JVal.obj [("$ref", JVal.str ("#/components/schemas/" ++
            (generateComponentName ctx2 ref st.existingNames).1))]),
        st.ptrMap ++ [(ref, (generateComponentName ctx2 ref st.existingNames).1)],
        (generateComponentName ctx2 ref st.existingNames).2, st.hoistedCount + 1⟩
        [Seg.key "components", Seg.key "schemas",
          Seg.key (generateComponentName ctx2 ref st.existingNames).1]
        (generateComponentName ctx2 ref st.existingNames).1)) ∧
    (∀ r : String, (some ("#/components/schemas/" ++
        (generateComponentName ctx2 ref st.existingNames).1) : Option String) = some r →
      ∃ sfx, r = "#/components/schemas/" ++ sfx) := by
  obtain ⟨hi, hg⟩ := fresh_install st ref ctx2 targetPath value hInv htp hvalok hvobj
  have hrec := ihS _ [Seg.key "components", Seg.key "schemas",
      Seg.key (generateComponentName ctx2 ref st.existingNames).1]
    (generateComponentName ctx2 ref st.existingNames).1 hi
    (avoidsRegistry_of_len3 _ _ _ [])
  exact ⟨⟨hrec.1, growthOk_trans hg hrec.2⟩,
    fun r hr => ⟨_, (Option.some.inj hr).symm⟩⟩

set_option maxHeartbeats 800000 in
theorem normalizer_growth : ∀ fuel : Nat,
    (∀ st ref ctx, InvN st → pointerSafeB ref = true →
      (InvN (hoistRefS fuel st ref ctx).1 ∧ growthOk st (hoistRefS fuel st ref ctx).1) ∧
      (∀ r, (hoistRefS fuel st ref ctx).2 = some r →
        ∃ sfx, r = "#/components/schemas/" ++ sfx)) ∧
    (∀ st path ctx, InvN st → avoidsRegistry path →
      InvN (processSchemaAt fuel st path ctx) ∧
        growthOk st (processSchemaAt fuel st path ctx)) ∧
    (∀ st path ctx, InvN st → avoidsRegistry path →
      InvN (processParameterAt fuel st path ctx) ∧
        growthOk st (processParameterAt fuel st path ctx)) := by
  intro fuel
  induction fuel with
  | zero =>
      refine ⟨fun st ref ctx hInv _ => ⟨⟨hInv, growthOk_rfl st⟩, fun r hr => by cases hr⟩,
        fun st path ctx hInv _ => ⟨hInv, growthOk_rfl st⟩,
        fun st path ctx hInv _ => ⟨hInv, growthOk_rfl st⟩⟩
  | succ fuel ih =>
      obtain ⟨ihH, ihS, ihP⟩ := ih
      have hH : ∀ st ref ctx, InvN st → pointerSafeB ref = true →
          (InvN (hoistRefS (fuel + 1) st ref ctx).1 ∧
            growthOk st (hoistRefS (fuel + 1) st ref ctx).1) ∧
          (∀ r, (hoistRefS (fuel + 1) st ref ctx).2 = some r →
            ∃ sfx, r = "#/components/schemas/" ++ sfx) := by
        intro st ref ctx hInv hsafe
        show (InvN (hoistRefS (Nat.succ fuel) st ref ctx).1 ∧
            growthOk st (hoistRefS (Nat.succ fuel) st ref ctx).1) ∧ _
        rw [hoistRefS.eq_2]
        split
        · exact ⟨⟨hInv, growthOk_rfl st⟩, fun r hr => by cases hr⟩
        · split
          · rename_i n hmap
            exact ⟨⟨hInv, growthOk_rfl st⟩, fun r hr => ⟨n, (Option.some.inj hr).symm⟩⟩
          · split
            · exact ⟨⟨hInv, growthOk_rfl st⟩, fun r hr => by cases hr⟩
            · rename_i targetPath valueOpt hres
              split
              · exact ⟨⟨hInv, growthOk_rfl st⟩, fun r hr => by cases hr⟩
              · rename_i value
                split
                · exact ⟨⟨hInv, growthOk_rfl st⟩, fun r hr => by cases hr⟩
                · rename_i hnotobj
                  dsimp only
                  split
                  · rename_i r2 halias
                    refine ⟨⟨hInv, by exact rfl⟩, ?_⟩
                    intro r hr
                    split at halias
                    · rename_i rr hrr
                      split at halias
                      · rename_i hguard
                        simp only [Bool.and_eq_true] at hguard
                        obtain ⟨t, ht⟩ := jsStartsWith_exists_suffix rr
                          "#/components/schemas/" hguard.2
                        exact ⟨String.mk t,
                          by rw [← Option.some.inj hr, ← Option.some.inj halias]; exact ht⟩
                      · cases halias
                    · cases halias
                  · rename_i halias
                    obtain ⟨htp, hvg⟩ := resolve_targetPath_avoids st.doc ref
                      targetPath (some value) hsafe hres
                    have hget : getAt st.doc targetPath = some value := hvg.symm
                    have hvalok : refsOkBy pointerSafeB value = true :=
                      refsOkBy_getAt pointerSafeB st.doc targetPath value hInv.1 hget
                    have hvobj : value.isObjLike = true := by
                      simp only [Bool.not_eq_true'] at hnotobj
                      simpa using hnotobj
                    exact fresh_branch_growth fuel ihS st ref _ targetPath value
                      hInv htp hvalok hvobj
      have hS : ∀ st path ctx, InvN st → avoidsRegistry path →
          InvN (processSchemaAt (fuel + 1) st path ctx) ∧
            growthOk st (processSchemaAt (fuel + 1) st path ctx) := by
        intro st path ctx hInv hp
        show InvN (processSchemaAt (Nat.succ fuel) st path ctx) ∧ _
        rw [processSchemaAt.eq_2]
        split
        · rename_i node hnode
          split
          · rename_i hobj
            dsimp only
            refine growth_fold_step _ _ _ _ ?_ ?_
            · intro s spec hs
              split
              · rename_i n2 hn2
                refine growth_fold_step _ _ _ _ ?_ ⟨hs, growthOk_rfl s⟩
                intro s2 sub hs2
                exact ihS s2 (path ++ sub) ctx hs2 (avoidsRegistry_append path sub hp)
              · exact ⟨hs, growthOk_rfl s⟩
            · split
              · rename_i s hsref
                have hrsafe : pointerSafeB s = true :=
                  refsOkBy_jGet_refStr pointerSafeB node s
                    (refsOkBy_getAt pointerSafeB st.doc path node hInv.1 hnode) hsref
                obtain ⟨⟨hInv1, hg1⟩, hsfx⟩ := ihH st s ctx hInv hrsafe
                split
                · rename_i nr hnr
                  obtain ⟨sfx, hsfxeq⟩ := hsfx nr hnr
                  obtain ⟨hrefs1, ks1, hks1, hsub1⟩ := hInv1
                  refine ⟨⟨?_, ks1, ?_, hsub1⟩, ?_⟩
                  · refine refsOkBy_modifyAt_jSet pointerSafeB _ path "$ref" _ hrefs1 rfl ?_
                    simp only [entryOk, eq_self_iff_true, if_true]
                    show pointerSafeB nr = true
                    rw [hsfxeq]
                    exact pointerSafeB_canonical sfx
                  · show schemasShape (modifyAt _ path _) = some ks1
                    rw [schemasShape_modifyAt _ path _ hp]
                    exact hks1
                  · refine growthOk_trans hg1 ?_
                    show growthOk _ _
                    unfold growthOk
                    dsimp only
                    rw [schemasCount_of_shape _ _ (schemasShape_modifyAt _ path _ hp)]
                · exact ⟨hInv1, hg1⟩
              · exact ⟨hInv, growthOk_rfl st⟩
          · exact ⟨hInv, growthOk_rfl st⟩
        · exact ⟨hInv, growthOk_rfl st⟩
      refine ⟨hH, hS, ?_⟩
      intro st path ctx hInv hp
      show InvN (processParameterAt (Nat.succ fuel) st path ctx) ∧ _
      rw [processParameterAt.eq_2]
      split
      · rename_i parameter hparam
        split
        · rename_i hobj
          dsimp only
          split
          · rename_i p2 hp2
            split
            · rename_i content hcontent
              split
              · rename_i hcobj
                refine growth_fold_step _ _ _ _ ?_ ?_
                · intro s mt hs
                  exact ihS s (path ++ [Seg.key "content", Seg.key mt, Seg.key "schema"])
                    _ hs (avoidsRegistry_append path _ hp)
                · split
                  · rename_i sch hsch
                    split
                    · exact ihS st (path ++ [Seg.key "schema"]) _ hInv
                        (avoidsRegistry_append path _ hp)
                    · exact ⟨hInv, growthOk_rfl st⟩
                  · exact ⟨hInv, growthOk_rfl st⟩
              · split
                · rename_i sch hsch
                  split
                  · exact ihS st (path ++ [Seg.key "schema"]) _ hInv
                      (avoidsRegistry_append path _ hp)
                  · exact ⟨hInv, growthOk_rfl st⟩
                · exact ⟨hInv, growthOk_rfl st⟩
            · split
              · rename_i sch hsch
                split
                · exact ihS st (path ++ [Seg.key "schema"]) _ hInv
                    (avoidsRegistry_append path _ hp)
                · exact ⟨hInv, growthOk_rfl st⟩
              · exact ⟨hInv, growthOk_rfl st⟩
          · split
            · rename_i sch hsch
              split
              · exact ihS st (path ++ [Seg.key "schema"]) _ hInv
                  (avoidsRegistry_append path _ hp)
              · exact ⟨hInv, growthOk_rfl st⟩
            · exact ⟨hInv, growthOk_rfl st⟩
        · exact ⟨hInv, growthOk_rfl st⟩
      · exact ⟨hInv, growthOk_rfl st⟩

theorem normalizeOperation_growth (fuel : Nat) (st : NState) (pathKey method : String)
    (hInv : InvN st) :
    InvN (normalizeOperation fuel st pathKey method) ∧
      growthOk st (normalizeOperation fuel st pathKey method) := by
  obtain ⟨-, hS, hP⟩ := normalizer_growth fuel
  have hparamsafe : ∀ i : Nat, avoidsRegistry ([Seg.key "paths", Seg.key pathKey,
      Seg.key method] ++ [Seg.key "parameters", Seg.idx i]) :=
    fun i => avoidsRegistry_append _ _ (avoidsRegistry_of_len3 _ _ _ [])
  unfold normalizeOperation
  dsimp only
  split
  · split
    · split
      · split
        · split
          · refine growth_fold_step _ _ _ _ ?_ ?_
            · intro s rkv hs
              split
              · split
                · split
                  · split
                    · refine growth_fold_step _ _ _ _ ?_ ⟨hs, growthOk_rfl s⟩
                      intro s2 mt hs2
                      exact hS s2 _ _ hs2
                        (avoidsRegistry_append _ _ (avoidsRegistry_of_len3 _ _ _ []))
                    · exact ⟨hs, growthOk_rfl s⟩
                  · exact ⟨hs, growthOk_rfl s⟩
                · exact ⟨hs, growthOk_rfl s⟩
              · exact ⟨hs, growthOk_rfl s⟩
            · split
              · split
                · refine growth_fold_step _ _ _ _ ?_ ?_
                  · intro s mt hs
                    exact hS s _ _ hs
                      (avoidsRegistry_append _ _ (avoidsRegistry_of_len3 _ _ _ []))
                  · split
                    · refine growth_foldl _ ?_ _ _ hInv
                      intro s i hs
                      exact hP s _ _ hs (hparamsafe i)
                    · exact ⟨hInv, growthOk_rfl st⟩
                · split
                  · refine growth_foldl _ ?_ _ _ hInv
                    intro s i hs
                    exact hP s _ _ hs (hparamsafe i)
                  · exact ⟨hInv, growthOk_rfl st⟩
              · split
                · refine growth_foldl _ ?_ _ _ hInv
                  intro s i hs
                  exact hP s _ _ hs (hparamsafe i)
                · exact ⟨hInv, growthOk_rfl st⟩
          · split
            · split
              · refine growth_fold_step _ _ _ _ ?_ ?_
                · intro s mt hs
                  exact hS s _ _ hs
                    (avoidsRegistry_append _ _ (avoidsRegistry_of_len3 _ _ _ []))
                · split
                  · refine growth_foldl _ ?_ _ _ hInv
                    intro s i hs
                    exact hP s _ _ hs (hparamsafe i)
                  · exact ⟨hInv, growthOk_rfl st⟩
              · split
                · refine growth_foldl _ ?_ _ _ hInv
                  intro s i hs
                  exact hP s _ _ hs (hparamsafe i)
                · exact ⟨hInv, growthOk_rfl st⟩
            · split
              · refine growth_foldl _ ?_ _ _ hInv
                intro s i hs
                exact hP s _ _ hs (hparamsafe i)
              · exact ⟨hInv, growthOk_rfl st⟩
        · split
          · split
            · refine growth_fold_step _ _ _ _ ?_ ?_
              · intro s mt hs
                exact hS s _ _ hs
                  (avoidsRegistry_append _ _ (avoidsRegistry_of_len3 _ _ _ []))
              · split
                · refine growth_foldl _ ?_ _ _ hInv
                  intro s i hs
                  exact hP s _ _ hs (hparamsafe i)
                · exact ⟨hInv, growthOk_rfl st⟩
            · split
              · refine growth_foldl _ ?_ _ _ hInv
                intro s i hs
                exact hP s _ _ hs (hparamsafe i)
              · exact ⟨hInv, growthOk_rfl st⟩
          · split
            · refine growth_foldl _ ?_ _ _ hInv
              intro s i hs
              exact hP s _ _ hs (hparamsafe i)
            · exact ⟨hInv, growthOk_rfl st⟩
      · split
        · split
          · refine growth_fold_step _ _ _ _ ?_ ?_
            · intro s mt hs
              exact hS s _ _ hs
                (avoidsRegistry_append _ _ (avoidsRegistry_of_len3 _ _ _ []))
            · split
              · refine growth_foldl _ ?_ _ _ hInv
                intro s i hs
                exact hP s _ _ hs (hparamsafe i)
              · exact ⟨hInv, growthOk_rfl st⟩
          · split
            · refine growth_foldl _ ?_ _ _ hInv
              intro s i hs
              exact hP s _ _ hs (hparamsafe i)
            · exact ⟨hInv, growthOk_rfl st⟩
        · split
          · refine growth_foldl _ ?_ _ _ hInv
            intro s i hs
            exact hP s _ _ hs (hparamsafe i)
          · exact ⟨hInv, growthOk_rfl st⟩
    · exact ⟨hInv, growthOk_rfl st⟩
  · exact ⟨hInv, growthOk_rfl st⟩


theorem growth_close (fields : List (String × JVal)) (names : List String) (X : NState)
    (h : InvN X ∧ growthOk ⟨JVal.obj fields, [], names, 0⟩ X) :
    schemasCountOf X.doc = schemasCountOf (JVal.obj fields) + X.hoistedCount := by
  have h2 := h.2
  unfold growthOk at h2
  dsimp only at h2
  omega

theorem normalizeSchemaRefs_growth (d : JVal)
    (hcs : hasComponentsSchemas d = true)
    (hrefs : refsOkBy pointerSafeB d = true) :
    schemasCountOf (normalizeSchemaRefs d).1 =
      schemasCountOf d + (normalizeSchemaRefs d).2 := by
  unfold hasComponentsSchemas at hcs
  split at hcs
  case _ sf heq =>
    unfold oGet at heq
    cases hm : d.jGet "components" with
    | none => rw [hm] at heq; cases heq
    | some c =>
        rw [hm] at heq
        simp only [Option.bind] at heq
        cases c with
        | obj cf =>
            simp only [JVal.jGet] at heq
            cases d with
            | obj fields =>
                simp only [JVal.jGet] at hm
                unfold normalizeSchemaRefs
                simp only [JVal.isObjLike, Bool.not_true, Bool.false_eq_true, if_false,
                  JVal.jGet, hm, Option.getD, truthy, if_true, heq,
                  JVal.jSet, setField_self fields "components" (JVal.obj cf) hm]
                obtain ⟨-, hGS, hGP⟩ :=
                  normalizer_growth (2 * sizeJ (JVal.obj fields) + 4)
                have hkeys : ((oGet ((JVal.obj fields).jGet "components") "schemas").getD
                    (JVal.obj [])).keys = sf.map Prod.fst := by
                  unfold oGet
                  rw [show (JVal.obj fields).jGet "components" = some (JVal.obj cf) from hm]
                  simp only [Option.bind]
                  rw [show (JVal.obj cf).jGet "schemas" = some (JVal.obj sf) from heq]
                  rfl
                refine growth_close fields
                  (((oGet ((JVal.obj fields).jGet "components") "schemas").getD
                    (JVal.obj [])).keys) _ ?_
                refine growth_fold_step _ _ _ _ ?_ (growth_fold_step _ _ _ _ ?_
                  (growth_fold_step _ _ _ _ ?_ (growth_fold_step _ _ _ _ ?_
                    (growth_foldl _ ?_ _ _ ?_))))
                · -- requestBodies step
                  intro s rname hs
                  split
                  · split
                    · refine growth_fold_step _ _ _ _ ?_ ⟨hs, growthOk_rfl s⟩
                      intro s2 mt hs2
                      exact hGS s2 _ _ hs2 (avoidsRegistry_of_len3 _ _ _ _)
                    · exact ⟨hs, growthOk_rfl s⟩
                  · exact ⟨hs, growthOk_rfl s⟩
                · -- responses step
                  intro s rname hs
                  split
                  · split
                    · refine growth_fold_step _ _ _ _ ?_ ⟨hs, growthOk_rfl s⟩
                      intro s2 mt hs2
                      exact hGS s2 _ _ hs2 (avoidsRegistry_of_len3 _ _ _ _)
                    · exact ⟨hs, growthOk_rfl s⟩
                  · exact ⟨hs, growthOk_rfl s⟩
                · -- paths step
                  intro s pathKey hs
                  split
                  · split
                    · split
                      · refine growth_fold_step _ _ _ _ ?_ ?_
                        · intro s2 method hs2
                          split
                          · exact normalizeOperation_growth _ s2 pathKey method hs2
                          · exact ⟨hs2, growthOk_rfl s2⟩
                        · split
                          · refine growth_foldl _ ?_ _ _ hs
                            intro s2 i hs2
                            exact hGP s2 _ _ hs2 (avoidsRegistry_of_len3 _ _ _ _)
                          · exact ⟨hs, growthOk_rfl s⟩
                      · split
                        · refine growth_foldl _ ?_ _ _ hs
                          intro s2 i hs2
                          exact hGP s2 _ _ hs2 (avoidsRegistry_of_len3 _ _ _ _)
                        · exact ⟨hs, growthOk_rfl s⟩
                    · exact ⟨hs, growthOk_rfl s⟩
                  · exact ⟨hs, growthOk_rfl s⟩
                · -- component parameters step
                  intro s pname hs
                  exact hGP s _ _ hs (avoidsRegistry_of_len3 _ _ _ _)
                · -- component schemas step
                  intro s sname hs
                  exact hGS s _ _ hs (avoidsRegistry_of_len3 _ _ _ _)
                · -- the initial state satisfies the invariant
                  refine ⟨hrefs, sf.map Prod.fst, ?_, ?_⟩
                  · rw [schemasShape_expand]
                    rw [show getSeg (JVal.obj fields) (Seg.key "components") =
                      some (JVal.obj cf) from hm]
                    show shapeAtSchemas (JVal.obj cf) = _
                    unfold shapeAtSchemas
                    rw [show getSeg (JVal.obj cf) (Seg.key "schemas") =
                      some (JVal.obj sf) from heq]
                    rfl
                  · intro n hn
                    simp only [oGet, Option.bind, JVal.jGet, heq, Option.getD, JVal.keys]
                    exact hn
            | null => cases hm
            | bool b => cases hm
            | num n => cases hm
            | str s => cases hm
            | arr items => cases hm
        | null => cases heq
        | bool b => cases heq
        | num n => cases heq
        | str t => cases heq
        | arr items => cases heq
  case _ hne =>
    cases hcs


/-- A document with a non-canonical pointer that resolves to a pure alias
(`{$ref: canonical}`): the normalizer's alias branch rewrites the pointer
without synthesizing a component. -/
def aliasPointerDoc : JVal := JVal.obj [("components", JVal.obj [("schemas", JVal.obj [
  ("A", JVal.obj [("properties", JVal.obj [("x",
      JVal.obj [("$ref", JVal.str "#/components/schemas/Foo/properties/bar")])])]),
  ("Foo", JVal.obj [("properties", JVal.obj [("bar",
      JVal.obj [("$ref", JVal.str "#/components/schemas/Baz")])])]),
  ("Baz", JVal.obj [("type", JVal.str "object")])
])])]

/-- On `aliasPointerDoc` the non-canonical pointer
`#/components/schemas/Foo/properties/bar` is encountered (its location is
rewritten) and resolves against the document, yet the registry does not
grow at all: the resolved value is a pure `$ref` alias, so the normalizer
reuses the referenced component instead of synthesizing one.  The registry
therefore does not grow "by exactly the number of distinct non-canonical
pointers encountered and successfully resolved" (here that number is 1,
the growth is 0). -/
theorem registry_growth_counterexample :
    shouldHoistRef "#/components/schemas/Foo/properties/bar" = true ∧
    (resolvedValue aliasPointerDoc "#/components/schemas/Foo/properties/bar").isSome
      = true ∧
    (normalizeSchemaRefs aliasPointerDoc).2 = 0 ∧
    schemasCountOf (normalizeSchemaRefs aliasPointerDoc).1 =
      schemasCountOf aliasPointerDoc ∧
    getAt (normalizeSchemaRefs aliasPointerDoc).1 [Seg.key "components",
      Seg.key "schemas", Seg.key "A", Seg.key "properties", Seg.key "x"] =
      some (JVal.obj [("$ref", JVal.str "#/components/schemas/Baz")]) := by
  set_option maxRecDepth 40000 in
  set_option maxHeartbeats 1600000 in
  refine ⟨by decide, by decide, by decide, by decide, by decide⟩

/-- C5: after the normalizer runs, `components.schemas` has grown by
exactly the run's `hoistedCount` — the number of pointers for which a
fresh component was actually synthesized — provided the input's
`components.schemas` is an object and no `$ref` of the input addresses the
`components` container or the registry itself.  (This corrects the claim's
measure: a distinct non-canonical pointer that resolves to a pure alias is
encountered and resolved but synthesizes nothing, as `aliasPointerDoc`
shows, so the registry does not grow by the number of distinct resolved
non-canonical pointers.) -/
theorem registry_growth (d : JVal)
    (hcs : hasComponentsSchemas d = true)
    (hrefs : refsOkBy pointerSafeB d = true) :
    schemasCountOf (normalizeSchemaRefs d).1 =
      schemasCountOf d + (normalizeSchemaRefs d).2 :=
  normalizeSchemaRefs_growth d hcs hrefs

/-- A document whose single non-canonical pointer is hoisted into one
fresh component. -/
def hoistOneDoc : JVal := JVal.obj [("components", JVal.obj [("schemas", JVal.obj [
  ("B", JVal.obj [("properties", JVal.obj [
      ("y", JVal.obj [("$ref", JVal.str "#/components/schemas/B/properties/p")]),
      ("p", JVal.obj [("properties", JVal.obj [("q",
          JVal.obj [("type", JVal.str "string")])])])])])
])])]

theorem registry_growth_witness :
    schemasCountOf (normalizeSchemaRefs hoistOneDoc).1 =
      schemasCountOf hoistOneDoc + (normalizeSchemaRefs hoistOneDoc).2 :=
  registry_growth hoistOneDoc
    (by set_option maxRecDepth 40000 in decide)
    (by set_option maxRecDepth 40000 in set_option maxHeartbeats 1600000 in decide)


mutual
/-- The guarantee `cleanBrokenRefs` establishes: every canonical
`#/components/schemas/...` reference held by an object's `$ref` field
names a truthy entry of the available registry, hereditarily — except
inside array elements that themselves carry a truthy `$ref` (the sweep
keeps those elements after checking only their own reference name, without
descending into them). -/
def cleanOk (avail : List (String × JVal)) : JVal → Bool
  | JVal.arr items => cleanOkL avail items
  | JVal.obj fields => cleanOkF avail fields
  | _ => true
def cleanOkL (avail : List (String × JVal)) : List JVal → Bool
  | [] => true
  | item :: rest =>
      (if item.isObjLike && truthy (item.jGet "$ref") then
        match item.jGet "$ref" with
        | some (JVal.str s) =>
            truthy ((avail.lookup (jsReplaceOnce s "#/components/schemas/")).bind some)
        | _ => true
      else cleanOk avail item) && cleanOkL avail rest
def cleanOkF (avail : List (String × JVal)) : List (String × JVal) → Bool
  | [] => true
  | (k, v) :: rest =>
      (if k = "$ref" then
        match v with
        | JVal.str s =>
            if jsStartsWith s "#/components/schemas/" then
              truthy ((avail.lookup (jsReplaceOnce s "#/components/schemas/")).bind some)
            else true
        | _ => cleanOk avail v
      else cleanOk avail v) && cleanOkF avail rest
end

theorem cleanFields_ref_falsy (avail : List (String × JVal)) :
    ∀ fields : List (String × JVal), truthy (fields.lookup "$ref") = false →
    truthy ((cleanBrokenFields avail fields).lookup "$ref") = false := by
  intro fields
  induction fields with
  | nil => intro h; exact h
  | cons kv rest ih =>
      obtain ⟨k, v⟩ := kv
      intro h
      unfold cleanBrokenFields
      by_cases hk : k = "$ref"
      · subst hk
        rw [if_pos rfl]
        simp only [List.lookup, beq_self_eq_true] at h
        cases v with
        | str s =>
            dsimp only
            have hs0 : s = "" := by
              unfold truthy at h
              simpa using h
            subst hs0
            rw [if_neg (by decide : ¬ jsStartsWith "" "#/components/schemas/" = true)]
            show truthy (List.lookup "$ref" (("$ref", JVal.str "") ::
              cleanBrokenFields avail rest)) = false
            simp only [List.lookup, beq_self_eq_true]
            exact h
        | obj f2 => exact Bool.noConfusion h
        | arr l2 => exact Bool.noConfusion h
        | null =>
            show truthy (List.lookup "$ref" (("$ref", JVal.null) ::
              cleanBrokenFields avail rest)) = false
            simp only [List.lookup, beq_self_eq_true]
            exact h
        | bool b =>
            show truthy (List.lookup "$ref" (("$ref", JVal.bool b) ::
              cleanBrokenFields avail rest)) = false
            simp only [List.lookup, beq_self_eq_true]
            exact h
        | num n =>
            show truthy (List.lookup "$ref" (("$ref", JVal.num n) ::
              cleanBrokenFields avail rest)) = false
            simp only [List.lookup, beq_self_eq_true]
            exact h
      · rw [if_neg hk]
        have hbeq : (("$ref" == k) : Bool) = false :=
          beq_eq_false_iff_ne.mpr (fun hc => hk hc.symm)
        simp only [List.lookup, hbeq] at h
        show truthy (List.lookup "$ref" ((k, if v.isObjLike = true then
          cleanBrokenRefs avail v else v) :: cleanBrokenFields avail rest)) = false
        simp only [List.lookup, hbeq]
        exact ih h

theorem cleanBrokenRefs_ref_falsy (avail : List (String × JVal)) (v : JVal)
    (h : truthy (v.jGet "$ref") = false) :
    truthy ((cleanBrokenRefs avail v).jGet "$ref") = false := by
  cases v with
  | obj fields =>
      show truthy ((JVal.obj (if (cleanBrokenFields avail fields).isEmpty &&
        !fields.isEmpty then [("type", JVal.str "object")]
        else cleanBrokenFields avail fields)).jGet "$ref") = false
      split
      · decide
      · exact cleanFields_ref_falsy avail fields h
  | arr items => rfl
  | null => rfl
  | bool b => rfl
  | num n => rfl
  | str s => rfl

mutual
theorem cleanOk_cleanBrokenRefs (avail : List (String × JVal)) :
    (v : JVal) → cleanOk avail (cleanBrokenRefs avail v) = true
  | JVal.arr items => by
      show cleanOkL avail (cleanBrokenList avail items) = true
      exact cleanOkL_cleanBrokenList avail items
  | JVal.obj fields => by
      show cleanOk avail (JVal.obj (if (cleanBrokenFields avail fields).isEmpty &&
        !fields.isEmpty then [("type", JVal.str "object")]
        else cleanBrokenFields avail fields)) = true
      split
      · show cleanOkF avail [("type", JVal.str "object")] = true
        unfold cleanOkF
        rw [if_neg (by decide : ¬ ("type" : String) = "$ref")]
        rfl
      · exact cleanOkF_cleanBrokenFields avail fields
  | JVal.null => rfl
  | JVal.bool b => rfl
  | JVal.num n => rfl
  | JVal.str s => rfl

theorem cleanOkL_cleanBrokenList (avail : List (String × JVal)) :
    (items : List JVal) → cleanOkL avail (cleanBrokenList avail items) = true
  | [] => rfl
  | item :: rest => by
      show cleanOkL avail (cleanBrokenList avail (item :: rest)) = true
      unfold cleanBrokenList
      dsimp only
      split
      · rename_i hguard
        split
        · rename_i s hs
          split
          · rename_i htr
            show cleanOkL avail (item :: cleanBrokenList avail rest) = true
            unfold cleanOkL
            rw [Bool.and_eq_true]
            refine ⟨?_, cleanOkL_cleanBrokenList avail rest⟩
            rw [if_pos hguard, hs]
            exact htr
          · exact cleanOkL_cleanBrokenList avail rest
        · rename_i hno
          show cleanOkL avail (item :: cleanBrokenList avail rest) = true
          unfold cleanOkL
          rw [Bool.and_eq_true]
          refine ⟨?_, cleanOkL_cleanBrokenList avail rest⟩
          rw [if_pos hguard]
          split
          · rename_i s2 hs2
            exact absurd hs2 (hno s2)
          · rfl
      · split
        · rename_i hguard hobj
          show cleanOkL avail (cleanBrokenRefs avail item ::
            cleanBrokenList avail rest) = true
          unfold cleanOkL
          rw [Bool.and_eq_true]
          refine ⟨?_, cleanOkL_cleanBrokenList avail rest⟩
          have hft : truthy (item.jGet "$ref") = false := by
            cases h2 : truthy (item.jGet "$ref") with
            | false => rfl
            | true =>
                exact absurd (by rw [Bool.and_eq_true]; exact ⟨hobj, h2⟩) hguard
          have hfc : truthy ((cleanBrokenRefs avail item).jGet "$ref") = false :=
            cleanBrokenRefs_ref_falsy avail item hft
          rw [if_neg (by
            rw [Bool.and_eq_true]
            intro hc
            rw [hfc] at hc
            exact Bool.noConfusion hc.2)]
          exact cleanOk_cleanBrokenRefs avail item
        · rename_i hguard hnobj
          show cleanOkL avail (item :: cleanBrokenList avail rest) = true
          unfold cleanOkL
          rw [Bool.and_eq_true]
          refine ⟨?_, cleanOkL_cleanBrokenList avail rest⟩
          rw [if_neg (by
            rw [Bool.and_eq_true]
            intro hc
            exact hnobj hc.1)]
          cases item with
          | null => rfl
          | bool b => rfl
          | num n => rfl
          | str s => rfl
          | obj f2 => exact absurd rfl hnobj
          | arr l2 => exact absurd rfl hnobj

theorem cleanOkF_cleanBrokenFields (avail : List (String × JVal)) :
    (fields : List (String × JVal)) →
      cleanOkF avail (cleanBrokenFields avail fields) = true
  | [] => rfl
  | (k, v) :: rest => by
      show cleanOkF avail (cleanBrokenFields avail ((k, v) :: rest)) = true
      unfold cleanBrokenFields
      dsimp only
      by_cases hk : k = "$ref"
      · rw [if_pos hk]
        cases v with
        | str s =>
            dsimp only
            split
            · rename_i hpre
              split
              · rename_i htr
                show cleanOkF avail ((k, JVal.str s) ::
                  cleanBrokenFields avail rest) = true
                unfold cleanOkF
                rw [Bool.and_eq_true]
                refine ⟨?_, cleanOkF_cleanBrokenFields avail rest⟩
                rw [if_pos hk]
                show (if jsStartsWith s "#/components/schemas/" = true then
                  truthy ((avail.lookup
                    (jsReplaceOnce s "#/components/schemas/")).bind some)
                  else true) = true
                rw [if_pos hpre]
                exact htr
              · exact cleanOkF_cleanBrokenFields avail rest
            · rename_i hpre
              show cleanOkF avail ((k, JVal.str s) ::
                cleanBrokenFields avail rest) = true
              unfold cleanOkF
              rw [Bool.and_eq_true]
              refine ⟨?_, cleanOkF_cleanBrokenFields avail rest⟩
              rw [if_pos hk]
              show (if jsStartsWith s "#/components/schemas/" = true then
                truthy ((avail.lookup
                  (jsReplaceOnce s "#/components/schemas/")).bind some)
                else true) = true
              rw [if_neg hpre]
        | obj f2 =>
            dsimp only
            show cleanOkF avail ((k, cleanBrokenRefs avail (JVal.obj f2)) ::
              cleanBrokenFields avail rest) = true
            unfold cleanOkF
            rw [Bool.and_eq_true]
            refine ⟨?_, cleanOkF_cleanBrokenFields avail rest⟩
            rw [if_pos hk]
            exact cleanOk_cleanBrokenRefs avail (JVal.obj f2)
        | arr l2 =>
            dsimp only
            show cleanOkF avail ((k, cleanBrokenRefs avail (JVal.arr l2)) ::
              cleanBrokenFields avail rest) = true
            unfold cleanOkF
            rw [Bool.and_eq_true]
            refine ⟨?_, cleanOkF_cleanBrokenFields avail rest⟩
            rw [if_pos hk]
            exact cleanOk_cleanBrokenRefs avail (JVal.arr l2)
        | null =>
            show cleanOkF avail ((k, JVal.null) ::
              cleanBrokenFields avail rest) = true
            unfold cleanOkF
            rw [Bool.and_eq_true]
            refine ⟨?_, cleanOkF_cleanBrokenFields avail rest⟩
            rw [if_pos hk]
            rfl
        | bool b =>
            show cleanOkF avail ((k, JVal.bool b) ::
              cleanBrokenFields avail rest) = true
            unfold cleanOkF
            rw [Bool.and_eq_true]
            refine ⟨?_, cleanOkF_cleanBrokenFields avail rest⟩
            rw [if_pos hk]
            rfl
        | num n =>
            show cleanOkF avail ((k, JVal.num n) ::
              cleanBrokenFields avail rest) = true
            unfold cleanOkF
            rw [Bool.and_eq_true]
            refine ⟨?_, cleanOkF_cleanBrokenFields avail rest⟩
            rw [if_pos hk]
            rfl
      · rw [if_neg hk]
        cases v with
        | obj f2 =>
            show cleanOkF avail ((k, cleanBrokenRefs avail (JVal.obj f2)) ::
              cleanBrokenFields avail rest) = true
            unfold cleanOkF
            rw [Bool.and_eq_true]
            refine ⟨?_, cleanOkF_cleanBrokenFields avail rest⟩
            rw [if_neg hk]
            exact cleanOk_cleanBrokenRefs avail (JVal.obj f2)
        | arr l2 =>
            show cleanOkF avail ((k, cleanBrokenRefs avail (JVal.arr l2)) ::
              cleanBrokenFields avail rest) = true
            unfold cleanOkF
            rw [Bool.and_eq_true]
            refine ⟨?_, cleanOkF_cleanBrokenFields avail rest⟩
            rw [if_neg hk]
            exact cleanOk_cleanBrokenRefs avail (JVal.arr l2)
        | null =>
            show cleanOkF avail ((k, JVal.null) ::
              cleanBrokenFields avail rest) = true
            unfold cleanOkF
            rw [Bool.and_eq_true]
            refine ⟨?_, cleanOkF_cleanBrokenFields avail rest⟩
            rw [if_neg hk]
            rfl
        | bool b =>
            show cleanOkF avail ((k, JVal.bool b) ::
              cleanBrokenFields avail rest) = true
            unfold cleanOkF
            rw [Bool.and_eq_true]
            refine ⟨?_, cleanOkF_cleanBrokenFields avail rest⟩
            rw [if_neg hk]
            rfl
        | num n =>
            show cleanOkF avail ((k, JVal.num n) ::
              cleanBrokenFields avail rest) = true
            unfold cleanOkF
            rw [Bool.and_eq_true]
            refine ⟨?_, cleanOkF_cleanBrokenFields avail rest⟩
            rw [if_neg hk]
            rfl
        | str s =>
            show cleanOkF avail ((k, JVal.str s) ::
              cleanBrokenFields avail rest) = true
            unfold cleanOkF
            rw [Bool.and_eq_true]
            refine ⟨?_, cleanOkF_cleanBrokenFields avail rest⟩
            rw [if_neg hk]
            rfl

end

/-- A document whose only schema carries an unresolvable, non-canonical
pointer (`#/nope`): the normalizer leaves it unchanged (resolution fails)
and the broken-reference sweep only checks references starting with
`#/components/schemas/`, so the pointer survives the full pipeline. -/
def orphanRefDoc : JVal := JVal.obj [
  ("paths", JVal.obj [("/t", JVal.obj [("get", JVal.obj [
      ("operationId", JVal.str "getT"),
      ("responses", JVal.obj [("200", JVal.obj [("content", JVal.obj [
          ("application/json", JVal.obj [("schema", JVal.obj [
              ("$ref", JVal.str "#/components/schemas/T")])])])])])])])]),
  ("components", JVal.obj [("schemas", JVal.obj [
      ("T", JVal.obj [("properties", JVal.obj [("x",
          JVal.obj [("$ref", JVal.str "#/nope")])])])])])]

def orphanEndpoints : List Endpoint := [⟨"/t", "get", "get-t", false⟩]

/-- The document the pipeline would write for `orphanRefDoc`. -/
def orphanRefOut : JVal :=
  ((createAndSaveSimplifiedOpenAPI orphanEndpoints orphanRefDoc).toOption).getD JVal.null

set_option maxRecDepth 40000 in
set_option maxHeartbeats 1600000 in
/-- The full pipeline completes successfully on `orphanRefDoc`, yet its
output still contains the `$ref` string `#/nope` (inside
`components.schemas.T`), and that pointer does not resolve to any existing
entry of the output — an orphan reference, refuting the post-pipeline
invariant as stated. -/
theorem no_orphan_refs_counterexample :
    (createAndSaveSimplifiedOpenAPI orphanEndpoints orphanRefDoc).isOk = true ∧
    getAt orphanRefOut [Seg.key "components", Seg.key "schemas", Seg.key "T",
      Seg.key "properties", Seg.key "x", Seg.key "$ref"] =
      some (JVal.str "#/nope") ∧
    resolvedValue orphanRefOut "#/nope" = none := by
  refine ⟨by decide, by decide, by decide⟩

/-- C1: the no-orphan-reference guarantee holds exactly for the
references the broken-reference sweep checks: after `cleanBrokenRefs`
runs over a value, every canonical `#/components/schemas/...` reference
held by an object's `$ref` field names a truthy entry of the available
registry, hereditarily — except inside array elements that themselves
carry a `$ref` (kept after checking only their own reference name).  The
original claim fails for the full pipeline: non-canonical pointers
(`orphanRefDoc`) are never checked, and `components.requestBodies` values
are never swept at all. -/
theorem no_orphan_refs (availableSchemas : List (String × JVal)) (v : JVal) :
    cleanOk availableSchemas (cleanBrokenRefs availableSchemas v) = true :=
  cleanOk_cleanBrokenRefs availableSchemas v


example : shouldHoistRef "#/components/schemas/Foo" = false := by decide
example : shouldHoistRef "#/components/schemas/Foo/properties/bar" = true := by decide
example : shouldHoistRef "#/components/parameters/P" = false := by decide
example : shouldHoistRef "#/properties/shared" = true := by decide
example : shouldHoistRef "#/$defs/X" = false := by decide
example : shouldHoistRef "https://x#/a" = false := by decide
example : toPascalCase "sharedThing" = "SharedThing" := by decide
example : toPascalCase "GET /test" = "GETTest" := by decide
